import Mathlib

/-!
Verification of the minicircle editing engine against its specification.

The definitions below are a shallow embedding of the Python sources in
src/minicircle_editing/ (docking.py, edit_node.py, edit_trees.py,
type_definitions.py, sequence_import.py).  Sequences are lists of
characters in their canonical orientation (3' to 5' for messengers, 5' to
3' for guides, exactly the strings the code compares and slices).  Machine
floats used for MFE values and probabilities are modelled as rationals or
reals, list indices as naturals, and the external RNA.cofold routine as an
explicit oracle parameter.
-/

namespace Minicircle

/-- Python slice s[a:b] for nonnegative bounds: empty when b is at most a,
clamped at the end of the list. -/
def pySlice (s : List Char) (a b : Nat) : List Char :=
  (s.drop a).take (b - a)

/-- The node classifications from type_definitions.NodeType. -/
inductive NodeType where
  | ROOT
  | ACTIVE
  | LEAF
  | COMPLETE
  | MERGED
deriving DecidableEq, Repr

/-- The cofold modes from type_definitions.CofoldMode. -/
inductive CofoldMode where
  | WHOLE_GUIDE
  | TO_INDEX
  | TO_INDEX_PLUS
  | WINDOW_CENTRED
deriving DecidableEq, Repr

/-! ## Docking engine (docking.py) -/

/-- The Watson-Crick plus wobble pairs, as tested by get_index
(messenger base, guide base). -/
def matchSet : List (Char × Char) :=
  [('g','c'), ('c','g'), ('a','u'), ('u','a'), ('g','u'), ('u','g')]

/-- The scanning loop of docking.get_index.  State: anchor_length,
mismatches, consecutive_mismatches.  The loop breaks as soon as the
mismatch count equals the allowance, after counting the current pair. -/
def anchorScan (mmAllowed : Nat) :
    List (Char × Char) → Nat → Nat → Nat → Nat × Nat × Nat
  | [], a, mm, c => (a, mm, c)
  | (m, g) :: rest, a, mm, c =>
    let mm' := if (m, g) ∈ matchSet then mm else mm + 1
    let c' := if (m, g) ∈ matchSet then 0 else c + 1
    let a' := a + 1
    if mm' = mmAllowed then (a', mm', c')
    else anchorScan mmAllowed rest a' mm' c'

/-- docking.get_index: aligns the pair from the dock position and returns
the base at which editing begins, or 0 when the anchor reaches too close
to the end of the guide. -/
def getIndex (messenger guide : List Char) (mIndex : Nat)
    (mmAllowed gea : Nat) : Nat :=
  let pairs := (pySlice messenger mIndex (mIndex + guide.length)).zip guide
  let scan := anchorScan mmAllowed pairs 0 0 0
  let gIdx := scan.1 - scan.2.2
  if gIdx + gea ≥ guide.length then 0 else gIdx

/-- The claim's reading of get_index, written from the specification's
words: the candidate is discarded (0 returned) only when strictly fewer
than guide_end_allowance bases remain before the end of the guide. -/
def getIndexClaimed (messenger guide : List Char) (mIndex : Nat)
    (mmAllowed gea : Nat) : Nat :=
  let pairs := (pySlice messenger mIndex (mIndex + guide.length)).zip guide
  let scan := anchorScan mmAllowed pairs 0 0 0
  let gIdx := scan.1 - scan.2.2
  if guide.length - gIdx < gea then 0 else gIdx

/-- A selected duplex as assembled by docking.select_guides:
guide name, dock position and the computed gIndex. -/
structure Duplex where
  guideName : String
  mDock : Nat
  gIndex : Nat
deriving DecidableEq, Repr

/-- The final selection loop of docking.select_guides (lines 236-251):
walk the MFE-ranked candidate list, stop once no_of_guides duplexes are
kept, skip guides already used, and keep a candidate only when its
computed gIndex is at least min_anchor. -/
def selectLoop (messenger : List Char) (guides : String → List Char)
    (mmAllowed gea minAnchor noOfGuides : Nat) :
    List (String × Nat) → List Duplex → List Duplex
  | [], acc => acc
  | (name, dock) :: rest, acc =>
    if acc.length = noOfGuides then acc
    else if name ∈ acc.map Duplex.guideName then
      selectLoop messenger guides mmAllowed gea minAnchor noOfGuides rest acc
    else
      let g := getIndex messenger (guides name) dock mmAllowed gea
      if minAnchor ≤ g then
        selectLoop messenger guides mmAllowed gea minAnchor noOfGuides rest
          (acc ++ [⟨name, dock, g⟩])
      else
        selectLoop messenger guides mmAllowed gea minAnchor noOfGuides rest acc

/-- docking.gen_cofold_string.  The gIndex argument is None or an integer;
Python tests its truthiness, so 0 and None take the same branch.  On the
truthy branch the function dereferences CofoldMode.EDITING_WINDOW, a
member that type_definitions.CofoldMode does not define (it defines
WINDOW_CENTRED), so every truthy call raises AttributeError before
returning; that outcome is modelled as none.  On the falsy branch the
guide fragment is the proportion_to_dock prefix and the messenger
fragment the matching slice at docking_idx; the degenerate-string check
at the end only prints and sleeps, returning the string unchanged.
Python computes int(len(guide) * proportion), which truncates toward
zero; for the nonnegative proportion of the run settings this equals
(len * numerator) / denominator in natural division, the form used
here. -/
def genCofoldString (cofoldMode : CofoldMode) (messenger guide : List Char)
    (dockingIdx : Nat) (gIndex : Option Int) (proportionToDock : ℚ)
    (editingWindow : Nat) : Option (List Char) :=
  let truthy : Bool := match gIndex with
    | none => false
    | some z => z != 0
  if truthy then
    none
  else
    let trimmedIdx := guide.length * proportionToDock.num.toNat /
      proportionToDock.den
    let guideTrimmed := guide.take trimmedIdx
    let midxLower := dockingIdx
    let midxUpper := min (guideTrimmed.length + dockingIdx) messenger.length
    let mrnaTrimmed := pySlice messenger midxLower midxUpper
    some (mrnaTrimmed.reverse ++ '&' :: guideTrimmed)

/-- docking.determine_mfe sends every generated cofold string straight to
RNA.cofold; there is no guard between string generation and the oracle
call.  The oracle is the external folding routine. -/
def determineMfeCall (oracle : List Char → ℚ) (cofoldMode : CofoldMode)
    (messenger guide : List Char) (dockingIdx : Nat)
    (proportionToDock : ℚ) (editingWindow : Nat) : Option ℚ :=
  (genCofoldString cofoldMode messenger guide dockingIdx none
      proportionToDock editingWindow).map oracle

/-- Every duplex kept by the selection loop either was already in the
accumulator or passed the min_anchor gate with the gIndex computed by
get_index. -/
theorem selectLoop_mem {messenger : List Char} {guides : String → List Char}
    {mmAllowed gea minAnchor noOfGuides : Nat} {d : Duplex} :
    ∀ (cands : List (String × Nat)) (acc : List Duplex),
      d ∈ selectLoop messenger guides mmAllowed gea minAnchor noOfGuides
            cands acc →
      d ∈ acc ∨ (minAnchor ≤ d.gIndex ∧
        d.gIndex = getIndex messenger (guides d.guideName) d.mDock
          mmAllowed gea) := by
  intro cands
  induction cands with
  | nil =>
    intro acc h
    exact Or.inl h
  | cons c rest ih =>
    intro acc h
    obtain ⟨name, dock⟩ := c
    simp only [selectLoop] at h
    by_cases hlen : acc.length = noOfGuides
    · simp [hlen] at h
      exact Or.inl h
    · simp only [hlen, if_false] at h
      by_cases hdup : name ∈ acc.map Duplex.guideName
      · simp only [hdup, if_true] at h
        exact ih acc h
      · simp only [hdup, if_false] at h
        by_cases hg : minAnchor ≤ getIndex messenger (guides name) dock
            mmAllowed gea
        · simp only [hg, if_true] at h
          rcases ih _ h with hmem | hprop
          · rcases List.mem_append.mp hmem with hmem | hmem
            · exact Or.inl hmem
            · right
              rcases List.mem_singleton.mp hmem with rfl
              exact ⟨hg, rfl⟩
          · exact Or.inr hprop
        · simp only [hg, if_false] at h
          exact ih acc h

/-- Claim C7 (amended): get_index scans pairs from the dock position,
counting a mismatch for every pair outside the Watson-Crick/wobble set and
stopping when the count reaches the anchor allowance; it returns
anchor_length minus the consecutive trailing mismatches, except that it
returns 0 whenever that value leaves at most guide_end_allowance bases
(not: strictly fewer) before the end of the guide; and select_guides
includes a candidate duplex only when the resulting gIndex is at least
min_anchor, the gIndex recorded being exactly the one computed by
get_index. -/
theorem claim_C7 (messenger guide : List Char) (mIndex mmAllowed gea
    minAnchor noOfGuides : Nat) (guides : String → List Char)
    (cands : List (String × Nat)) (d : Duplex)
    (hd : d ∈ selectLoop messenger guides mmAllowed gea minAnchor
        noOfGuides cands []) :
    (getIndex messenger guide mIndex mmAllowed gea =
      (let scan := anchorScan mmAllowed
          ((pySlice messenger mIndex (mIndex + guide.length)).zip guide) 0 0 0
       if guide.length - (scan.1 - scan.2.2) ≤ gea then 0
       else scan.1 - scan.2.2)) ∧
    minAnchor ≤ d.gIndex ∧
    d.gIndex = getIndex messenger (guides d.guideName) d.mDock mmAllowed
      gea := by
  refine ⟨?_, ?_⟩
  · show getIndex messenger guide mIndex mmAllowed gea = _
    simp only [getIndex]
    split
    · rename_i h
      rw [if_pos]
      omega
    · rename_i h
      rw [if_neg]
      omega
  · rcases selectLoop_mem cands [] hd with hmem | hprop
    · simp at hmem
    · exact hprop

/-- Witness for claim C7 at a concrete run: messenger ccccccccgg against
a ten-g guide docks with anchor 10, two trailing mismatches, gIndex 8,
which passes the gate with allowance 1 and min_anchor 8. -/
theorem claim_C7_witness :
    (⟨"g1", 0, 8⟩ : Duplex) ∈ selectLoop "ccccccccgg".toList
        (fun _ => "gggggggggg".toList) 2 1 8 1 [("g1", 0)] [] ∧
    8 ≤ (⟨"g1", 0, 8⟩ : Duplex).gIndex ∧
    (⟨"g1", 0, 8⟩ : Duplex).gIndex =
      getIndex "ccccccccgg".toList
        ((fun _ => "gggggggggg".toList) (⟨"g1", 0, 8⟩ : Duplex).guideName)
        (⟨"g1", 0, 8⟩ : Duplex).mDock 2 1 := by
  have hd : (⟨"g1", 0, 8⟩ : Duplex) ∈ selectLoop "ccccccccgg".toList
      (fun _ => "gggggggggg".toList) 2 1 8 1 [("g1", 0)] [] := by decide
  have h := claim_C7 "ccccccccgg".toList "gggggggggg".toList 0 2 1 8 1
    (fun _ => "gggggggggg".toList) [("g1", 0)] ⟨"g1", 0, 8⟩ hd
  exact ⟨hd, h.2.1, h.2.2⟩

/-- Counterexample to claim C7 as stated: with guide length 10, anchor
allowance 2 and guide_end_allowance 3 the scan over messenger cccccccgg
yields anchor_length 9 with 2 trailing mismatches, so the claimed reading
(discard only when strictly fewer than 3 bases remain: here exactly 3
remain) returns 7, but the code returns 0 because it discards on
gIndex + allowance >= guide length. -/
theorem claim_C7_counterexample :
    getIndex "cccccccgg".toList "gggggggggg".toList 0 2 3 = 0 ∧
    getIndexClaimed "cccccccgg".toList "gggggggggg".toList 0 2 3 = 7 ∧
    getIndex "cccccccgg".toList "gggggggggg".toList 0 2 3 ≠
      getIndexClaimed "cccccccgg".toList "gggggggggg".toList 0 2 3 := by
  refine ⟨by decide, by decide, by decide⟩

/-- Claim C9 (amended): when the dock position is at or beyond the end of
the messenger, gen_cofold_string produces a string whose mRNA part is
empty (it begins with the separator) and still returns it; determine_mfe
then invokes the folding oracle on exactly that string — no rejection
happens anywhere between generation and the oracle call. -/
theorem claim_C9 (oracle : List Char → ℚ) (cofoldMode : CofoldMode)
    (messenger guide : List Char) (dockingIdx : Nat)
    (proportionToDock : ℚ) (editingWindow : Nat)
    (hdock : messenger.length ≤ dockingIdx) :
    genCofoldString cofoldMode messenger guide dockingIdx none
        proportionToDock editingWindow =
      some ('&' :: guide.take
        (guide.length * proportionToDock.num.toNat /
          proportionToDock.den)) ∧
    determineMfeCall oracle cofoldMode messenger guide dockingIdx
        proportionToDock editingWindow =
      some (oracle ('&' :: guide.take
        (guide.length * proportionToDock.num.toNat /
          proportionToDock.den))) := by
  have hempty : pySlice messenger dockingIdx
      (min ((guide.take
        (guide.length * proportionToDock.num.toNat /
          proportionToDock.den)).length +
          dockingIdx) messenger.length) = [] := by
    simp only [pySlice]
    rw [List.drop_eq_nil_of_le hdock]
    simp
  constructor
  · simp only [genCofoldString, hempty]
    rfl
  · simp only [determineMfeCall, genCofoldString, hempty]
    rfl

/-- Witness for claim C9: messenger acgu with dock index 4 and
proportion_to_dock 1/2 of a four-base guide produces the degenerate
string &gg, which is handed to the oracle unchanged. -/
theorem claim_C9_witness :
    genCofoldString CofoldMode.TO_INDEX_PLUS "acgu".toList "gggg".toList 4
        none (mkRat 1 2) 7 = some "&gg".toList ∧
    determineMfeCall (fun s => (s.length : ℚ)) CofoldMode.TO_INDEX_PLUS
        "acgu".toList "gggg".toList 4 (mkRat 1 2) 7 = some 3 := by
  have h := claim_C9 (fun s => (s.length : ℚ)) CofoldMode.TO_INDEX_PLUS
    "acgu".toList "gggg".toList 4 (mkRat 1 2) 7 (by decide)
  refine ⟨?_, ?_⟩
  · rw [h.1]
    decide
  · rw [h.2]
    decide

/-- Counterexample to claim C9 as stated: the claim says a cofold string
with an empty mRNA fragment is rejected before the oracle is invoked, but
on messenger acgu with dock index 4 the degenerate string &gg (empty mRNA
part) is generated, returned, and the oracle is applied to it: an oracle
that answers 1 exactly on that string is observed answering 1. -/
theorem claim_C9_counterexample :
    (genCofoldString CofoldMode.TO_INDEX_PLUS "acgu".toList "gggg".toList 4
        none (mkRat 1 2) 7).map List.head? = some (some '&') ∧
    determineMfeCall (fun s => if s = "&gg".toList then 1 else 0)
        CofoldMode.TO_INDEX_PLUS "acgu".toList "gggg".toList 4 (mkRat 1 2) 7 =
      some 1 := by
  constructor
  · decide
  · decide

/-- Claim C10: with gIndex 0 (or None), gen_cofold_string takes the
untruthy branch regardless of the cofold mode: the guide fragment is the
proportion_to_dock prefix of the guide and the mRNA fragment the
matching-length slice at docking_idx, and the result is identical to the
call without gIndex context. -/
theorem claim_C10 (cofoldMode : CofoldMode) (messenger guide : List Char)
    (dockingIdx : Nat) (proportionToDock : ℚ) (editingWindow : Nat) :
    genCofoldString cofoldMode messenger guide dockingIdx (some 0)
        proportionToDock editingWindow =
      genCofoldString cofoldMode messenger guide dockingIdx none
        proportionToDock editingWindow ∧
    genCofoldString cofoldMode messenger guide dockingIdx (some 0)
        proportionToDock editingWindow =
      some ((pySlice messenger dockingIdx
          (min ((guide.take
            (guide.length * proportionToDock.num.toNat /
              proportionToDock.den)).length +
              dockingIdx) messenger.length)).reverse ++
        '&' :: guide.take
          (guide.length * proportionToDock.num.toNat /
            proportionToDock.den)) := by
  constructor
  · rfl
  · rfl

/-! ## Edit-tree selection (edit_trees.EditTree.select_progressed_nodes) -/

/-- The attributes of a completed edit node that
select_progressed_nodes reads: the DataFrame columns used for filtering
and ranking, the node type, and the progressed flag it sets.  nid stands
for the object identity of the Python node. -/
structure CompNode where
  nid : Nat
  mfe : ℚ
  probabilityProduct : ℚ
  mismatches : Nat
  gIndex : Nat
  editLevel : Nat
  nodeType : NodeType
  progressed : Bool
deriving DecidableEq, Repr

/-- The ranking of select_progressed_nodes: probability_product
descending, then mfe ascending, then mismatches ascending, then gIndex
descending, then edit_level ascending. -/
def RankLe (x y : CompNode) : Prop :=
  if x.probabilityProduct = y.probabilityProduct then
    if x.mfe = y.mfe then
      if x.mismatches = y.mismatches then
        if x.gIndex = y.gIndex then x.editLevel ≤ y.editLevel
        else y.gIndex < x.gIndex
      else x.mismatches < y.mismatches
    else x.mfe < y.mfe
  else y.probabilityProduct < x.probabilityProduct

instance : DecidableRel RankLe := fun x y => by
  unfold RankLe
  infer_instance

theorem rankLe_total : ∀ x y : CompNode, RankLe x y ∨ RankLe y x := by
  intro x y
  unfold RankLe
  split_ifs <;>
    first
      | omega
      | (rename_i h
         rcases lt_or_gt_of_ne (fun hc => h hc.symm) with hlt | hlt
         · exact Or.inl hlt
         · exact Or.inr hlt)
      | simp_all

instance : IsTotal CompNode RankLe := ⟨rankLe_total⟩

theorem rankLe_trans : ∀ x y z : CompNode,
    RankLe x y → RankLe y z → RankLe x z := by
  intro x y z hxy hyz
  unfold RankLe at hxy hyz ⊢
  split_ifs at hxy hyz ⊢ <;> first | omega | linarith | simp_all

instance : IsTrans CompNode RankLe := ⟨rankLe_trans⟩

/-- Setting the progressed flag, as done on each selected node. -/
def setProgressed (n : CompNode) : CompNode :=
  { n with progressed := true }

/-- edit_trees.EditTree.select_progressed_nodes: keep the COMPLETE nodes,
return [] when there are none, otherwise filter to mfe strictly below
min_mfe_to_progress, rank, take the first min(sequences_to_progress,
number of COMPLETE nodes), set progressed on the chosen node objects and
return them.  The second component is the node arena after the in-place
flag updates. -/
def selectProgressedNodes (stp : Nat) (minMfeToProgress : ℚ)
    (nodes : List CompNode) : List CompNode × List CompNode :=
  let complete := nodes.filter (fun n => n.nodeType = NodeType.COMPLETE)
  if complete.isEmpty then ([], nodes)
  else
    let numberToProgress := min stp complete.length
    let ranked := (complete.filter
        (fun n => n.mfe < minMfeToProgress)).insertionSort RankLe
    let chosen := ranked.take numberToProgress
    let chosenIds := chosen.map CompNode.nid
    (chosen.map setProgressed,
     nodes.map (fun n =>
       if n.nid ∈ chosenIds then setProgressed n else n))

theorem rankLe_setProgressed (a b : CompNode) :
    RankLe (setProgressed a) (setProgressed b) ↔ RankLe a b := Iff.rfl

/-- Claim C1: for every completed edit tree, select_progressed_nodes
returns exactly the COMPLETE nodes with mfe strictly below
min_mfe_to_progress, ordered by probability_product descending, mfe
ascending, mismatches ascending, gIndex descending, edit_level ascending,
truncated to at most sequences_to_progress nodes, and marks exactly the
returned nodes progressed. -/
theorem claim_C1 (stp : Nat) (minMfe : ℚ) (nodes : List CompNode)
    (hInit : ∀ n ∈ nodes, n.progressed = false) :
    (∀ n ∈ (selectProgressedNodes stp minMfe nodes).1,
        n.nodeType = NodeType.COMPLETE ∧ n.mfe < minMfe ∧
        n.progressed = true) ∧
    (selectProgressedNodes stp minMfe nodes).1.length ≤ stp ∧
    List.Pairwise RankLe (selectProgressedNodes stp minMfe nodes).1 ∧
    (∃ full : List CompNode,
       full.Perm ((nodes.filter
           (fun n => n.nodeType = NodeType.COMPLETE)).filter
         (fun n => n.mfe < minMfe)) ∧
       List.Pairwise RankLe full ∧
       (selectProgressedNodes stp minMfe nodes).1 =
         (full.take (min stp (nodes.filter
           (fun n => n.nodeType = NodeType.COMPLETE)).length)).map
             setProgressed) ∧
    (∀ m ∈ (selectProgressedNodes stp minMfe nodes).2,
        m.progressed = true ↔
          m.nid ∈ (selectProgressedNodes stp minMfe nodes).1.map
            CompNode.nid) := by
  by_cases hemp :
      (nodes.filter (fun n => n.nodeType = NodeType.COMPLETE)).isEmpty
  · have hsel : selectProgressedNodes stp minMfe nodes = ([], nodes) := by
      simp only [selectProgressedNodes, hemp, if_true]
    rw [hsel]
    refine ⟨by simp, by simp, by simp, ⟨[], ?_, by simp, by simp⟩, ?_⟩
    · rw [List.isEmpty_iff] at hemp
      simp [hemp]
    · intro m hm
      simp only [List.map_nil, List.not_mem_nil, iff_false]
      rw [hInit m hm]
      simp
  · have hsel : selectProgressedNodes stp minMfe nodes =
        (let complete := nodes.filter
            (fun n => n.nodeType = NodeType.COMPLETE)
         let numberToProgress := min stp complete.length
         let ranked := (complete.filter
             (fun n => n.mfe < minMfe)).insertionSort RankLe
         let chosen := ranked.take numberToProgress
         let chosenIds := chosen.map CompNode.nid
         (chosen.map setProgressed,
          nodes.map (fun n =>
            if n.nid ∈ chosenIds then setProgressed n else n))) := by
      simp only [selectProgressedNodes, hemp]
      rfl
    rw [hsel]
    set complete :=
      nodes.filter (fun n => n.nodeType = NodeType.COMPLETE) with hcomp
    set ranked := (complete.filter
        (fun n => n.mfe < minMfe)).insertionSort RankLe with hrank
    set chosen := ranked.take (min stp complete.length) with hchos
    have hchosen_sub : ∀ a ∈ chosen, a ∈ ranked := by
      intro a ha
      exact List.mem_of_mem_take ha
    have hchosen_filter : ∀ a ∈ chosen,
        a ∈ complete.filter (fun n => n.mfe < minMfe) := by
      intro a ha
      exact (List.perm_insertionSort RankLe _).mem_iff.mp (hchosen_sub a ha)
    have hchosen_prop : ∀ a ∈ chosen,
        a.nodeType = NodeType.COMPLETE ∧ a.mfe < minMfe := by
      intro a ha
      have h1 := List.mem_filter.mp (hchosen_filter a ha)
      have h2 := List.mem_filter.mp h1.1
      constructor
      · exact of_decide_eq_true h2.2
      · exact of_decide_eq_true h1.2
    refine ⟨?_, ?_, ?_, ?_, ?_⟩
    · intro n hn
      rcases List.mem_map.mp hn with ⟨a, ha, rfl⟩
      exact ⟨(hchosen_prop a ha).1, (hchosen_prop a ha).2, rfl⟩
    · rw [List.length_map, List.length_take]
      omega
    · rw [List.pairwise_map]
      have hsorted : List.Pairwise RankLe ranked :=
        List.sorted_insertionSort RankLe _
      have htake : List.Pairwise RankLe chosen :=
        hsorted.sublist (List.take_sublist _ _)
      exact htake.imp (fun h => (rankLe_setProgressed _ _).mpr h)
    · exact ⟨ranked, List.perm_insertionSort RankLe _,
        List.sorted_insertionSort RankLe _, rfl⟩
    · intro m hm
      rcases List.mem_map.mp hm with ⟨orig, horig, rfl⟩
      have hids : (chosen.map setProgressed).map CompNode.nid =
          chosen.map CompNode.nid := by
        rw [List.map_map]
        rfl
      rw [hids]
      by_cases hin : orig.nid ∈ chosen.map CompNode.nid
      · simp only [hin, if_true]
        constructor
        · intro _
          exact hin
        · intro _
          rfl
      · simp only [hin, if_false]
        rw [hInit orig horig]
        simp only [Bool.false_eq_true, false_iff]

/-- The three stubbed COMPLETE nodes of the claim's scenario, with mfe
-10, -8 and -5 and equal probability products. -/
def c1nodes : List CompNode :=
  [⟨0, -10, 1, 0, 0, 0, .COMPLETE, false⟩,
   ⟨1, -8, 1, 0, 0, 0, .COMPLETE, false⟩,
   ⟨2, -5, 1, 0, 0, 0, .COMPLETE, false⟩]

/-- Witness for claim C1: with min_mfe_to_progress -7 and
sequences_to_progress 2, the three stubbed COMPLETE nodes with mfe -10,
-8, -5 yield exactly the -10 node then the -8 node, both marked
progressed. -/
theorem claim_C1_witness :
    (∀ n ∈ c1nodes, n.progressed = false) ∧
    (selectProgressedNodes 2 (-7) c1nodes).1.map CompNode.mfe =
      [-10, -8] ∧
    (∀ n ∈ (selectProgressedNodes 2 (-7) c1nodes).1,
      n.nodeType = NodeType.COMPLETE ∧ n.mfe < -7 ∧
      n.progressed = true) ∧
    (selectProgressedNodes 2 (-7) c1nodes).1.length ≤ 2 ∧
    (∀ m ∈ (selectProgressedNodes 2 (-7) c1nodes).2,
      m.progressed = true ↔
        m.nid ∈ (selectProgressedNodes 2 (-7) c1nodes).1.map
          CompNode.nid) := by
  have h := claim_C1 2 (-7) c1nodes (by decide)
  exact ⟨by decide, by decide, h.1, h.2.1, h.2.2.2.2⟩

/-! ## Edit nodes and edit-tree growth (edit_node.py, edit_trees.py)

The growth of an edit tree is embedded as a step function on a store of
nodes.  A node's nid is its position in the store, standing for Python
object identity; lists of nids embed the Python lists of node references,
so two nodes sharing a children list by reference identity is two nodes
holding the same nid list produced by a single generation.  Growth is
modelled in bulk_cofold mode (the shipped run_settings value), in which
grow_tree performs no probability computation. -/

/-- The per-tree context of EditTree: the guide sequence and the initial
cursor positions, plus the run settings the growth reads. -/
structure ETree where
  guide : List Char
  initSeq : List Char
  initM : Nat
  initG : Nat
  mmThreshold : Nat
  gea : Nat
deriving DecidableEq, Repr

/-- An edit node (EditNode and its two subclasses), with the attributes
the growth logic reads and writes. -/
structure ENode where
  nid : Nat
  parent : Option Nat
  action : Char
  seq : List Char
  mIndex : Nat
  gIndex : Nat
  editLevel : Nat
  prevGMismatch : Nat
  mismatches : Nat
  nodeType : NodeType
  toMerge : Bool
  mergeSiblings : List Nat
  children : List Nat
  childDeledit : List Nat
  childrenNondel : List Nat
deriving DecidableEq, Repr

abbrev Store := List ENode

def seqOf (st : Store) (i : Nat) : List Char :=
  (st[i]?.map ENode.seq).getD []

def actionOf (st : Store) (i : Nat) : Char :=
  (st[i]?.map ENode.action).getD 'x'

def typeOf (st : Store) (i : Nat) : NodeType :=
  (st[i]?.map ENode.nodeType).getD NodeType.LEAF

def toMergeOf (st : Store) (i : Nat) : Bool :=
  (st[i]?.map ENode.toMerge).getD false

/-- Update the node with the given identity (EditNode objects are
mutated in place; identities are unique, see nid). -/
def updNode (st : Store) (i : Nat) (f : ENode → ENode) : Store :=
  st.map (fun n => if n.nid = i then f n else n)

/-- EditNode.mismatch_set, as (messenger base, guide base) pairs. -/
def mismatchSet : List (Char × Char) :=
  [('g','g'), ('c','c'), ('a','a'), ('u','u'), ('g','a'),
   ('a','g'), ('a','c'), ('c','a'), ('c','u'), ('u','c')]

/-- EditNode.get_next_index_step: the cursor advances after a pass or an
insert, and stays after a delete or for the root. -/
def nextIndexStep (action : Char) : Nat :=
  if action = 'p' ∨ action = 'i' then 1 else 0

/-- EditNodeChild.edit: apply the action to the inherited sequence at the
child's mIndex (an insert adds a u, a delete removes the base there). -/
def editSeq (action : Char) (mIndex : Nat) (prev : List Char) : List Char :=
  if action = 'i' then prev.take mIndex ++ 'u' :: prev.drop mIndex
  else if action = 'd' then prev.take mIndex ++ prev.drop (mIndex + 1)
  else prev

/-- EditNodeChild.check_mismatch: 1 when the current messenger/guide base
pair is in the mismatch set.  Out-of-range indices (which would raise in
Python and never occur on the reachable calls) read a placeholder x. -/
def checkMismatch (guide seq : List Char) (mIndex gIndex : Nat) : Nat :=
  if (seq.getD mIndex 'x', guide.getD gIndex 'x') ∈ mismatchSet then 1
  else 0

/-- EditNode.set_node_type for a child node (the root returns ROOT
before reaching these tests). -/
def setNodeTypeChild (ctx : ETree) (mismatches gIndex mIndex seqLen : Nat) :
    NodeType :=
  if ctx.mmThreshold < mismatches then
    if ctx.guide.length ≤ gIndex + 1 + ctx.gea then NodeType.COMPLETE
    else NodeType.LEAF
  else if gIndex + 1 = ctx.guide.length ∨ mIndex + 1 = seqLen then
    NodeType.COMPLETE
  else NodeType.ACTIVE

/-- EditNodeChild.__init__: indices advance exactly when the parent's
action is a pass or an insert; the sequence is the parent's edited by
this node's action; the running mismatch total restarts from the
parent's total unless the parent deleted. -/
def mkChild (ctx : ETree) (st : Store) (p : ENode) (action : Char) :
    ENode :=
  let adv := p.action = 'p' ∨ p.action = 'i'
  let mI := if adv then p.mIndex + 1 else p.mIndex
  let gI := if adv then p.gIndex + 1 else p.gIndex
  let sq := editSeq action mI p.seq
  let prevG := if p.action = 'd' then p.prevGMismatch else p.mismatches
  let mm := prevG + checkMismatch ctx.guide sq mI gI
  { nid := st.length
    parent := some p.nid
    action := action
    seq := sq
    mIndex := mI
    gIndex := gI
    editLevel := p.editLevel + 1
    prevGMismatch := prevG
    mismatches := mm
    nodeType := setNodeTypeChild ctx mm gI mI sq.length
    toMerge := false
    mergeSiblings := []
    children := []
    childDeledit := []
    childrenNondel := [] }

/-- EditNode.gen_deledit_child: create the delete child when the last
action was not an insert and the base at the next cursor position is
a u. -/
def genDeleditChild (ctx : ETree) (st : Store) (pid : Nat) : Store :=
  match st[pid]? with
  | none => st
  | some p =>
    let step := nextIndexStep p.action
    if p.action ≠ 'i' ∧ p.seq.getD (p.mIndex + step) 'x' = 'u' then
      let c := mkChild ctx st p 'd'
      updNode st pid
          (fun n => { n with childDeledit := n.childDeledit ++ [c.nid] })
        ++ [c]
    else st

/-- EditNode.gen_nondel_children: when the node has no children yet,
create the pass child and, unless the last action was a delete or the
base at the next cursor position is a u, the insert child; in every case
finish by setting children to the non-delete children followed by the
delete child. -/
def genNondelChildren (ctx : ETree) (st : Store) (pid : Nat) : Store :=
  match st[pid]? with
  | none => st
  | some p =>
    let finish := fun (st' : Store) =>
      updNode st' pid
        (fun n => { n with children := n.childrenNondel ++ n.childDeledit })
    if p.children.isEmpty then
      let step := nextIndexStep p.action
      let passC := mkChild ctx st p 'p'
      let st1 := updNode st pid
          (fun n => { n with childrenNondel := n.childrenNondel ++ [passC.nid] })
        ++ [passC]
      let st2 :=
        if p.action ≠ 'd' ∧ p.seq.getD (p.mIndex + step) 'x' ≠ 'u' then
          match st1[pid]? with
          | none => st1
          | some p1 =>
            let insC := mkChild ctx st1 p1 'i'
            updNode st1 pid
                (fun n =>
                  { n with childrenNondel := n.childrenNondel ++ [insC.nid] })
              ++ [insC]
        else st1
      finish st2
    else finish st

/-- The action-pair compatibility test of grow_tree: the candidate's
action followed by the test node's action must be one of dd, ip, pi, ii,
pp. -/
def mergeOk (a b : Char) : Bool :=
  decide ((a, b) ∈ [('d','d'), ('i','p'), ('p','i'), ('i','i'), ('p','p')])

/-- Mark a merge group: every member receives the whole group as its
merge_siblings (all Python references alias one list) and is flagged
to_merge. -/
def writeGroup (st : Store) (group : List Nat) : Store :=
  st.map (fun n =>
    if n.nid ∈ group then { n with toMerge := true, mergeSiblings := group }
    else n)

/-- The inner merging pass of grow_tree over one cohort of same-index
delete nodes (lines 247-272): repeatedly pop the last unchecked node,
collect the remaining unchecked nodes with the same sequence and a
compatible action (in descending position order, as the code iterates
the reversed match indices), and if any were found mark the whole group
merged; matched nodes leave the unchecked list.  Fuel bounds the
recursion; each iteration removes at least the test node, so any fuel at
least the cohort size is enough. -/
def delMergeRound (st : Store) (unchecked checked : List Nat) :
    Nat → Store × List Nat
  | 0 => (st, checked)
  | fuel + 1 =>
    match unchecked.getLast? with
    | none => (st, checked)
    | some test =>
      let rest := unchecked.dropLast
      let found := (rest.filter (fun i =>
        seqOf st i = seqOf st test ∧
          mergeOk (actionOf st i) (actionOf st test))).reverse
      if found.isEmpty then
        delMergeRound st rest (checked ++ [test]) fuel
      else
        let group := found ++ [test]
        delMergeRound (writeGroup st group)
          (rest.filter (fun i => i ∉ found)) (checked ++ group) fuel

/-- The expansion of the checked delete cohort (lines 274-287): each
still-ACTIVE node generates its children; a node flagged for merging
then turns its whole group MERGED and shares its freshly generated child
lists with every sibling.  Returns the new delete cohort (the delete
children) and all new children. -/
def expandChecked (ctx : ETree) :
    Store → List Nat → Store × List Nat × List Nat
  | st, [] => (st, [], [])
  | st, i :: rest =>
    if typeOf st i = NodeType.ACTIVE then
      let stA := genDeleditChild ctx st i
      let stB := genNondelChildren ctx stA i
      match stB[i]? with
      | none => expandChecked ctx stB rest
      | some node =>
        let stC :=
          if node.toMerge then
            stB.map (fun n =>
              if n.nid ∈ node.mergeSiblings then
                { n with nodeType := NodeType.MERGED
                         children := node.children
                         childDeledit := node.childDeledit
                         childrenNondel := node.childrenNondel }
              else n)
          else stB
        let out := expandChecked ctx stC rest
        (out.1, node.childDeledit ++ out.2.1, node.children ++ out.2.2)
    else expandChecked ctx st rest

/-- The delete-cohort loop of grow_tree (lines 246-289): merge and
expand delete nodes at the same messenger index until no new delete
children appear, accumulating every generated child. -/
def delRounds (ctx : ETree) :
    Nat → Store → List Nat → List Nat → Store × List Nat
  | 0, st, _, sameIdxC => (st, sameIdxC)
  | fuel + 1, st, delNodes, sameIdxC =>
    if delNodes.isEmpty then (st, sameIdxC)
    else
      let r1 := delMergeRound st delNodes [] (delNodes.length + 1)
      let r2 := expandChecked ctx r1.1 r1.2
      delRounds ctx fuel r2.1 r2.2.1 (sameIdxC ++ r2.2.2)

/-- The child-merging pass of grow_tree (lines 297-321), processing the
unchecked child nodes from the last backwards (the argument list is
already reversed): each test node collects every node of the full
current-index list with the same sequence and a compatible action, in
descending position order, new candidates before previously identified
ones; candidates are flagged, and groups of more than one node are
marked MERGED with a shared sibling list. -/
def cMergeTests (currentIds : List Nat) :
    Store → List Nat → Store
  | st, [] => st
  | st, t :: restTests =>
    let matchesDesc := (currentIds.filter (fun i =>
      seqOf st i = seqOf st t ∧
        mergeOk (actionOf st i) (actionOf st t))).reverse
    let newMatches := matchesDesc.filter (fun i => toMergeOf st i = false)
    let prevIdent := matchesDesc.filter (fun i => toMergeOf st i = true)
    let group := newMatches ++ prevIdent
    let st1 := st.map (fun n =>
      if n.nid ∈ newMatches then { n with toMerge := true } else n)
    let st2 :=
      if 1 < group.length then
        st1.map (fun n =>
          if n.nid ∈ group then
            { n with mergeSiblings := group, nodeType := NodeType.MERGED }
          else n)
      else st1
    cMergeTests currentIds st2 restTests

/-- The closing loop of grow_tree (lines 326-345) over every
current-index node: a MERGED node at the end of the guide goes COMPLETE;
a MERGED node without children generates them and every childless
sibling adopts its child lists; an ACTIVE node without children
generates them.  Returns the next frontier. -/
def ciLoop (ctx : ETree) : Store → List Nat → Store × List Nat
  | st, [] => (st, [])
  | st, i :: rest =>
    match st[i]? with
    | none => ciLoop ctx st rest
    | some node =>
      if node.nodeType = NodeType.MERGED then
        if node.gIndex + 1 = ctx.guide.length then
          ciLoop ctx
            (updNode st i (fun n => { n with nodeType := NodeType.COMPLETE }))
            rest
        else
          let stepRes :=
            if node.children.isEmpty then
              let stA := genDeleditChild ctx st i
              let stB := genNondelChildren ctx stA i
              (stB, ((stB[i]?).map ENode.children).getD [])
            else (st, [])
          match stepRes.1[i]? with
          | none => ciLoop ctx stepRes.1 rest
          | some node1 =>
            let stC := stepRes.1.map (fun n =>
              if n.nid ∈ node1.mergeSiblings ∧ n.children.isEmpty then
                { n with children := node1.children
                         childDeledit := node1.childDeledit
                         childrenNondel := node1.childrenNondel }
              else n)
            let out := ciLoop ctx stC rest
            (out.1, stepRes.2 ++ out.2)
      else if node.nodeType = NodeType.ACTIVE then
        if node.children.isEmpty then
          let stA := genDeleditChild ctx st i
          let stB := genNondelChildren ctx stA i
          let newIds := ((stB[i]?).map ENode.children).getD []
          let out := ciLoop ctx stB rest
          (out.1, newIds ++ out.2)
        else ciLoop ctx st rest
      else ciLoop ctx st rest

/-- One grow_tree step on an already-rooted tree: collect the delete
nodes of the frontier, run the delete-cohort loop, merge the resulting
children against the whole current-index list, and close by expanding
the remaining active or merged nodes.  Returns the next frontier. -/
def growStep (ctx : ETree) (fuel : Nat) (st : Store)
    (frontier : List Nat) : Store × List Nat :=
  let delNodes := frontier.filter (fun i => actionOf st i = 'd')
  let r := delRounds ctx fuel st delNodes []
  let sameIdxC := r.2
  let cUnchecked := sameIdxC.filter (fun i =>
    typeOf r.1 i ≠ NodeType.MERGED)
  let current2 := frontier ++ sameIdxC
  let st2 := cMergeTests current2 r.1 cUnchecked.reverse
  ciLoop ctx st2 current2

/-- The root node (EditNodeRoot). -/
def mkRoot (ctx : ETree) : ENode :=
  { nid := 0
    parent := none
    action := 'r'
    seq := ctx.initSeq
    mIndex := ctx.initM
    gIndex := ctx.initG
    editLevel := 0
    prevGMismatch := 0
    mismatches := 0
    nodeType := NodeType.ROOT
    toMerge := false
    mergeSiblings := []
    children := []
    childDeledit := []
    childrenNondel := [] }

/-- The growth loop of EditTree.__init__: grow until a step produces an
empty frontier.  Fuel bounds both the number of steps and each step's
delete rounds. -/
def growLoop (ctx : ETree) : Nat → Store → List Nat → Store
  | 0, st, _ => st
  | fuel + 1, st, frontier =>
    let r := growStep ctx (fuel + 1) st frontier
    if r.2.isEmpty then r.1
    else growLoop ctx fuel r.1 r.2

/-- Build a whole edit tree: install the root, expand it (the first
grow_tree call, lines 229-233), then grow to completion. -/
def buildTree (ctx : ETree) (fuel : Nat) : Store :=
  let st0 : Store := [mkRoot ctx]
  let st1 := genDeleditChild ctx st0 0
  let st2 := genNondelChildren ctx st1 0
  let frontier := ((st2[0]?).map ENode.children).getD []
  growLoop ctx fuel st2 frontier

/-- The concrete edit tree refuting the children-sharing part of the
merge invariant: messenger uuuca (canonical view), guide aaa, editing
mismatch threshold high enough never to cut a branch. -/
def cexCtx : ETree := ⟨"aaa".toList, "uuuca".toList, 0, 0, 99, 3⟩

/-- The violation checker for the merge-set children-sharing claim:
both nodes are MERGED, share one merge_siblings list containing both,
have identical transcripts, and hold distinct children lists. -/
def c2Violation (st : Store) (i j : Nat) : Bool :=
  match st[i]?, st[j]? with
  | some a, some b =>
    a.nodeType = NodeType.MERGED ∧ b.nodeType = NodeType.MERGED ∧
    a.mergeSiblings = b.mergeSiblings ∧ a.nid ∈ a.mergeSiblings ∧
    b.nid ∈ b.mergeSiblings ∧ a.seq = b.seq ∧ a.children ≠ b.children
  | _, _ => false

set_option maxHeartbeats 2000000 in
/-- Counterexample to claim C2 as stated: in the edit tree grown from
messenger uuuca against guide aaa, nodes 10 and 17 (the two delete
routes to the transcript uca at messenger index 1) form one MERGED group
with a shared merge_siblings list, identical transcripts, and two
different children lists, each generated separately. -/
theorem claim_C2_counterexample :
    c2Violation (buildTree cexCtx 4) 10 17 = true := by
  decide

/-! ## The fold oracle call (edit_node.EditNode.cofold_sequence) -/

/-- The node attributes touched by cofold_sequence. -/
structure FoldNode where
  cofoldString : List Char
  alignment : List Char
  mfe : ℚ
  nodeType : NodeType
deriving DecidableEq, Repr

/-- EditNode.cofold_sequence: send the stored cofold string to the
external RNA.cofold and store the alignment and MFE.  The method
contains no exception handling, so an oracle exception (the error case
of the oracle) propagates to the caller unchanged. -/
def cofoldSequence {E : Type} (oracle : List Char → Except E (List Char × ℚ))
    (node : FoldNode) : Except E FoldNode :=
  match oracle node.cofoldString with
  | Except.error e => Except.error e
  | Except.ok al_mfe =>
    Except.ok { node with alignment := al_mfe.1, mfe := al_mfe.2 }

/-- The single-core scoring loop of EditTree.calc_probabilities (line
92): cofold each node in order; the surrounding code has no exception
handling either, so the first oracle exception aborts the whole pass. -/
def cofoldAll {E : Type} (oracle : List Char → Except E (List Char × ℚ)) :
    List FoldNode → Except E (List FoldNode)
  | [] => Except.ok []
  | n :: rest =>
    match cofoldSequence oracle n with
    | Except.error e => Except.error e
    | Except.ok n' =>
      match cofoldAll oracle rest with
      | Except.error e => Except.error e
      | Except.ok rest' => Except.ok (n' :: rest')

/-- Claim C8 (amended): when the external folding routine raises, the
exception is not wrapped: cofold_sequence contains no exception handling
and neither does the scoring loop of calc_probabilities, so the
exception propagates unchanged and the scoring pass (and with it the
growth of the edit tree) aborts; no node is marked LEAF with an infinite
mfe. -/
theorem claim_C8 {E : Type}
    (oracle : List Char → Except E (List Char × ℚ)) (node : FoldNode)
    (rest : List FoldNode) (e : E)
    (h : oracle node.cofoldString = Except.error e) :
    cofoldSequence oracle node = Except.error e ∧
    cofoldAll oracle (node :: rest) = Except.error e := by
  have h1 : cofoldSequence oracle node = Except.error e := by
    unfold cofoldSequence
    rw [h]
  refine ⟨h1, ?_⟩
  unfold cofoldAll
  rw [h1]

/-- Witness for claim C8: an oracle that always raises makes both the
single cofold call and the scoring pass return that exception. -/
theorem claim_C8_witness :
    cofoldSequence
        (fun _ => (Except.error () : Except Unit (List Char × ℚ)))
        ⟨"&gg".toList, [], 0, NodeType.ACTIVE⟩ = Except.error () ∧
    cofoldAll (fun _ => (Except.error () : Except Unit (List Char × ℚ)))
        [⟨"&gg".toList, [], 0, NodeType.ACTIVE⟩] = Except.error () := by
  exact claim_C8 (fun _ => Except.error ())
    ⟨"&gg".toList, [], 0, NodeType.ACTIVE⟩ [] () rfl

/-- Counterexample to claim C8 as stated: the claim requires the
exception to be wrapped, the node marked LEAF with infinite mfe, and
growth to continue; instead both the cofold call and the scoring pass
return the error outcome, never a successful node list. -/
theorem claim_C8_counterexample :
    (cofoldSequence
        (fun _ => (Except.error () : Except Unit (List Char × ℚ)))
        ⟨"&gg".toList, [], 0, NodeType.ACTIVE⟩).isOk = false ∧
    (cofoldAll (fun _ => (Except.error () : Except Unit (List Char × ℚ)))
        [⟨"&gg".toList, [], 0, NodeType.ACTIVE⟩]).isOk = false := by
  exact ⟨rfl, rfl⟩

/-! ## Child generation invariants (claims C5 and C6) -/

theorem updNode_length (st : Store) (i : Nat) (f : ENode → ENode) :
    (updNode st i f).length = st.length := by
  unfold updNode
  exact List.length_map st _

theorem drop_updNode_append (st : Store) (i : Nat) (f : ENode → ENode)
    (c : ENode) : ((updNode st i f) ++ [c]).drop st.length = [c] := by
  have h := List.drop_left (updNode st i f) [c]
  rwa [updNode_length] at h

theorem updNode_append (a b : Store) (i : Nat) (f : ENode → ENode) :
    updNode (a ++ b) i f = updNode a i f ++ updNode b i f := by
  unfold updNode
  exact List.map_append _ _ _

theorem updNode_singleton_ne (c : ENode) (i : Nat) (f : ENode → ENode)
    (h : ¬(c.nid = i)) : updNode [c] i f = [c] := by
  unfold updNode
  simp [h]

theorem drop_len_append (l₁ l₂ : Store) (n : Nat) (h : l₁.length = n) :
    (l₁ ++ l₂).drop n = l₂ := by
  subst h
  exact List.drop_left _ _

/-- Claim C6 (amended): for every child node, mIndex and gIndex advance
identically: both increase by one exactly when the parent's action is a
pass or an insert, and otherwise both are copied — in particular the
child of a delete node advances neither cursor.  There is no special
case making gIndex advance for a delete node's child. -/
theorem claim_C6 (ctx : ETree) (st : Store) (p : ENode) (a : Char) :
    ((mkChild ctx st p a).mIndex =
      p.mIndex + (if p.action = 'p' ∨ p.action = 'i' then 1 else 0)) ∧
    ((mkChild ctx st p a).gIndex =
      p.gIndex + (if p.action = 'p' ∨ p.action = 'i' then 1 else 0)) ∧
    (p.action = 'd' → (mkChild ctx st p a).gIndex = p.gIndex ∧
      (mkChild ctx st p a).mIndex = p.mIndex) := by
  by_cases hpi : p.action = 'p' ∨ p.action = 'i'
  · refine ⟨by simp [mkChild, hpi], by simp [mkChild, hpi], ?_⟩
    intro hd
    rw [hd] at hpi
    simp at hpi
  · exact ⟨by simp [mkChild, hpi], by simp [mkChild, hpi],
      fun _ => ⟨by simp [mkChild, hpi], by simp [mkChild, hpi]⟩⟩

/-- Witness for claim C6 at a concrete delete parent with gIndex 7. -/
theorem claim_C6_witness :
    (mkChild cexCtx []
        ⟨5, none, 'd', "uu".toList, 3, 7, 1, 0, 0, NodeType.ACTIVE,
          false, [], [], [], []⟩ 'p').gIndex = 7 ∧
    (mkChild cexCtx []
        ⟨5, none, 'd', "uu".toList, 3, 7, 1, 0, 0, NodeType.ACTIVE,
          false, [], [], [], []⟩ 'p').mIndex = 3 := by
  have h := claim_C6 cexCtx []
    ⟨5, none, 'd', "uu".toList, 3, 7, 1, 0, 0, NodeType.ACTIVE,
      false, [], [], [], []⟩ 'p'
  exact h.2.2 rfl

/-- Counterexample to claim C6 as stated: the claim says gIndex does
advance for the D node's child, but the child of a delete parent with
gIndex 7 again has gIndex 7, not 8. -/
theorem claim_C6_counterexample :
    (mkChild cexCtx []
        ⟨5, none, 'd', "uu".toList, 3, 7, 1, 0, 0, NodeType.ACTIVE,
          false, [], [], [], []⟩ 'p').gIndex = 7 ∧
    (mkChild cexCtx []
        ⟨5, none, 'd', "uu".toList, 3, 7, 1, 0, 0, NodeType.ACTIVE,
          false, [], [], [], []⟩ 'p').gIndex ≠ 7 + 1 := by
  exact ⟨rfl, by decide⟩

/-- The generating node's core attributes survive the bookkeeping
updates of child generation: updNode only rewrites the child-list
fields. -/
theorem mkChild_action (ctx : ETree) (st : Store) (p : ENode) (a : Char) :
    (mkChild ctx st p a).action = a := rfl

theorem mkChild_mIndex (ctx : ETree) (st : Store) (p : ENode) (a : Char) :
    (mkChild ctx st p a).mIndex = p.mIndex + nextIndexStep p.action := by
  by_cases hpi : p.action = 'p' ∨ p.action = 'i' <;>
    simp [mkChild, nextIndexStep, hpi]

theorem mkChild_nid (ctx : ETree) (st : Store) (p : ENode) (a : Char) :
    (mkChild ctx st p a).nid = st.length := rfl

/-- What gen_deledit_child appends: nothing, or exactly the delete child
when the action and the messenger base permit one. -/
theorem genDeledit_cases (ctx : ETree) (st : Store) (pid : Nat) (p : ENode)
    (hp : st[pid]? = some p) :
    (genDeleditChild ctx st pid).drop st.length = [] ∨
    ((p.action ≠ 'i' ∧
        p.seq.getD (p.mIndex + nextIndexStep p.action) 'x' = 'u') ∧
      (genDeleditChild ctx st pid).drop st.length =
        [mkChild ctx st p 'd']) := by
  simp only [genDeleditChild, hp]
  by_cases hcond : p.action ≠ 'i' ∧
      p.seq.getD (p.mIndex + nextIndexStep p.action) 'x' = 'u'
  · right
    rw [if_pos hcond, drop_updNode_append]
    exact ⟨hcond, rfl⟩
  · left
    rw [if_neg hcond, List.drop_length]

/-- What gen_nondel_children appends: nothing, the pass child alone, or
the pass child followed by the insert child, the latter only when the
action is no delete and the next base is not a u. -/
theorem genNondel_cases (ctx : ETree) (st : Store) (pid : Nat) (p : ENode)
    (hp : st[pid]? = some p) :
    (genNondelChildren ctx st pid).drop st.length = [] ∨
    (∃ q : ENode, q.action = 'p' ∧
      (genNondelChildren ctx st pid).drop st.length = [q]) ∨
    (∃ q r : ENode, q.action = 'p' ∧ r.action = 'i' ∧
      r.mIndex = p.mIndex + nextIndexStep p.action ∧
      p.action ≠ 'd' ∧
      p.seq.getD (p.mIndex + nextIndexStep p.action) 'x' ≠ 'u' ∧
      (genNondelChildren ctx st pid).drop st.length = [q, r]) := by
  have hpidlt : pid < st.length := by
    rcases List.getElem?_eq_some.mp hp with ⟨h, _⟩
    exact h
  simp only [genNondelChildren, hp]
  by_cases hempty : p.children.isEmpty
  · rw [if_pos hempty]
    by_cases hcond : p.action ≠ 'd' ∧
        p.seq.getD (p.mIndex + nextIndexStep p.action) 'x' ≠ 'u'
    · -- both the pass child and the insert child are created
      right; right
      have hlook : (updNode st pid (fun n =>
          { n with childrenNondel := n.childrenNondel ++
              [(mkChild ctx st p 'p').nid] }) ++ [mkChild ctx st p 'p'])[pid]?
          = some (if p.nid = pid then
              { p with childrenNondel := p.childrenNondel ++
                  [(mkChild ctx st p 'p').nid] } else p) := by
        rw [List.getElem?_append]
        rw [if_pos (by rw [updNode_length]; exact hpidlt)]
        unfold updNode
        rw [List.getElem?_map, hp]
        rfl
      rw [if_pos hcond, hlook]
      set p1 := if p.nid = pid then
          { p with childrenNondel := p.childrenNondel ++
              [(mkChild ctx st p 'p').nid] } else p with hp1
      have hp1a : p1.action = p.action := by
        rw [hp1]; split <;> rfl
      have hp1m : p1.mIndex = p.mIndex := by
        rw [hp1]; split <;> rfl
      refine ⟨mkChild ctx st p 'p',
        mkChild ctx (updNode st pid (fun n =>
          { n with childrenNondel := n.childrenNondel ++
              [(mkChild ctx st p 'p').nid] }) ++ [mkChild ctx st p 'p'])
          p1 'i', rfl, rfl, ?_, hcond.1, hcond.2, ?_⟩
      · rw [mkChild_mIndex, hp1a, hp1m]
      · -- compute the dropped suffix through the final children update
        have hnid1 : ¬((mkChild ctx st p 'p').nid = pid) := by
          rw [mkChild_nid]
          omega
        have hnid2 : ¬((mkChild ctx (updNode st pid (fun n =>
            { n with childrenNondel := n.childrenNondel ++
                [(mkChild ctx st p 'p').nid] }) ++ [mkChild ctx st p 'p'])
            p1 'i').nid = pid) := by
          rw [mkChild_nid, List.length_append, updNode_length]
          omega
        simp only [updNode_append]
        simp only [updNode_singleton_ne _ _ _ hnid1,
          updNode_singleton_ne _ _ _ hnid2]
        rw [List.append_assoc, drop_len_append]
        all_goals first
          | rfl
          | simp only [updNode_length]
    · -- only the pass child is created
      right; left
      rw [if_neg hcond]
      refine ⟨mkChild ctx st p 'p', rfl, ?_⟩
      have hnid1 : ¬((mkChild ctx st p 'p').nid = pid) := by
        rw [mkChild_nid]
        omega
      rw [updNode_append, updNode_singleton_ne _ _ _ hnid1, drop_len_append]
      all_goals first
        | rfl
        | simp only [updNode_length]
  · left
    rw [if_neg hempty]
    have h := drop_len_append (updNode st pid (fun n =>
      { n with children := n.childrenNondel ++ n.childDeledit })) [] st.length
      (updNode_length st pid _)
    rw [List.append_nil] at h
    rw [h]

/-- Claim C5: over the nodes a generation call appends to the store, a
delete child exists only when the generating node's action is not an
insert and the base at the node's next cursor position is a u, and an
insert child only when the action is not a delete and that base is not
a u; the checked base sits at the child's own mIndex in the parent's
sequence, so every delete node deletes a u of its parent's transcript
and every insert node sits where the parent's base is not a u. -/
theorem claim_C5 (ctx : ETree) (st : Store) (pid : Nat) (p : ENode)
    (hp : st[pid]? = some p) :
    (∀ c ∈ (genDeleditChild ctx st pid).drop st.length,
       c.action = 'd' ∧ p.action ≠ 'i' ∧
       c.mIndex = p.mIndex + nextIndexStep p.action ∧
       p.seq.getD c.mIndex 'x' = 'u') ∧
    (∀ c ∈ (genNondelChildren ctx st pid).drop st.length,
       c.action = 'i' →
         p.action ≠ 'd' ∧
         c.mIndex = p.mIndex + nextIndexStep p.action ∧
         p.seq.getD c.mIndex 'x' ≠ 'u') := by
  constructor
  · intro c hc
    rcases genDeledit_cases ctx st pid p hp with hnil | ⟨hcond, heq⟩
    · rw [hnil] at hc
      cases hc
    · rw [heq] at hc
      rcases List.mem_singleton.mp hc with rfl
      refine ⟨rfl, hcond.1, mkChild_mIndex ctx st p 'd', ?_⟩
      rw [mkChild_mIndex]
      exact hcond.2
  · intro c hc hci
    rcases genNondel_cases ctx st pid p hp with hnil | ⟨q, hq, heq⟩ |
        ⟨q, r, hq, hr, hrm, hact, hbase, heq⟩
    · rw [hnil] at hc
      cases hc
    · rw [heq] at hc
      rcases List.mem_singleton.mp hc with rfl
      rw [hci] at hq
      cases hq
    · rw [heq] at hc
      rcases List.mem_cons.mp hc with rfl | hc2
      · rw [hci] at hq
        cases hq
      · rcases List.mem_singleton.mp hc2 with rfl
        refine ⟨hact, hrm, ?_⟩
        rw [hrm]
        exact hbase

/-- A concrete pass node whose next cursor position holds a u, so that
child generation creates a delete child and no insert child. -/
def c5node : ENode :=
  ⟨0, none, 'p', "auu".toList, 0, 0, 1, 0, 0, NodeType.ACTIVE,
    false, [], [], [], []⟩

/-- Witness for claim C5: on the concrete store holding c5node, the
delete child is generated (base u at the next cursor position) and obeys
the claimed conditions, and no insert child appears. -/
theorem claim_C5_witness :
    (([c5node] : Store)[0]? = some c5node) ∧
    ((genDeleditChild cexCtx [c5node] 0).drop
        ([c5node] : Store).length).map ENode.action = ['d'] ∧
    (∀ c ∈ (genDeleditChild cexCtx [c5node] 0).drop
        ([c5node] : Store).length,
       c.action = 'd' ∧ c5node.action ≠ 'i' ∧
       c.mIndex = c5node.mIndex + nextIndexStep c5node.action ∧
       c5node.seq.getD c.mIndex 'x' = 'u') ∧
    (∀ c ∈ (genNondelChildren cexCtx [c5node] 0).drop
        ([c5node] : Store).length,
       c.action = 'i' →
         c5node.action ≠ 'd' ∧
         c.mIndex = c5node.mIndex + nextIndexStep c5node.action ∧
         c5node.seq.getD c.mIndex 'x' ≠ 'u') := by
  have h := claim_C5 cexCtx [c5node] 0 c5node rfl
  exact ⟨rfl, by decide, h.1, h.2⟩

/-! ## Probability model (edit_trees.EditTree.calc_probabilities)

MFE values are modelled as rationals (exact comparisons), Boltzmann
probabilities as reals.  The external RNA.cofold result for each node is
an oracle parameter mfeOf from node identity to MFE.  The lru-cached
max_downstream_prob recursion reads the probabilities assigned in the
first loop, so it is a pure function of the store as it stands after
that loop. -/

/-- The node attributes calc_probabilities reads and writes. -/
structure PNode where
  nid : Nat
  parent : Option Nat
  children : List Nat
  editLevel : Nat
  nodeType : NodeType
  mergeSiblings : List Nat
  mfe : ℚ
  probability : ℝ
  probabilityProduct : ℝ
  probabilityCalculated : Bool

def pfind (st : List PNode) (i : Nat) : Option PNode :=
  st.find? (fun n => n.nid = i)

def pupd (st : List PNode) (i : Nat) (f : PNode → PNode) : List PNode :=
  st.map (fun n => if n.nid = i then f n else n)

/-- The Boltzmann constant (kcal per mol per K) and the body
temperature of calc_probabilities. -/
noncomputable def kB : ℝ := 1986 / 1000000

noncomputable def bodyT : ℝ := 310

/-- Python min over the collected MFE list (the list is nonempty on
every call that reaches it). -/
def qmin : List ℚ → ℚ
  | [] => 0
  | x :: xs => xs.foldl min x

/-- The probability formula of line 111:
exp((mfe_min - mfe) / (k T)). -/
noncomputable def probOfExp (mfeMin mfe : ℚ) : ℝ :=
  Real.exp (((mfeMin - mfe : ℚ) : ℝ) / (kB * bodyT))

/-- Loop 1 of calc_probabilities: store the oracle MFE and the Boltzmann
probability on every working node. -/
noncomputable def assignProbs (mfeOf : Nat → ℚ) (mfeMin : ℚ)
    (st : List PNode) (cohort : List Nat) : List PNode :=
  st.map (fun n =>
    if n.nid ∈ cohort then
      { n with mfe := mfeOf n.nid,
               probability := probOfExp mfeMin (mfeOf n.nid) }
    else n)

/-- max_downstream_prob: the highest probability reachable through the
children, computed over the store left by loop 1 (the lru cache makes
the recursion read only those values). -/
noncomputable def maxDownstream (st : List PNode) : Nat → Nat → ℝ
  | 0, i => ((pfind st i).map PNode.probability).getD 1
  | fuel + 1, i =>
    match pfind st i with
    | none => 1
    | some n =>
      n.children.foldl (fun b c => max b (maxDownstream st fuel c))
        n.probability

/-- The per-node update of loop 2, line 116 and line 120 of
edit_trees.py: probability becomes the downstream maximum and the
probability product the parent's current product times it. -/
noncomputable def processUpd (prob parentProd : ℝ) (m : PNode) : PNode :=
  { m with probability := prob,
           probabilityProduct := parentProd * prob,
           probabilityCalculated := true }

/-- The parent's probability product as read on line 120. -/
noncomputable def parentProdOf (st : List PNode) (n : PNode) : ℝ :=
  match n.parent with
  | none => 1
  | some pid => ((pfind st pid).map PNode.probabilityProduct).getD 1

/-- Lines 123-128: once every merge sibling has a computed product, all
siblings receive the sum of the products. -/
noncomputable def applySum (sumProd : ℝ) (sibs : List Nat)
    (st : List PNode) : List PNode :=
  st.map (fun m =>
    if m.nid ∈ sibs then { m with probabilityProduct := sumProd } else m)

/-- Lines 123-125: how many siblings have their product computed. -/
noncomputable def mergedStep (st1 : List PNode) (i : Nat) : List PNode :=
  match pfind st1 i with
  | none => st1
  | some n1 =>
    let sibs := n1.mergeSiblings
    let calcCount := (sibs.filter (fun j =>
      ((pfind st1 j).map PNode.probabilityCalculated).getD false)).length
    if calcCount = sibs.length then
      applySum ((sibs.map (fun j =>
        ((pfind st1 j).map PNode.probabilityProduct).getD 0)).sum) sibs st1
    else st1

noncomputable def processNode (probsSt : List PNode) (fuel : Nat)
    (st : List PNode) (i : Nat) : List PNode :=
  match pfind st i with
  | none => st
  | some n =>
    let st1 := pupd st i
      (processUpd (maxDownstream probsSt fuel i) (parentProdOf st n))
    if n.nodeType = NodeType.MERGED then mergedStep st1 i else st1

/-- The closing pass (reset_node_type): an ACTIVE node whose probability
product fell below the threshold becomes a LEAF. -/
noncomputable def resetPass (thr : ℝ) (st : List PNode)
    (cohort : List Nat) : List PNode :=
  st.map (fun n =>
    if n.nid ∈ cohort ∧ n.nodeType = NodeType.ACTIVE ∧
        n.probabilityProduct < thr then
      { n with nodeType := NodeType.LEAF }
    else n)

def levOf (st : List PNode) (i : Nat) : Nat :=
  ((pfind st i).map PNode.editLevel).getD 0

/-- calc_probabilities in single-step mode (bulk_cofold false): sort the
cohort by edit level (the __lt__ of EditNode), assign MFEs and Boltzmann
probabilities against the cohort minimum, run loop 2 sequentially, and
reset node types. -/
noncomputable def stepCalc (st : List PNode) (cohort : List Nat)
    (mfeOf : Nat → ℚ) (fuel : Nat) (thr : ℝ) : List PNode :=
  let working := cohort.insertionSort (fun i j => levOf st i ≤ levOf st j)
  if working.isEmpty then st
  else
    let mfeMin := qmin (working.map mfeOf)
    let st1 := assignProbs mfeOf mfeMin st working
    let st2 := working.foldl (processNode st1 fuel) st1
    resetPass thr st2 working

/-- calc_probabilities in bulk mode (bulk_cofold true): the working set
is exactly the COMPLETE nodes of the whole tree; each is scored against
the minimum of their MFEs, upgraded to its downstream maximum, and its
probability product set equal to its probability. -/
noncomputable def bulkCalc (st : List PNode) (mfeOf : Nat → ℚ)
    (fuel : Nat) (thr : ℝ) : List PNode :=
  let working := (st.filter
    (fun n => n.nodeType = NodeType.COMPLETE)).map PNode.nid
  if working.isEmpty then st
  else
    let mfeMin := qmin (working.map mfeOf)
    let st1 := assignProbs mfeOf mfeMin st working
    let st2 := st1.map (fun n =>
      if n.nid ∈ working then
        { n with probability := maxDownstream st1 fuel n.nid,
                 probabilityProduct := maxDownstream st1 fuel n.nid }
      else n)
    resetPass thr st2 working

theorem foldl_min_le (xs : List ℚ) : ∀ (x : ℚ),
    xs.foldl min x ≤ x ∧ ∀ y ∈ xs, xs.foldl min x ≤ y := by
  induction xs with
  | nil =>
    intro x
    exact ⟨le_refl x, by intro y hy; cases hy⟩
  | cons z zs ih =>
    intro x
    have h := ih (min x z)
    constructor
    · exact le_trans h.1 (min_le_left x z)
    · intro y hy
      rcases List.mem_cons.mp hy with rfl | hy2
      · exact le_trans h.1 (min_le_right x y)
      · exact h.2 y hy2

theorem qmin_le (l : List ℚ) (y : ℚ) (hy : y ∈ l) : qmin l ≤ y := by
  cases l with
  | nil => cases hy
  | cons x xs =>
    rcases List.mem_cons.mp hy with rfl | hy2
    · exact (foldl_min_le xs y).1
    · exact (foldl_min_le xs x).2 y hy2

theorem probOfExp_pos (a b : ℚ) : 0 < probOfExp a b :=
  Real.exp_pos _

theorem probOfExp_le_one (a b : ℚ) (h : a ≤ b) : probOfExp a b ≤ 1 := by
  unfold probOfExp
  rw [Real.exp_le_one_iff]
  apply div_nonpos_of_nonpos_of_nonneg
  · have hab : (a : ℝ) ≤ (b : ℝ) := by exact_mod_cast h
    push_cast
    linarith
  · unfold kB bodyT
    norm_num

theorem foldl_max_le_one (l : List Nat) (g : Nat → ℝ) :
    ∀ (b : ℝ), b ≤ 1 → (∀ c ∈ l, g c ≤ 1) →
      l.foldl (fun x c => max x (g c)) b ≤ 1 := by
  induction l with
  | nil =>
    intro b hb _
    exact hb
  | cons z zs ih =>
    intro b hb hg
    apply ih
    · exact max_le hb (hg z (List.mem_cons_self z zs))
    · intro c hc
      exact hg c (List.mem_cons_of_mem z hc)

theorem le_foldl_max (l : List Nat) (g : Nat → ℝ) :
    ∀ (b b₀ : ℝ), b₀ ≤ b → b₀ ≤ l.foldl (fun x c => max x (g c)) b := by
  induction l with
  | nil =>
    intro b b₀ h
    exact h
  | cons z zs ih =>
    intro b b₀ h
    exact ih (max b (g z)) b₀ (le_trans h (le_max_left _ _))

theorem maxDownstream_nonneg (st : List PNode)
    (h : ∀ n ∈ st, 0 ≤ n.probability) :
    ∀ (fuel i : Nat), 0 ≤ maxDownstream st fuel i := by
  intro fuel
  induction fuel with
  | zero =>
    intro i
    unfold maxDownstream
    rcases hf : pfind st i with _ | n
    · simp
    · have hn := List.mem_of_find?_eq_some hf
      exact h n hn
  | succ fuel ih =>
    intro i
    unfold maxDownstream
    rcases hf : pfind st i with _ | n
    · exact zero_le_one
    · have hn := List.mem_of_find?_eq_some hf
      exact le_foldl_max n.children _ n.probability 0 (h n hn)

theorem maxDownstream_le_one (st : List PNode)
    (h : ∀ n ∈ st, n.probability ≤ 1) :
    ∀ (fuel i : Nat), maxDownstream st fuel i ≤ 1 := by
  intro fuel
  induction fuel with
  | zero =>
    intro i
    unfold maxDownstream
    rcases hf : pfind st i with _ | n
    · simp
    · have hn := List.mem_of_find?_eq_some hf
      exact h n hn
  | succ fuel ih =>
    intro i
    unfold maxDownstream
    rcases hf : pfind st i with _ | n
    · exact le_refl 1
    · have hn := List.mem_of_find?_eq_some hf
      exact foldl_max_le_one n.children _ n.probability (h n hn)
        (fun c _ => ih c)

theorem maxDownstream_childless (st : List PNode) (i : Nat) (m : PNode)
    (hf : pfind st i = some m) (hc : m.children = []) :
    ∀ fuel, maxDownstream st fuel i = m.probability := by
  intro fuel
  cases fuel with
  | zero =>
    unfold maxDownstream
    rw [hf]
    rfl
  | succ fuel =>
    unfold maxDownstream
    rw [hf]
    simp [hc]

/-- Probability bounds survive loop 1: assigned nodes get a Boltzmann
factor of a nonpositive exponent, others keep their value. -/
theorem assignProbs_bounds (mfeOf : Nat → ℚ) (mfeMin : ℚ)
    (st : List PNode) (cohort : List Nat)
    (hmin : ∀ i ∈ cohort, mfeMin ≤ mfeOf i)
    (h : ∀ n ∈ st, 0 ≤ n.probability ∧ n.probability ≤ 1) :
    ∀ n' ∈ assignProbs mfeOf mfeMin st cohort,
      0 ≤ n'.probability ∧ n'.probability ≤ 1 := by
  intro n' hn'
  rcases List.mem_map.mp hn' with ⟨n, hn, rfl⟩
  by_cases hin : n.nid ∈ cohort
  · simp only [hin, if_true]
    exact ⟨le_of_lt (probOfExp_pos _ _),
      probOfExp_le_one _ _ (hmin n.nid hin)⟩
  · simp only [hin, if_false]
    exact h n hn

theorem pupd_bounds (st : List PNode) (i : Nat) (f : PNode → PNode)
    (h : ∀ n ∈ st, 0 ≤ n.probability ∧ n.probability ≤ 1)
    (hf : ∀ n ∈ st, 0 ≤ (f n).probability ∧ (f n).probability ≤ 1) :
    ∀ n' ∈ pupd st i f, 0 ≤ n'.probability ∧ n'.probability ≤ 1 := by
  intro n' hn'
  rcases List.mem_map.mp hn' with ⟨n, hn, rfl⟩
  by_cases hin : n.nid = i
  · simp only [hin, if_true]
    exact hf n hn
  · simp only [hin, if_false]
    exact h n hn

/-- Probability bounds survive the merged-sum write: it touches only
probability products. -/
theorem applySum_bounds (sumProd : ℝ) (sibs : List Nat)
    (st : List PNode)
    (h : ∀ n ∈ st, 0 ≤ n.probability ∧ n.probability ≤ 1) :
    ∀ n' ∈ applySum sumProd sibs st,
      0 ≤ n'.probability ∧ n'.probability ≤ 1 := by
  intro n' hn'
  rcases List.mem_map.mp hn' with ⟨n, hn, rfl⟩
  by_cases hin : n.nid ∈ sibs
  · simp only [hin, if_true]
    exact h n hn
  · simp only [hin, if_false]
    exact h n hn

theorem mergedStep_bounds (st1 : List PNode) (i : Nat)
    (h : ∀ n ∈ st1, 0 ≤ n.probability ∧ n.probability ≤ 1) :
    ∀ n' ∈ mergedStep st1 i,
      0 ≤ n'.probability ∧ n'.probability ≤ 1 := by
  intro n' hn'
  unfold mergedStep at hn'
  rcases hf : pfind st1 i with _ | n1
  · rw [hf] at hn'
    exact h n' hn'
  · rw [hf] at hn'
    simp only [] at hn'
    split at hn'
    · exact applySum_bounds _ _ _ h n' hn'
    · exact h n' hn'

/-- Probability bounds survive one loop-2 iteration: it writes only
downstream maxima (bounded by the loop-1 store) into probabilities, and
the merged-sum write touches only probability products. -/
theorem processNode_bounds (probsSt : List PNode) (fuel : Nat)
    (st : List PNode) (i : Nat)
    (hprobs : ∀ n ∈ probsSt, 0 ≤ n.probability ∧ n.probability ≤ 1)
    (h : ∀ n ∈ st, 0 ≤ n.probability ∧ n.probability ≤ 1) :
    ∀ n' ∈ processNode probsSt fuel st i,
      0 ≤ n'.probability ∧ n'.probability ≤ 1 := by
  intro n' hn'
  unfold processNode at hn'
  rcases hf : pfind st i with _ | n
  · rw [hf] at hn'
    exact h n' hn'
  · rw [hf] at hn'
    simp only [] at hn'
    have hbound : 0 ≤ maxDownstream probsSt fuel i ∧
        maxDownstream probsSt fuel i ≤ 1 :=
      ⟨maxDownstream_nonneg probsSt (fun m hm => (hprobs m hm).1) fuel i,
       maxDownstream_le_one probsSt (fun m hm => (hprobs m hm).2) fuel i⟩
    have h1 : ∀ m ∈ pupd st i
        (processUpd (maxDownstream probsSt fuel i) (parentProdOf st n)),
        0 ≤ m.probability ∧ m.probability ≤ 1 := by
      apply pupd_bounds st i _ h
      intro m _
      exact hbound
    split at hn'
    · exact mergedStep_bounds _ i h1 n' hn'
    · exact h1 n' hn'

theorem foldl_processNode_bounds (probsSt : List PNode) (fuel : Nat)
    (hprobs : ∀ n ∈ probsSt, 0 ≤ n.probability ∧ n.probability ≤ 1) :
    ∀ (working : List Nat) (st : List PNode),
      (∀ n ∈ st, 0 ≤ n.probability ∧ n.probability ≤ 1) →
      ∀ n' ∈ working.foldl (processNode probsSt fuel) st,
        0 ≤ n'.probability ∧ n'.probability ≤ 1 := by
  intro working
  induction working with
  | nil =>
    intro st h n' hn'
    exact h n' hn'
  | cons i rest ih =>
    intro st h n' hn'
    exact ih (processNode probsSt fuel st i)
      (processNode_bounds probsSt fuel st i hprobs h) n' hn'

theorem resetPass_bounds (thr : ℝ) (st : List PNode) (cohort : List Nat)
    (h : ∀ n ∈ st, 0 ≤ n.probability ∧ n.probability ≤ 1) :
    ∀ n' ∈ resetPass thr st cohort,
      0 ≤ n'.probability ∧ n'.probability ≤ 1 := by
  intro n' hn'
  rcases List.mem_map.mp hn' with ⟨n, hn, rfl⟩
  by_cases hc : n.nid ∈ cohort ∧ n.nodeType = NodeType.ACTIVE ∧
      n.probabilityProduct < thr
  · simp only [hc, if_true]
    exact h n hn
  · simp only [hc, if_false]
    exact h n hn

/-- Claim C3 (amended): in both scoring modes every node's probability
lies in [0,1] (provided the pre-existing probabilities do, as they are
initialised to 1 at the root and to Boltzmann factors elsewhere); in
single-step mode a node's probability product is assigned as the
parent's current probability product times the node's own probability,
so for non-MERGED nodes it never exceeds the parent's product at that
moment; the merged-sum rewrite is excluded here because it can exceed
both bounds (see the counterexample). -/
theorem claim_C3 (st : List PNode) (cohort : List Nat) (mfeOf : Nat → ℚ)
    (fuel : Nat) (thr : ℝ)
    (hprob : ∀ n ∈ st, 0 ≤ n.probability ∧ n.probability ≤ 1) :
    (∀ n' ∈ stepCalc st cohort mfeOf fuel thr,
        0 ≤ n'.probability ∧ n'.probability ≤ 1) ∧
    (∀ n' ∈ bulkCalc st mfeOf fuel thr,
        0 ≤ n'.probability ∧ n'.probability ≤ 1) ∧
    (∀ (probsSt stCur : List PNode) (i : Nat) (n q : PNode) (pid : Nat),
        pfind stCur i = some n → n.nodeType ≠ NodeType.MERGED →
        n.parent = some pid → pfind stCur pid = some q →
        ∀ m ∈ processNode probsSt fuel stCur i, m.nid = i →
          m.probabilityProduct =
            q.probabilityProduct * maxDownstream probsSt fuel i ∧
          (0 ≤ q.probabilityProduct →
           maxDownstream probsSt fuel i ≤ 1 →
           0 ≤ maxDownstream probsSt fuel i →
           m.probabilityProduct ≤ q.probabilityProduct)) := by
  refine ⟨?_, ?_, ?_⟩
  · intro n' hn'
    unfold stepCalc at hn'
    by_cases hW : (cohort.insertionSort
        (fun i j => levOf st i ≤ levOf st j)).isEmpty
    · rw [if_pos hW] at hn'
      exact hprob n' hn'
    · rw [if_neg hW] at hn'
      have hmin : ∀ i ∈ cohort.insertionSort
          (fun i j => levOf st i ≤ levOf st j),
          qmin ((cohort.insertionSort
            (fun i j => levOf st i ≤ levOf st j)).map mfeOf) ≤ mfeOf i := by
        intro i hi
        exact qmin_le _ _ (List.mem_map_of_mem mfeOf hi)
      have hst1 := assignProbs_bounds mfeOf _ st _ hmin hprob
      exact resetPass_bounds thr _ _
        (foldl_processNode_bounds _ fuel hst1 _ _ hst1) n' hn'
  · intro n' hn'
    unfold bulkCalc at hn'
    by_cases hW : ((st.filter
        (fun n => n.nodeType = NodeType.COMPLETE)).map PNode.nid).isEmpty
    · rw [if_pos hW] at hn'
      exact hprob n' hn'
    · rw [if_neg hW] at hn'
      have hmin : ∀ i ∈ (st.filter
          (fun n => n.nodeType = NodeType.COMPLETE)).map PNode.nid,
          qmin (((st.filter
            (fun n => n.nodeType = NodeType.COMPLETE)).map PNode.nid).map
              mfeOf) ≤ mfeOf i := by
        intro i hi
        exact qmin_le _ _ (List.mem_map_of_mem mfeOf hi)
      have hst1 := assignProbs_bounds mfeOf _ st _ hmin hprob
      refine resetPass_bounds thr _ _ ?_ n' hn'
      intro m hm
      rcases List.mem_map.mp hm with ⟨x, hx, rfl⟩
      by_cases hin : x.nid ∈ (st.filter
          (fun n => n.nodeType = NodeType.COMPLETE)).map PNode.nid
      · simp only [hin, if_true]
        exact ⟨maxDownstream_nonneg _ (fun a ha => (hst1 a ha).1) fuel _,
          maxDownstream_le_one _ (fun a ha => (hst1 a ha).2) fuel _⟩
      · simp only [hin, if_false]
        exact hst1 x hx
  · intro probsSt stCur i n q pid hfn hnm hpar hfq m hm hmid
    unfold processNode at hm
    rw [hfn] at hm
    simp only [] at hm
    rw [if_neg hnm] at hm
    rcases List.mem_map.mp hm with ⟨x, hx, rfl⟩
    by_cases hxi : x.nid = i
    · simp only [hxi, if_true]
      have hpp : parentProdOf stCur n = q.probabilityProduct := by
        simp only [parentProdOf, hpar, hfq, Option.map_some', Option.getD_some]
      refine ⟨by rw [hpp]; rfl, ?_⟩
      intro h0 h1 h2
      rw [hpp]
      show q.probabilityProduct * maxDownstream probsSt fuel i ≤
        q.probabilityProduct
      exact mul_le_of_le_one_right h0 h1
    · rw [if_neg hxi] at hmid
      exact absurd hmid hxi

/-- A one-node store (a root with probability 1) used to witness the
amended C3 bounds. -/
noncomputable def c3wstore : List PNode :=
  [⟨0, none, [], 0, NodeType.ROOT, [], 0, 1, 1, false⟩]

theorem claim_C3_witness :
    (∀ n ∈ c3wstore, 0 ≤ n.probability ∧ n.probability ≤ 1) ∧
    ((∀ n' ∈ stepCalc c3wstore [0] (fun _ => (0 : ℚ)) 1 0,
        0 ≤ n'.probability ∧ n'.probability ≤ 1) ∧
     (∀ n' ∈ bulkCalc c3wstore (fun _ => (0 : ℚ)) 1 0,
        0 ≤ n'.probability ∧ n'.probability ≤ 1) ∧
     (∀ (probsSt stCur : List PNode) (i : Nat) (n q : PNode) (pid : Nat),
        pfind stCur i = some n → n.nodeType ≠ NodeType.MERGED →
        n.parent = some pid → pfind stCur pid = some q →
        ∀ m ∈ processNode probsSt 1 stCur i, m.nid = i →
          m.probabilityProduct =
            q.probabilityProduct * maxDownstream probsSt 1 i ∧
          (0 ≤ q.probabilityProduct →
           maxDownstream probsSt 1 i ≤ 1 →
           0 ≤ maxDownstream probsSt 1 i →
           m.probabilityProduct ≤ q.probabilityProduct))) := by
  have hyp : ∀ n ∈ c3wstore, 0 ≤ n.probability ∧ n.probability ≤ 1 := by
    intro n hn
    simp only [c3wstore, List.mem_singleton] at hn
    subst hn
    exact ⟨zero_le_one, le_refl 1⟩
  exact ⟨hyp, claim_C3 c3wstore [0] (fun _ => (0 : ℚ)) 1 0 hyp⟩

/-- A root with two MERGED children sharing one merge set: after the
merged-sum rewrite both children carry probability product 2 while the
parent's product is 1. -/
noncomputable def c3store : List PNode :=
  [⟨0, none, [1, 2], 0, NodeType.ROOT, [], 0, 1, 1, false⟩,
   ⟨1, some 0, [], 1, NodeType.MERGED, [1, 2], 0, 1, 1, false⟩,
   ⟨2, some 0, [], 1, NodeType.MERGED, [1, 2], 0, 1, 1, false⟩]

theorem claim_C3_counterexample :
    (pfind (stepCalc c3store [1, 2] (fun _ => 0) 1 0) 1).map
        PNode.probabilityProduct = some 2 ∧
    (pfind (stepCalc c3store [1, 2] (fun _ => 0) 1 0) 0).map
        PNode.probabilityProduct = some 1 ∧
    ¬ ((2 : ℝ) ≤ 1) := by
  have hp : probOfExp 0 0 = 1 := by
    simp [probOfExp, Real.exp_zero]
  refine ⟨?_, ?_, by norm_num⟩ <;>
  · simp [stepCalc, List.insertionSort, List.orderedInsert, levOf, pfind,
      qmin, assignProbs, processNode, processUpd, parentProdOf, applySum,
      mergedStep, maxDownstream, resetPass, pupd, c3store, hp, List.find?]
    try norm_num

theorem pfind_of_mem_nodup (st : List PNode)
    (hnodup : (st.map PNode.nid).Nodup) (n : PNode) (hn : n ∈ st) :
    pfind st n.nid = some n := by
  unfold pfind
  induction st with
  | nil => cases hn
  | cons x xs ih =>
    rcases List.nodup_cons.mp hnodup with ⟨hx, hxs⟩
    rcases List.mem_cons.mp hn with rfl | hn2
    · rw [List.find?_cons_of_pos]
      simp
    · rw [List.find?_cons_of_neg]
      · exact ih hxs hn2
      · have hne : x.nid ≠ n.nid := by
          intro he
          exact hx (he ▸ List.mem_map_of_mem PNode.nid hn2)
        simp [hne]

theorem nid_inj_of_nodup (st : List PNode)
    (hnodup : (st.map PNode.nid).Nodup) (m n : PNode) (hm : m ∈ st)
    (hn : n ∈ st) (h : m.nid = n.nid) : m = n := by
  have h1 := pfind_of_mem_nodup st hnodup m hm
  rw [h, pfind_of_mem_nodup st hnodup n hn] at h1
  exact (Option.some.inj h1).symm

/-- The mfe_min of the bulk pass: the minimum MFE over the COMPLETE
nodes (the scored set of bulk mode). -/
def mfeMinComplete (st : List PNode) (mfeOf : Nat → ℚ) : ℚ :=
  qmin (((st.filter (fun m => m.nodeType = NodeType.COMPLETE)).map
    PNode.nid).map mfeOf)

/-- Claim C4: in bulk mode exactly the COMPLETE nodes are scored; each
scored node receives probability exp((mfe_min - mfe)/(kT)) lying in
(0,1], and probability product equal to its probability; every other
node is untouched. -/
theorem claim_C4 (st : List PNode) (mfeOf : Nat → ℚ) (fuel : Nat)
    (thr : ℝ) (hnodup : (st.map PNode.nid).Nodup)
    (hchild : ∀ n ∈ st, n.nodeType = NodeType.COMPLETE →
      n.children = []) :
    bulkCalc st mfeOf fuel thr = st.map (fun n =>
      if n.nodeType = NodeType.COMPLETE then
        { n with mfe := mfeOf n.nid,
                 probability :=
                   probOfExp (mfeMinComplete st mfeOf) (mfeOf n.nid),
                 probabilityProduct :=
                   probOfExp (mfeMinComplete st mfeOf) (mfeOf n.nid) }
      else n) ∧
    (∀ n ∈ st, n.nodeType = NodeType.COMPLETE →
      0 < probOfExp (mfeMinComplete st mfeOf) (mfeOf n.nid) ∧
      probOfExp (mfeMinComplete st mfeOf) (mfeOf n.nid) ≤ 1) := by
  have hmem : ∀ n ∈ st, (n.nid ∈ (st.filter
      (fun m => m.nodeType = NodeType.COMPLETE)).map PNode.nid ↔
      n.nodeType = NodeType.COMPLETE) := by
    intro n hn
    constructor
    · intro h
      rcases List.mem_map.mp h with ⟨m, hm, hmn⟩
      rcases List.mem_filter.mp hm with ⟨hmst, hmc⟩
      have he := nid_inj_of_nodup st hnodup m n hmst hn hmn
      subst he
      exact of_decide_eq_true hmc
    · intro h
      exact List.mem_map_of_mem PNode.nid
        (List.mem_filter.mpr ⟨hn, by simp [h]⟩)
  constructor
  · unfold mfeMinComplete
    unfold bulkCalc
    by_cases hW : ((st.filter
        (fun n => n.nodeType = NodeType.COMPLETE)).map PNode.nid).isEmpty
    · rw [if_pos hW]
      have hnc : ∀ n ∈ st, ¬ n.nodeType = NodeType.COMPLETE := by
        intro n hn hc
        have h2 := (hmem n hn).mpr hc
        rw [List.isEmpty_iff] at hW
        rw [hW] at h2
        cases h2
      symm
      calc st.map _ = st.map id :=
            List.map_congr_left (by
              intro n hn
              simp [hnc n hn])
        _ = st := List.map_id st
    · rw [if_neg hW]
      unfold assignProbs resetPass
      rw [List.map_map, List.map_map]
      apply List.map_congr_left
      intro n hn
      simp only [Function.comp]
      by_cases hc : n.nodeType = NodeType.COMPLETE
      · have hin := (hmem n hn).mpr hc
        rw [if_pos hin, if_pos hc]
        have hAnodup : ((st.map (fun m =>
            if m.nid ∈ (st.filter
                (fun k => k.nodeType = NodeType.COMPLETE)).map PNode.nid
            then { m with
                mfe := mfeOf m.nid,
                probability := probOfExp (qmin (((st.filter
                  (fun k => k.nodeType = NodeType.COMPLETE)).map
                    PNode.nid).map mfeOf)) (mfeOf m.nid) }
            else m)).map PNode.nid).Nodup := by
          rw [List.map_map]
          have he : (st.map (PNode.nid ∘ fun m =>
              if m.nid ∈ (st.filter
                  (fun k => k.nodeType = NodeType.COMPLETE)).map PNode.nid
              then { m with
                  mfe := mfeOf m.nid,
                  probability := probOfExp (qmin (((st.filter
                    (fun k => k.nodeType = NodeType.COMPLETE)).map
                      PNode.nid).map mfeOf)) (mfeOf m.nid) }
              else m)) = st.map PNode.nid := by
            apply List.map_congr_left
            intro m _
            by_cases h : m.nid ∈ (st.filter
                (fun k => k.nodeType = NodeType.COMPLETE)).map PNode.nid <;>
              simp [Function.comp, h]
          rw [he]
          exact hnodup
        have hr1 : pfind (st.map (fun m =>
            if m.nid ∈ (st.filter
                (fun k => k.nodeType = NodeType.COMPLETE)).map PNode.nid
            then { m with
                mfe := mfeOf m.nid,
                probability := probOfExp (qmin (((st.filter
                  (fun k => k.nodeType = NodeType.COMPLETE)).map
                    PNode.nid).map mfeOf)) (mfeOf m.nid) }
            else m)) n.nid = some { n with
              mfe := mfeOf n.nid,
              probability := probOfExp (qmin (((st.filter
                (fun k => k.nodeType = NodeType.COMPLETE)).map
                  PNode.nid).map mfeOf)) (mfeOf n.nid) } := by
          have hmm := pfind_of_mem_nodup _ hAnodup _
            (List.mem_map_of_mem (fun m =>
              if m.nid ∈ (st.filter
                  (fun k => k.nodeType = NodeType.COMPLETE)).map PNode.nid
              then { m with
                  mfe := mfeOf m.nid,
                  probability := probOfExp (qmin (((st.filter
                    (fun k => k.nodeType = NodeType.COMPLETE)).map
                      PNode.nid).map mfeOf)) (mfeOf m.nid) }
              else m) hn)
          rw [if_pos hin] at hmm
          exact hmm
        have hmax := maxDownstream_childless _ n.nid _ hr1
          (hchild n hn hc) fuel
        rw [if_pos hin]
        rw [hmax]
        rw [if_neg (by simp [hc])]
      · have hnin : n.nid ∉ (st.filter
            (fun m => m.nodeType = NodeType.COMPLETE)).map PNode.nid :=
          fun h => hc ((hmem n hn).mp h)
        rw [if_neg hnin, if_neg hnin, if_neg (by simp [hnin]), if_neg hc]
  · intro n hn hc
    refine ⟨probOfExp_pos _ _, probOfExp_le_one _ _ ?_⟩
    apply qmin_le
    exact List.mem_map_of_mem mfeOf (List.mem_map_of_mem PNode.nid
      (List.mem_filter.mpr ⟨hn, by simp [hc]⟩))

/-- A two-node store (one COMPLETE childless node, one ACTIVE node)
used to witness claim C4. -/
noncomputable def c4wstore : List PNode :=
  [⟨0, none, [], 0, NodeType.COMPLETE, [], -5, 1, 1, false⟩,
   ⟨1, some 0, [0], 1, NodeType.ACTIVE, [], 0, 1, 1, false⟩]

theorem claim_C4_witness :
    ((c4wstore.map PNode.nid).Nodup) ∧
    (∀ n ∈ c4wstore, n.nodeType = NodeType.COMPLETE →
      n.children = []) ∧
    (bulkCalc c4wstore (fun _ => (0 : ℚ)) 1 0 = c4wstore.map (fun n =>
      if n.nodeType = NodeType.COMPLETE then
        { n with mfe := (0 : ℚ),
                 probability :=
                   probOfExp (mfeMinComplete c4wstore
                     (fun _ => (0 : ℚ))) 0,
                 probabilityProduct :=
                   probOfExp (mfeMinComplete c4wstore
                     (fun _ => (0 : ℚ))) 0 }
      else n) ∧
     (∀ n ∈ c4wstore, n.nodeType = NodeType.COMPLETE →
       0 < probOfExp (mfeMinComplete c4wstore (fun _ => (0 : ℚ))) 0 ∧
       probOfExp (mfeMinComplete c4wstore (fun _ => (0 : ℚ))) 0 ≤ 1)) := by
  have h1 : (c4wstore.map PNode.nid).Nodup := by
    simp [c4wstore]
  have h2 : ∀ n ∈ c4wstore, n.nodeType = NodeType.COMPLETE →
      n.children = [] := by
    intro n hn
    rcases List.mem_cons.mp hn with rfl | hn2
    · intro _
      rfl
    · rw [List.mem_singleton] at hn2
      subst hn2
      intro h
      cases h
  exact ⟨h1, h2, claim_C4 c4wstore (fun _ => (0 : ℚ)) 1 0 h1 h2⟩

/-! ## The merge invariant: compatibility classes -/

theorem mergeOk_class (a b : Char) (h : mergeOk a b = true) :
    (a = 'd' ∧ b = 'd') ∨ ((a = 'i' ∨ a = 'p') ∧ (b = 'i' ∨ b = 'p')) := by
  simp [mergeOk] at h
  rcases h with ⟨rfl, rfl⟩ | ⟨rfl, rfl⟩ | ⟨rfl, rfl⟩ | ⟨rfl, rfl⟩ |
    ⟨rfl, rfl⟩ <;> simp

theorem mergeOk_of_class (a b : Char)
    (h : (a = 'd' ∧ b = 'd') ∨
      ((a = 'i' ∨ a = 'p') ∧ (b = 'i' ∨ b = 'p'))) :
    mergeOk a b = true := by
  rcases h with ⟨rfl, rfl⟩ | ⟨ha | ha, hb | hb⟩ <;> subst_vars <;> decide

theorem mergeOk_symm (a b : Char) (h : mergeOk a b = true) :
    mergeOk b a = true := by
  rcases mergeOk_class a b h with ⟨h1, h2⟩ | ⟨h1, h2⟩
  · exact mergeOk_of_class b a (Or.inl ⟨h2, h1⟩)
  · exact mergeOk_of_class b a (Or.inr ⟨h2, h1⟩)

theorem mergeOk_trans2 (a b c : Char) (h1 : mergeOk a c = true)
    (h2 : mergeOk b c = true) : mergeOk a b = true := by
  rcases mergeOk_class a c h1 with ⟨ha, hc⟩ | ⟨ha, hc⟩ <;>
    rcases mergeOk_class b c h2 with ⟨hb, hc2⟩ | ⟨hb, hc2⟩
  · exact mergeOk_of_class a b (Or.inl ⟨ha, hb⟩)
  · rw [hc] at hc2
    rcases hc2 with h | h <;> cases h
  · rw [hc2] at hc
    rcases hc with h | h <;> cases h
  · exact mergeOk_of_class a b (Or.inr ⟨ha, hb⟩)

theorem mergeOk_refl_right (a b : Char) (h : mergeOk a b = true) :
    mergeOk b b = true := by
  rcases mergeOk_class a b h with ⟨_, hb⟩ | ⟨_, hb⟩
  · exact mergeOk_of_class b b (Or.inl ⟨hb, hb⟩)
  · exact mergeOk_of_class b b (Or.inr ⟨hb, hb⟩)

/-! ## Store invariants -/

/-- Node identities equal store positions (objects are unique and the
store lists them in creation order). -/
def PosId (st : Store) : Prop :=
  ∀ (i : Nat) (n : ENode), st[i]? = some n → n.nid = i

/-- The merge invariant: every nonempty merge set contains its owner,
and all its members carry the very same set, an identical transcript,
and a compatible action. -/
def MergeInv (st : Store) : Prop :=
  ∀ (i : Nat) (n : ENode), st[i]? = some n → n.mergeSiblings ≠ [] →
    i ∈ n.mergeSiblings ∧
    ∀ j ∈ n.mergeSiblings, ∃ m, st[j]? = some m ∧
      m.mergeSiblings = n.mergeSiblings ∧ m.seq = n.seq ∧
      mergeOk m.action n.action = true

/-- All merge-set members lie below the bound. -/
def SetsBelow (st : Store) (B : Nat) : Prop :=
  ∀ (i : Nat) (n : ENode), st[i]? = some n → ∀ j ∈ n.mergeSiblings, j < B

/-- A node without children holds no sub-category children either (the
children list is assembled from the two sub-category lists). -/
def ListsInv (st : Store) : Prop :=
  ∀ (i : Nat) (n : ENode), st[i]? = some n → n.children = [] →
    n.childrenNondel = [] ∧ n.childDeledit = []

def CoreInv (st : Store) : Prop :=
  PosId st ∧ MergeInv st ∧ SetsBelow st st.length ∧ ListsInv st

/-- A freshly created, still unexpanded and unmerged node sits at the
position. -/
def FreshAt (st : Store) (j : Nat) : Prop :=
  ∃ m, st[j]? = some m ∧ m.mergeSiblings = [] ∧ m.children = [] ∧
    m.childrenNondel = [] ∧ m.childDeledit = []

/-- One store evolves safely from another: it is no shorter, every
position keeps its identity, transcript, action and merge set, and
every merge set it holds is empty or was already present at the same
position. -/
def Safe (st st2 : Store) : Prop :=
  st.length ≤ st2.length ∧
  (∀ (i : Nat) (m : ENode), st[i]? = some m → ∃ m2, st2[i]? = some m2 ∧
    m2.nid = m.nid ∧ m2.seq = m.seq ∧ m2.action = m.action ∧
    m2.mergeSiblings = m.mergeSiblings) ∧
  (∀ (i : Nat) (m2 : ENode), st2[i]? = some m2 →
    (m2.mergeSiblings = [] ∧ m2.nid = i) ∨
    (∃ m, st[i]? = some m ∧ m2.nid = m.nid ∧ m2.seq = m.seq ∧
      m2.action = m.action ∧ m2.mergeSiblings = m.mergeSiblings))

theorem safe_refl (st : Store) : Safe st st :=
  ⟨le_refl _,
   fun i m h => ⟨m, h, rfl, rfl, rfl, rfl⟩,
   fun i m2 h => Or.inr ⟨m2, h, rfl, rfl, rfl, rfl⟩⟩

theorem safe_trans {a b c : Store} (h1 : Safe a b) (h2 : Safe b c) :
    Safe a c := by
  obtain ⟨l1, f1, g1⟩ := h1
  obtain ⟨l2, f2, g2⟩ := h2
  refine ⟨le_trans l1 l2, ?_, ?_⟩
  · intro i m h
    obtain ⟨m2, h2a, e1, e2, e3, e4⟩ := f1 i m h
    obtain ⟨m3, h3a, d1, d2, d3, d4⟩ := f2 i m2 h2a
    exact ⟨m3, h3a, d1.trans e1, d2.trans e2, d3.trans e3, d4.trans e4⟩
  · intro i m3 h
    rcases g2 i m3 h with ⟨e1, e2⟩ | ⟨m2, h2a, d1, d2, d3, d4⟩
    · exact Or.inl ⟨e1, e2⟩
    · rcases g1 i m2 h2a with ⟨e1, e2⟩ | ⟨m, ha, c1, c2, c3, c4⟩
      · exact Or.inl ⟨d4.trans e1, d1.trans e2⟩
      · exact Or.inr ⟨m, ha, d1.trans c1, d2.trans c2, d3.trans c3,
          d4.trans c4⟩

theorem posId_safe {st st2 : Store} (h : PosId st) (hs : Safe st st2) :
    PosId st2 := by
  intro i n hn
  rcases hs.2.2 i n hn with ⟨_, e⟩ | ⟨m, hm, e, _, _, _⟩
  · exact e
  · exact e.trans (h i m hm)

theorem mergeInv_safe {st st2 : Store} (h : MergeInv st)
    (hs : Safe st st2) : MergeInv st2 := by
  intro i n hn hne
  rcases hs.2.2 i n hn with ⟨e, _⟩ | ⟨m, hm, en, e2, ea, e4⟩
  · exact absurd e hne
  · rw [e4] at hne ⊢
    obtain ⟨hmem, hall⟩ := h i m hm hne
    refine ⟨hmem, ?_⟩
    intro j hj
    obtain ⟨q, hq, q1, q2, q3⟩ := hall j hj
    obtain ⟨q2c, hq2, e1, e2c, e3, e4c⟩ := hs.2.1 j q hq
    refine ⟨q2c, hq2, by rw [e4c, q1], by rw [e2c, q2, e2], ?_⟩
    rw [e3, ea]
    exact q3

theorem setsBelow_safe {st st2 : Store} {B : Nat} (h : SetsBelow st B)
    (hs : Safe st st2) : SetsBelow st2 B := by
  intro i n hn j hj
  rcases hs.2.2 i n hn with ⟨e, _⟩ | ⟨m, hm, _, _, _, e4⟩
  · rw [e] at hj
    cases hj
  · rw [e4] at hj
    exact h i m hm j hj

/-- Sets absent before stay absent along a safe evolution. -/
theorem noSet_safe {st st2 : Store} {j : Nat}
    (h : ∀ (p : Nat) (n : ENode), st[p]? = some n → j ∉ n.mergeSiblings)
    (hs : Safe st st2) : ∀ (p : Nat) (n : ENode), st2[p]? = some n →
      j ∉ n.mergeSiblings := by
  intro p n hn
  rcases hs.2.2 p n hn with ⟨e, _⟩ | ⟨m, hm, _, _, _, e4⟩
  · rw [e]
    exact List.not_mem_nil j
  · rw [e4]
    exact h p m hm

/-- Existing lookups stay valid along a safe evolution. -/
theorem valid_safe {st st2 : Store} {j : Nat}
    (h : ∃ m, st[j]? = some m) (hs : Safe st st2) :
    ∃ m, st2[j]? = some m := by
  obtain ⟨m, hm⟩ := h
  obtain ⟨m2, hm2, _⟩ := hs.2.1 j m hm
  exact ⟨m2, hm2⟩

/-! ## Lookup lemmas for the store operations -/

theorem updNode_lookup (st : Store) (i : Nat) (f : ENode → ENode)
    (hPos : PosId st) (k : Nat) :
    (updNode st i f)[k]? =
      if k = i then (st[k]?).map f else st[k]? := by
  unfold updNode
  rw [List.getElem?_map]
  by_cases hk : k = i
  · subst hk
    cases hp : st[k]? with
    | none => simp
    | some n =>
      have := hPos k n hp
      simp [this]
  · rw [if_neg hk]
    cases hp : st[k]? with
    | none => simp
    | some n =>
      have := hPos k n hp
      simp [this, hk]

theorem append_lookup_lt (st : Store) (c : ENode) (k : Nat)
    (h : k < st.length) : (st ++ [c])[k]? = st[k]? := by
  rw [List.getElem?_append, if_pos h]

theorem append_lookup_len (st : Store) (c : ENode) :
    (st ++ [c])[st.length]? = some c := by
  rw [List.getElem?_append, if_neg (lt_irrefl _)]
  simp

theorem lookup_lt_length {st : Store} {k : Nat} {m : ENode}
    (h : st[k]? = some m) : k < st.length := by
  rcases List.getElem?_eq_some.mp h with ⟨hlt, _⟩
  exact hlt

/-- A map that alters neither identity, transcript, action nor merge
set is safe. -/
theorem safe_map (st : Store) (f : ENode → ENode)
    (hf : ∀ n, (f n).nid = n.nid ∧ (f n).seq = n.seq ∧
      (f n).action = n.action ∧ (f n).mergeSiblings = n.mergeSiblings) :
    Safe st (st.map f) := by
  refine ⟨by rw [List.length_map], ?_, ?_⟩
  · intro i m h
    refine ⟨f m, ?_, (hf m).1, (hf m).2.1, (hf m).2.2.1, (hf m).2.2.2⟩
    rw [List.getElem?_map, h]
    rfl
  · intro i m2 h
    rw [List.getElem?_map] at h
    cases hp : st[i]? with
    | none =>
      rw [hp] at h
      cases h
    | some m =>
      rw [hp] at h
      have hm : m2 = f m := by
        simpa using h.symm
      subst hm
      exact Or.inr ⟨m, rfl, (hf m).1, (hf m).2.1, (hf m).2.2.1,
        (hf m).2.2.2⟩

/-- Appending a node with an empty merge set whose identity is the next
position is safe. -/
theorem safe_append (st : Store) (c : ENode)
    (hc : c.mergeSiblings = []) (hid : c.nid = st.length) :
    Safe st (st ++ [c]) := by
  refine ⟨by simp, ?_, ?_⟩
  · intro i m h
    refine ⟨m, ?_, rfl, rfl, rfl, rfl⟩
    rw [append_lookup_lt st c i (lookup_lt_length h)]
    exact h
  · intro i m2 h
    by_cases hi : i < st.length
    · rw [append_lookup_lt st c i hi] at h
      exact Or.inr ⟨m2, h, rfl, rfl, rfl, rfl⟩
    · left
      have hlen : i < st.length + 1 := by
        have := lookup_lt_length h
        simpa using this
      have hieq : i = st.length := by omega
      subst hieq
      rw [append_lookup_len] at h
      cases h
      exact ⟨hc, hid⟩

theorem map_lookup (st : Store) (f : ENode → ENode) (k : Nat) :
    (st.map f)[k]? = (st[k]?).map f := List.getElem?_map f st k

theorem posId_map (st : Store) (f : ENode → ENode)
    (hf : ∀ n, (f n).nid = n.nid) (h : PosId st) :
    PosId (st.map f) := by
  intro i n2 hn2
  rw [map_lookup] at hn2
  cases hp : st[i]? with
  | none =>
    rw [hp] at hn2
    cases hn2
  | some n =>
    rw [hp] at hn2
    have : n2 = f n := by simpa using hn2.symm
    subst this
    rw [hf n]
    exact h i n hp

theorem listsInv_map (st : Store) (f : ENode → ENode)
    (hf : ∀ n, ((f n).children = n.children ∧
        (f n).childrenNondel = n.childrenNondel ∧
        (f n).childDeledit = n.childDeledit) ∨
      ((f n).children = (f n).childrenNondel ++ (f n).childDeledit) ∨
      (∃ (k : Nat) (m : ENode), st[k]? = some m ∧
        (f n).children = m.children ∧
        (f n).childrenNondel = m.childrenNondel ∧
        (f n).childDeledit = m.childDeledit))
    (h : ListsInv st) : ListsInv (st.map f) := by
  intro i n2 hn2 hch
  rw [map_lookup] at hn2
  cases hp : st[i]? with
  | none =>
    rw [hp] at hn2
    cases hn2
  | some n =>
    rw [hp] at hn2
    have he : n2 = f n := by simpa using hn2.symm
    subst he
    rcases hf n with ⟨c1, c2, c3⟩ | hcat | ⟨k, m, hk, c1, c2, c3⟩
    · rw [c1] at hch
      obtain ⟨d1, d2⟩ := h i n hp hch
      exact ⟨by rw [c2, d1], by rw [c3, d2]⟩
    · rw [hcat] at hch
      exact ⟨List.append_eq_nil.mp hch |>.1,
        List.append_eq_nil.mp hch |>.2⟩
    · rw [c1] at hch
      obtain ⟨d1, d2⟩ := h k m hk hch
      exact ⟨by rw [c2, d1], by rw [c3, d2]⟩

theorem setsBelow_map_group (st : Store) (f : ENode → ENode)
    (group : List Nat) (B : Nat)
    (hf : ∀ n, (f n).mergeSiblings = n.mergeSiblings ∨
      (f n).mergeSiblings = group)
    (hg : ∀ j ∈ group, j < B) (h : SetsBelow st B) :
    SetsBelow (st.map f) B := by
  intro i n2 hn2 j hj
  rw [map_lookup] at hn2
  cases hp : st[i]? with
  | none =>
    rw [hp] at hn2
    cases hn2
  | some n =>
    rw [hp] at hn2
    have he : n2 = f n := by simpa using hn2.symm
    subst he
    rcases hf n with e | e
    · rw [e] at hj
      exact h i n hp j hj
    · rw [e] at hj
      exact hg j hj

/-- Every merge set of the current store is original (present at the
same position of the base store) or contained in the write budget. -/
def SetsFrom (st0 st : Store) (U : List Nat) : Prop :=
  ∀ (i : Nat) (n : ENode), st[i]? = some n →
    (∃ m, st0[i]? = some m ∧ n.mergeSiblings = m.mergeSiblings) ∨
    (∀ j ∈ n.mergeSiblings, j ∈ U)

theorem setsFrom_refl (st : Store) (U : List Nat) : SetsFrom st st U :=
  fun i n hn => Or.inl ⟨n, hn, rfl⟩

theorem setsFrom_safe {st0 st st2 : Store} {U : List Nat}
    (h : SetsFrom st0 st U) (hs : Safe st st2) : SetsFrom st0 st2 U := by
  intro i n2 hn2
  rcases hs.2.2 i n2 hn2 with ⟨e, _⟩ | ⟨m, hm, _, _, _, e4⟩
  · right
    rw [e]
    intro j hj
    cases hj
  · rw [e4]
    exact h i m hm

theorem setsFrom_mono {st0 st : Store} {U V : List Nat}
    (h : SetsFrom st0 st U) (hUV : ∀ j ∈ U, j ∈ V) :
    SetsFrom st0 st V := by
  intro i n hn
  rcases h i n hn with hold | hsub
  · exact Or.inl hold
  · exact Or.inr (fun j hj => hUV j (hsub j hj))

theorem setsFrom_map_group {st0 st : Store} {U : List Nat}
    (f : ENode → ENode) (group : List Nat)
    (hf : ∀ n, (f n).mergeSiblings = n.mergeSiblings ∨
      (f n).mergeSiblings = group)
    (hgU : ∀ j ∈ group, j ∈ U)
    (h : SetsFrom st0 st U) : SetsFrom st0 (st.map f) U := by
  intro i n2 hn2
  rw [map_lookup] at hn2
  cases hp : st[i]? with
  | none =>
    rw [hp] at hn2
    cases hn2
  | some n =>
    rw [hp] at hn2
    have he : n2 = f n := by simpa using hn2.symm
    subst he
    rcases hf n with e | e
    · rw [e]
      exact h i n hp
    · rw [e]
      exact Or.inr hgU

/-- The merge-group write of grow_tree: every node of the group receives
the group as its merge set (other fields that matter are untouched).
If the group members exist, are mutually compatible, and supersede every
merge set they intersect, the merge invariant is preserved. -/
theorem groupWrite_mergeInv (st : Store) (group : List Nat)
    (f : ENode → ENode)
    (hf : ∀ n, (f n).nid = n.nid ∧ (f n).seq = n.seq ∧
      (f n).action = n.action ∧ (f n).mergeSiblings = group)
    (hPos : PosId st) (hM : MergeInv st)
    (hex : ∀ j ∈ group, ∃ m, st[j]? = some m)
    (hcomp : ∀ a ∈ group, ∀ b ∈ group,
      seqOf st a = seqOf st b ∧
      mergeOk (actionOf st a) (actionOf st b) = true)
    (hsup : ∀ (i : Nat) (n : ENode), st[i]? = some n →
      ∀ j ∈ n.mergeSiblings, j ∈ group →
        ∀ l ∈ n.mergeSiblings, l ∈ group) :
    MergeInv (st.map (fun n => if n.nid ∈ group then f n else n)) := by
  intro i n2 hn2 hne
  rw [map_lookup] at hn2
  cases hp : st[i]? with
  | none =>
    rw [hp] at hn2
    cases hn2
  | some n =>
    rw [hp] at hn2
    have he : n2 = if n.nid ∈ group then f n else n := by
      simpa using hn2.symm
    have hnid := hPos i n hp
    by_cases hig : i ∈ group
    · rw [if_pos (by rw [hnid]; exact hig)] at he
      subst he
      rw [(hf n).2.2.2]
      refine ⟨hig, ?_⟩
      intro j hj
      obtain ⟨m, hm⟩ := hex j hj
      have hmid := hPos j m hm
      refine ⟨f m, ?_, ?_, ?_, ?_⟩
      · rw [map_lookup, hm]
        simp [hmid, hj]
      · rw [(hf m).2.2.2]
      · rw [(hf m).2.1, (hf n).2.1]
        have := (hcomp j hj i hig).1
        unfold seqOf at this
        rw [hm, hp] at this
        simpa using this
      · rw [(hf m).2.2.1, (hf n).2.2.1]
        have := (hcomp j hj i hig).2
        unfold actionOf at this
        rw [hm, hp] at this
        simpa using this
    · rw [if_neg (by rw [hnid]; exact hig)] at he
      rw [he] at hne ⊢
      obtain ⟨hmem, hall⟩ := hM i n hp hne
      refine ⟨hmem, ?_⟩
      intro j hj
      have hjg : j ∉ group := by
        intro hjg
        exact hig (hsup i n hp j hj hjg i hmem)
      obtain ⟨m, hm, q1, q2, q3⟩ := hall j hj
      have hmid := hPos j m hm
      refine ⟨m, ?_, q1, q2, q3⟩
      rw [map_lookup, hm]
      simp [hmid, hjg]

theorem updNode_len (st : Store) (i : Nat) (f : ENode → ENode) :
    (updNode st i f).length = st.length := by
  unfold updNode
  exact List.length_map st _

theorem posId_updNode (st : Store) (i : Nat) (f : ENode → ENode)
    (hf : ∀ n, (f n).nid = n.nid) (h : PosId st) :
    PosId (updNode st i f) := by
  unfold updNode
  apply posId_map _ _ _ h
  intro n
  by_cases hn : n.nid = i
  · simp [hn, hf n]
  · simp [hn]

theorem safe_updNode (st : Store) (i : Nat) (f : ENode → ENode)
    (hf : ∀ n, (f n).nid = n.nid ∧ (f n).seq = n.seq ∧
      (f n).action = n.action ∧ (f n).mergeSiblings = n.mergeSiblings) :
    Safe st (updNode st i f) := by
  unfold updNode
  apply safe_map
  intro n
  by_cases hn : n.nid = i
  · rw [if_pos hn]
    exact hf n
  · simp [hn]

theorem posId_append (st : Store) (c : ENode) (h : PosId st)
    (hc : c.nid = st.length) : PosId (st ++ [c]) := by
  intro k n hn
  by_cases hk : k < st.length
  · rw [append_lookup_lt st c k hk] at hn
    exact h k n hn
  · have hlen := lookup_lt_length hn
    rw [List.length_append, List.length_singleton] at hlen
    have hke : k = st.length := by omega
    subst hke
    rw [append_lookup_len] at hn
    cases hn
    exact hc

theorem setsBelow_mono {st : Store} {B B2 : Nat} (h : SetsBelow st B)
    (hB : B ≤ B2) : SetsBelow st B2 :=
  fun i n hn j hj => lt_of_lt_of_le (h i n hn j hj) hB

/-- All positions from L on hold fresh nodes. -/
def NewFresh (L : Nat) (st2 : Store) : Prop :=
  ∀ (k : Nat) (n : ENode), L ≤ k → st2[k]? = some n →
    n.mergeSiblings = [] ∧ n.children = [] ∧ n.childrenNondel = [] ∧
    n.childDeledit = []

/-- What gen_deledit_child does to the store: position pid gains at most
one fresh delete child id at the end of its deledit list; the child is a
fresh node appended at the end; nothing else moves. -/
theorem genDeledit_inv (ctx : ETree) (st : Store) (i : Nat) (p : ENode)
    (hPos : PosId st) (hp : st[i]? = some p) :
    PosId (genDeleditChild ctx st i) ∧
    Safe st (genDeleditChild ctx st i) ∧
    (∀ (k : Nat) (m : ENode), k ≠ i → st[k]? = some m →
      (genDeleditChild ctx st i)[k]? = some m) ∧
    ∃ (p2 : ENode) (ds : List Nat),
      (genDeleditChild ctx st i)[i]? = some p2 ∧
      p2.nid = p.nid ∧ p2.seq = p.seq ∧ p2.action = p.action ∧
      p2.mergeSiblings = p.mergeSiblings ∧ p2.nodeType = p.nodeType ∧
      p2.toMerge = p.toMerge ∧ p2.mIndex = p.mIndex ∧
      p2.children = p.children ∧
      p2.childrenNondel = p.childrenNondel ∧
      p2.childDeledit = p.childDeledit ++ ds ∧
      (∀ j ∈ ds, st.length ≤ j ∧ FreshAt (genDeleditChild ctx st i) j) ∧
      NewFresh st.length (genDeleditChild ctx st i) ∧
      (genDeleditChild ctx st i).length = st.length + ds.length ∧
      (ds = [] ∨ ds = [st.length]) := by
  have hilt : i < st.length := lookup_lt_length hp
  simp only [genDeleditChild, hp]
  by_cases hcond : p.action ≠ 'i' ∧
      p.seq.getD (p.mIndex + nextIndexStep p.action) 'x' = 'u'
  · rw [if_pos hcond]
    have hlenU : (updNode st i (fun n =>
        { n with childDeledit := n.childDeledit ++
            [(mkChild ctx st p 'd').nid] })).length = st.length :=
      updNode_len st i _
    have hPosU : PosId (updNode st i (fun n =>
        { n with childDeledit := n.childDeledit ++
            [(mkChild ctx st p 'd').nid] })) :=
      posId_updNode st i _ (fun n => rfl) hPos
    have hPos2 : PosId (updNode st i (fun n =>
        { n with childDeledit := n.childDeledit ++
            [(mkChild ctx st p 'd').nid] }) ++ [mkChild ctx st p 'd']) := by
      apply posId_append _ _ hPosU
      rw [hlenU]
      rfl
    refine ⟨hPos2, ?_, ?_, ?_⟩
    · refine safe_trans (safe_updNode st i (fun n =>
        { n with childDeledit := n.childDeledit ++
            [(mkChild ctx st p 'd').nid] })
        (fun n => ⟨rfl, rfl, rfl, rfl⟩)) ?_
      apply safe_append
      · rfl
      · rw [hlenU]
        rfl
    · intro k m hk hm
      rw [append_lookup_lt _ _ k (by rw [hlenU]; exact lookup_lt_length hm)]
      rw [updNode_lookup st i _ hPos k, if_neg hk]
      exact hm
    · refine ⟨{ p with childDeledit := p.childDeledit ++
          [(mkChild ctx st p 'd').nid] }, [st.length], ?_,
        rfl, rfl, rfl, rfl, rfl, rfl, rfl, rfl, rfl, rfl, ?_, ?_, ?_,
        Or.inr rfl⟩
      · rw [append_lookup_lt _ _ i (by rw [hlenU]; exact hilt)]
        rw [updNode_lookup st i _ hPos i, if_pos rfl, hp]
        rfl
      · intro j hj
        rw [List.mem_singleton] at hj
        subst hj
        refine ⟨le_refl _, ?_⟩
        refine ⟨mkChild ctx st p 'd', ?_, rfl, rfl, rfl, rfl⟩
        have := append_lookup_len (updNode st i (fun n =>
            { n with childDeledit := n.childDeledit ++
                [(mkChild ctx st p 'd').nid] })) (mkChild ctx st p 'd')
        rwa [hlenU] at this
      · intro k n hk hkn
        have hkb := lookup_lt_length hkn
        rw [List.length_append, hlenU, List.length_singleton] at hkb
        have hke : k = st.length := by omega
        subst hke
        have hlookc : (updNode st i (fun n =>
            { n with childDeledit := n.childDeledit ++
                [(mkChild ctx st p 'd').nid] }) ++
            [mkChild ctx st p 'd'])[st.length]? =
            some (mkChild ctx st p 'd') := by
          have := append_lookup_len (updNode st i (fun n =>
              { n with childDeledit := n.childDeledit ++
                  [(mkChild ctx st p 'd').nid] })) (mkChild ctx st p 'd')
          rwa [hlenU] at this
        have := hlookc.symm.trans hkn
        injection this with h3
        rw [h3.symm]
        exact ⟨rfl, rfl, rfl, rfl⟩
      · rw [List.length_append, hlenU, List.length_singleton]
        rfl
  · rw [if_neg hcond]
    refine ⟨hPos, safe_refl st, fun k m _ hm => hm, p, [], hp,
      rfl, rfl, rfl, rfl, rfl, rfl, rfl, rfl, rfl, by simp, ?_, ?_,
      by simp, Or.inl rfl⟩
    · intro j hj
      cases hj
    · intro k n hk hkn
      have := lookup_lt_length hkn
      omega

/-- The three node updates used while generating children. -/
def addNondel (j : Nat) (n : ENode) : ENode :=
  { n with childrenNondel := n.childrenNondel ++ [j] }

def addDeledit (j : Nat) (n : ENode) : ENode :=
  { n with childDeledit := n.childDeledit ++ [j] }

def setChildren (n : ENode) : ENode :=
  { n with children := n.childrenNondel ++ n.childDeledit }

/-- Appending one fresh child while extending a list field of the
parent: the generic shape of the three child-creation steps. -/
theorem appendChild_inv (st : Store) (i : Nat) (g : ENode → ENode)
    (c : ENode) (hPos : PosId st)
    (hg : ∀ n, (g n).nid = n.nid ∧ (g n).seq = n.seq ∧
      (g n).action = n.action ∧ (g n).mergeSiblings = n.mergeSiblings)
    (hc1 : c.mergeSiblings = []) (hc2 : c.nid = st.length) :
    PosId (updNode st i g ++ [c]) ∧ Safe st (updNode st i g ++ [c]) ∧
    (updNode st i g ++ [c]).length = st.length + 1 ∧
    (∀ (k : Nat) (m : ENode), k ≠ i → st[k]? = some m →
      (updNode st i g ++ [c])[k]? = some m) ∧
    (∀ (m : ENode), st[i]? = some m →
      (updNode st i g ++ [c])[i]? = some (g m)) ∧
    (updNode st i g ++ [c])[st.length]? = some c := by
  have hlen : (updNode st i g).length = st.length := updNode_len st i g
  refine ⟨?_, ?_, ?_, ?_, ?_, ?_⟩
  · apply posId_append _ _ (posId_updNode st i g (fun n => (hg n).1) hPos)
    rw [hlen]
    exact hc2
  · refine safe_trans (safe_updNode st i g hg) ?_
    apply safe_append
    · exact hc1
    · rw [hlen]
      exact hc2
  · rw [List.length_append, hlen, List.length_singleton]
  · intro k m hk hm
    rw [append_lookup_lt _ _ k (by rw [hlen]; exact lookup_lt_length hm)]
    rw [updNode_lookup st i g hPos k, if_neg hk]
    exact hm
  · intro m hm
    rw [append_lookup_lt _ _ i (by rw [hlen]; exact lookup_lt_length hm)]
    rw [updNode_lookup st i g hPos i, if_pos rfl, hm]
    rfl
  · have := append_lookup_len (updNode st i g) c
    rwa [hlen] at this

/-- Updating one node in place with a field-safe function. -/
theorem updOnly_inv (st : Store) (i : Nat) (g : ENode → ENode)
    (hPos : PosId st)
    (hg : ∀ n, (g n).nid = n.nid ∧ (g n).seq = n.seq ∧
      (g n).action = n.action ∧ (g n).mergeSiblings = n.mergeSiblings) :
    PosId (updNode st i g) ∧ Safe st (updNode st i g) ∧
    (updNode st i g).length = st.length ∧
    (∀ (k : Nat) (m : ENode), k ≠ i → st[k]? = some m →
      (updNode st i g)[k]? = some m) ∧
    (∀ (m : ENode), st[i]? = some m →
      (updNode st i g)[i]? = some (g m)) := by
  refine ⟨posId_updNode st i g (fun n => (hg n).1) hPos,
    safe_updNode st i g hg, updNode_len st i g, ?_, ?_⟩
  · intro k m hk hm
    rw [updNode_lookup st i g hPos k, if_neg hk]
    exact hm
  · intro m hm
    rw [updNode_lookup st i g hPos i, if_pos rfl, hm]
    rfl

/-- What gen_nondel_children does to a childless node: position i gains
the fresh pass child id and possibly the fresh insert child id at the
end of its nondelete list, its children become the nondelete list
followed by the deledit list, the fresh children are appended at the
end, and nothing else moves. -/
theorem genNondel_inv (ctx : ETree) (st : Store) (i : Nat) (p : ENode)
    (hPos : PosId st) (hp : st[i]? = some p) (hch : p.children = []) :
    PosId (genNondelChildren ctx st i) ∧
    Safe st (genNondelChildren ctx st i) ∧
    (∀ (k : Nat) (m : ENode), k ≠ i → st[k]? = some m →
      (genNondelChildren ctx st i)[k]? = some m) ∧
    ∃ (p2 : ENode) (ps : List Nat),
      (genNondelChildren ctx st i)[i]? = some p2 ∧
      p2.nid = p.nid ∧ p2.seq = p.seq ∧ p2.action = p.action ∧
      p2.mergeSiblings = p.mergeSiblings ∧ p2.nodeType = p.nodeType ∧
      p2.toMerge = p.toMerge ∧
      p2.childrenNondel = p.childrenNondel ++ ps ∧
      p2.childDeledit = p.childDeledit ∧
      p2.children = p2.childrenNondel ++ p2.childDeledit ∧
      (∀ j ∈ ps, st.length ≤ j ∧
        FreshAt (genNondelChildren ctx st i) j) ∧
      NewFresh st.length (genNondelChildren ctx st i) ∧
      (genNondelChildren ctx st i).length = st.length + ps.length ∧
      (ps = [st.length] ∨ ps = [st.length, st.length + 1]) := by
  have hilt : i < st.length := lookup_lt_length hp
  have hEmpty : p.children.isEmpty = true := by
    rw [hch]
    rfl
  obtain ⟨hPos1, hSafe1, hlen1, hstab1, hlookI1, hlookN1⟩ :=
    appendChild_inv st i (addNondel st.length) (mkChild ctx st p 'p')
      hPos (fun n => ⟨rfl, rfl, rfl, rfl⟩) rfl rfl
  have hlookP : (updNode st i (addNondel st.length) ++
      [mkChild ctx st p 'p'])[i]? = some (addNondel st.length p) :=
    hlookI1 p hp
  by_cases hcondI : p.action ≠ 'd' ∧
      p.seq.getD (p.mIndex + nextIndexStep p.action) 'x' ≠ 'u'
  · -- both the pass child and the insert child
    obtain ⟨hPos2, hSafe2, hlen2, hstab2, hlookI2, hlookN2⟩ :=
      appendChild_inv (updNode st i (addNondel st.length) ++
          [mkChild ctx st p 'p']) i
        (addNondel (mkChild ctx (updNode st i (addNondel st.length) ++
          [mkChild ctx st p 'p']) (addNondel st.length p) 'i').nid)
        (mkChild ctx (updNode st i (addNondel st.length) ++
          [mkChild ctx st p 'p']) (addNondel st.length p) 'i')
        hPos1 (fun n => ⟨rfl, rfl, rfl, rfl⟩) rfl rfl
    obtain ⟨hPosF, hSafeF, hlenF, hstabF, hlookIF⟩ :=
      updOnly_inv (updNode (updNode st i (addNondel st.length) ++
          [mkChild ctx st p 'p']) i
          (addNondel (mkChild ctx (updNode st i (addNondel st.length) ++
            [mkChild ctx st p 'p']) (addNondel st.length p) 'i').nid) ++
          [mkChild ctx (updNode st i (addNondel st.length) ++
            [mkChild ctx st p 'p']) (addNondel st.length p) 'i'])
        i setChildren hPos2 (fun n => ⟨rfl, rfl, rfl, rfl⟩)
    have heq : genNondelChildren ctx st i =
        updNode (updNode (updNode st i (addNondel st.length) ++
            [mkChild ctx st p 'p']) i
            (addNondel (mkChild ctx (updNode st i (addNondel st.length) ++
              [mkChild ctx st p 'p']) (addNondel st.length p) 'i').nid) ++
            [mkChild ctx (updNode st i (addNondel st.length) ++
              [mkChild ctx st p 'p']) (addNondel st.length p) 'i'])
          i setChildren := by
      simp only [genNondelChildren, hp]
      rw [if_pos hEmpty, if_pos hcondI]
      split
      · rename_i hsc
        have hcontra := hlookP.symm.trans hsc
        cases hcontra
      · rename_i p1 hsc
        have h2 : some p1 = some (addNondel st.length p) :=
          hsc.symm.trans hlookP
        injection h2 with h3
        subst h3
        rfl
    have hinid : (mkChild ctx (updNode st i (addNondel st.length) ++
        [mkChild ctx st p 'p']) (addNondel st.length p) 'i').nid =
        st.length + 1 := by
      show (updNode st i (addNondel st.length) ++
        [mkChild ctx st p 'p']).length = st.length + 1
      exact hlen1
    rw [heq]
    refine ⟨hPosF, safe_trans (safe_trans hSafe1 hSafe2) hSafeF, ?_,
      ?_⟩
    · intro k m hk hm
      exact hstabF k m hk (hstab2 k m hk (hstab1 k m hk hm))
    · refine ⟨_, [st.length, st.length + 1],
        hlookIF _ (hlookI2 _ hlookP), rfl, rfl, rfl, rfl, rfl, rfl,
        ?_, rfl, rfl, ?_, ?_, ?_, Or.inr rfl⟩
      · show ((p.childrenNondel ++ [st.length]) ++
          [(mkChild ctx (updNode st i (addNondel st.length) ++
            [mkChild ctx st p 'p']) (addNondel st.length p) 'i').nid]) =
          p.childrenNondel ++ [st.length, st.length + 1]
        rw [hinid, List.append_assoc]
        rfl
      · intro j hj
        rcases List.mem_cons.mp hj with rfl | hj2
        · refine ⟨le_refl _, ?_⟩
          refine ⟨mkChild ctx st p 'p', ?_, rfl, rfl, rfl, rfl⟩
          apply hstabF _ _ (by omega)
          apply hstab2 _ _ (by omega)
          exact hlookN1
        · rw [List.mem_singleton] at hj2
          subst hj2
          refine ⟨by omega, ?_⟩
          refine ⟨mkChild ctx (updNode st i (addNondel st.length) ++
            [mkChild ctx st p 'p']) (addNondel st.length p) 'i', ?_,
            rfl, rfl, rfl, rfl⟩
          apply hstabF _ _ (by omega)
          have := hlookN2
          rwa [hlen1] at this
      · intro k n hk hkn
        have hkb := lookup_lt_length hkn
        rw [hlenF, hlen2, hlen1] at hkb
        have hlookPP : (updNode (updNode st i (addNondel st.length) ++
            [mkChild ctx st p 'p']) i
            (addNondel (mkChild ctx (updNode st i (addNondel st.length) ++
              [mkChild ctx st p 'p']) (addNondel st.length p) 'i').nid) ++
            [mkChild ctx (updNode st i (addNondel st.length) ++
              [mkChild ctx st p 'p']) (addNondel st.length p)
              'i'])[st.length]? = some (mkChild ctx st p 'p') :=
          hstab2 _ _ (by omega) hlookN1
        rcases (by omega : k = st.length ∨ k = st.length + 1) with
          rfl | rfl
        · have hv := hstabF _ _ (by omega) hlookPP
          have := hv.symm.trans hkn
          injection this with h3
          rw [h3.symm]
          exact ⟨rfl, rfl, rfl, rfl⟩
        · have hvI : (updNode (updNode st i (addNondel st.length) ++
              [mkChild ctx st p 'p']) i
              (addNondel (mkChild ctx (updNode st i
                (addNondel st.length) ++
                [mkChild ctx st p 'p']) (addNondel st.length p)
                  'i').nid) ++
              [mkChild ctx (updNode st i (addNondel st.length) ++
                [mkChild ctx st p 'p']) (addNondel st.length p)
                'i'])[st.length + 1]? =
              some (mkChild ctx (updNode st i (addNondel st.length) ++
                [mkChild ctx st p 'p']) (addNondel st.length p) 'i') := by
            have := hlookN2
            rwa [hlen1] at this
          have hv := hstabF _ _ (by omega) hvI
          have := hv.symm.trans hkn
          injection this with h3
          rw [h3.symm]
          exact ⟨rfl, rfl, rfl, rfl⟩
      · rw [hlenF, hlen2, hlen1]
        rfl
  · -- only the pass child
    obtain ⟨hPosF, hSafeF, hlenF, hstabF, hlookIF⟩ :=
      updOnly_inv (updNode st i (addNondel st.length) ++
          [mkChild ctx st p 'p']) i setChildren hPos1
        (fun n => ⟨rfl, rfl, rfl, rfl⟩)
    have heq : genNondelChildren ctx st i =
        updNode (updNode st i (addNondel st.length) ++
          [mkChild ctx st p 'p']) i setChildren := by
      simp only [genNondelChildren, hp]
      rw [if_pos hEmpty, if_neg hcondI]
      rfl
    rw [heq]
    refine ⟨hPosF, safe_trans hSafe1 hSafeF, ?_, ?_⟩
    · intro k m hk hm
      exact hstabF k m hk (hstab1 k m hk hm)
    · refine ⟨_, [st.length], hlookIF _ hlookP, rfl, rfl, rfl, rfl,
        rfl, rfl, rfl, rfl, rfl, ?_, ?_, ?_, Or.inl rfl⟩
      · intro j hj
        rw [List.mem_singleton] at hj
        subst hj
        refine ⟨le_refl _, ?_⟩
        refine ⟨mkChild ctx st p 'p', ?_, rfl, rfl, rfl, rfl⟩
        apply hstabF _ _ (by omega)
        exact hlookN1
      · intro k n hk hkn
        have hkb := lookup_lt_length hkn
        rw [hlenF, hlen1] at hkb
        have hke : k = st.length := by omega
        subst hke
        have hv := hstabF _ _ (by omega) hlookN1
        have := hv.symm.trans hkn
        injection this with h3
        rw [h3.symm]
        exact ⟨rfl, rfl, rfl, rfl⟩
      · rw [hlenF, hlen1]
        rfl

/-- The combined child generation (gen_deledit_child then
gen_nondel_children) on a childless node preserves the invariants, is
safe, keeps other positions untouched, and equips the node with a list
of fresh children. -/
theorem genPair_inv (ctx : ETree) (st : Store) (i : Nat) (p : ENode)
    (hCore : CoreInv st) (hp : st[i]? = some p) (hch : p.children = []) :
    CoreInv (genNondelChildren ctx (genDeleditChild ctx st i) i) ∧
    Safe st (genNondelChildren ctx (genDeleditChild ctx st i) i) ∧
    st.length ≤ (genNondelChildren ctx (genDeleditChild ctx st i) i).length ∧
    (∀ (k : Nat) (m : ENode), k ≠ i → st[k]? = some m →
      (genNondelChildren ctx (genDeleditChild ctx st i) i)[k]? = some m) ∧
    ∃ p2, (genNondelChildren ctx (genDeleditChild ctx st i) i)[i]? =
        some p2 ∧
      p2.nid = p.nid ∧ p2.seq = p.seq ∧ p2.action = p.action ∧
      p2.mergeSiblings = p.mergeSiblings ∧ p2.nodeType = p.nodeType ∧
      p2.toMerge = p.toMerge ∧
      p2.children = p2.childrenNondel ++ p2.childDeledit ∧
      (∀ j ∈ p2.children, st.length ≤ j ∧
        FreshAt (genNondelChildren ctx (genDeleditChild ctx st i) i) j) ∧
      p2.children.Nodup := by
  obtain ⟨hPos, hM, hSB, hLI⟩ := hCore
  obtain ⟨hcnd, hcdd⟩ := hLI i p hp hch
  obtain ⟨hPosD, hSafeD, hstabD, pD, ds, hlookD, d1, d2, d3, d4, d5, d6,
    d7, d8, d9, d10, hds, hNFD, hdlen, hdform⟩ :=
    genDeledit_inv ctx st i p hPos hp
  have hchD : pD.children = [] := by
    rw [d8, hch]
  obtain ⟨hPosN, hSafeN, hstabN, p2, ps, hlookN, n1, n2, n3, n4, n5, n6,
    n7, n8, n9, hps, hNFN, hnlen, hnform⟩ :=
    genNondel_inv ctx (genDeleditChild ctx st i) i pD hPosD hlookD hchD
  have hSafe : Safe st (genNondelChildren ctx (genDeleditChild ctx st i) i) :=
    safe_trans hSafeD hSafeN
  have hlen : st.length ≤
      (genNondelChildren ctx (genDeleditChild ctx st i) i).length :=
    le_trans hSafeD.1 hSafeN.1
  have hstab : ∀ (k : Nat) (m : ENode), k ≠ i → st[k]? = some m →
      (genNondelChildren ctx (genDeleditChild ctx st i) i)[k]? = some m :=
    fun k m hk hm => hstabN k m hk (hstabD k m hk hm)
  have hchildren : p2.children = ps ++ ds := by
    rw [n9, n7, d9, hcnd, n8, d10, hcdd]
    simp
  refine ⟨⟨hPosN, mergeInv_safe hM hSafe, ?_, ?_⟩, hSafe, hlen, hstab,
    p2, hlookN, by rw [n1, d1], by rw [n2, d2], by rw [n3, d3],
    by rw [n4, d4], by rw [n5, d5], by rw [n6, d6], n9, ?_, ?_⟩
  · exact setsBelow_mono (setsBelow_safe hSB hSafe) hlen
  · -- ListsInv of the result
    intro k n hkn hchn
    by_cases hki : k = i
    · subst hki
      have := hlookN.symm.trans hkn
      injection this with h3
      subst h3
      rw [n9] at hchn
      exact ⟨(List.append_eq_nil.mp hchn).1,
        (List.append_eq_nil.mp hchn).2⟩
    · by_cases hkL : k < st.length
      · have hmex : ∃ m, st[k]? = some m := by
          cases hsk : st[k]? with
          | none =>
            rw [List.getElem?_eq_none_iff] at hsk
            omega
          | some m => exact ⟨m, rfl⟩
        obtain ⟨m, hm⟩ := hmex
        have hv := hstab k m hki hm
        have := hv.symm.trans hkn
        injection this with h3
        subst h3
        exact hLI k m hm hchn
      · by_cases hkD : k < (genDeleditChild ctx st i).length
        · have hmD : ∃ m, (genDeleditChild ctx st i)[k]? = some m := by
            exact ⟨_, List.getElem?_eq_getElem hkD⟩
          obtain ⟨m, hm⟩ := hmD
          obtain ⟨s1, s2, s3, s4⟩ := hNFD k m (by omega) hm
          have hv := hstabN k m hki hm
          have := hv.symm.trans hkn
          injection this with h3
          subst h3
          exact ⟨s3, s4⟩
        · obtain ⟨s1, s2, s3, s4⟩ := hNFN k n (by omega) hkn
          exact ⟨s3, s4⟩
  · -- the children are fresh
    intro j hj
    rw [hchildren] at hj
    rcases List.mem_append.mp hj with hjp | hjd
    · obtain ⟨hb, hf⟩ := hps j hjp
      exact ⟨le_trans hSafeD.1 hb, hf⟩
    · obtain ⟨hb, hf⟩ := hds j hjd
      obtain ⟨m, hm, f1, f2, f3, f4⟩ := hf
      have hji : j ≠ i := by
        have := lookup_lt_length hp
        omega
      exact ⟨hb, ⟨m, hstabN j m hji hm, f1, f2, f3, f4⟩⟩
  · -- the children are distinct
    rw [hchildren]
    rcases hdform with rfl | rfl <;> rcases hnform with h | h <;>
      rw [h] <;> rw [hdlen] <;>
      simp [List.nodup_cons] <;> omega

/-- Marking a compatible group as to-merge with a shared sibling list
preserves the invariants (writeGroup of the delete-cohort pass). -/
theorem writeGroup_inv (st : Store) (group : List Nat)
    (hPos : PosId st) (hM : MergeInv st) (hSB : SetsBelow st st.length)
    (hLI : ListsInv st)
    (hex : ∀ j ∈ group, ∃ m, st[j]? = some m)
    (hcomp : ∀ a ∈ group, ∀ b ∈ group, seqOf st a = seqOf st b ∧
      mergeOk (actionOf st a) (actionOf st b) = true)
    (hsup : ∀ (i : Nat) (n : ENode), st[i]? = some n →
      ∀ j ∈ n.mergeSiblings, j ∈ group →
        ∀ l ∈ n.mergeSiblings, l ∈ group) :
    CoreInv (writeGroup st group) ∧
    (writeGroup st group).length = st.length ∧
    (∀ (k : Nat) (m : ENode), st[k]? = some m →
      ∃ m2, (writeGroup st group)[k]? = some m2 ∧ m2.nid = m.nid ∧
        m2.seq = m.seq ∧ m2.action = m.action ∧
        m2.nodeType = m.nodeType ∧ m2.children = m.children ∧
        m2.childrenNondel = m.childrenNondel ∧
        m2.childDeledit = m.childDeledit ∧
        (m2.mergeSiblings = m.mergeSiblings ∨
          m2.mergeSiblings = group)) ∧
    (∀ (k : Nat) (n2 : ENode), (writeGroup st group)[k]? = some n2 →
      (∃ m, st[k]? = some m ∧ n2.mergeSiblings = m.mergeSiblings) ∨
      n2.mergeSiblings = group) := by
  have hgb : ∀ j ∈ group, j < st.length := by
    intro j hj
    obtain ⟨m, hm⟩ := hex j hj
    exact lookup_lt_length hm
  refine ⟨⟨?_, ?_, ?_, ?_⟩, ?_, ?_, ?_⟩
  · unfold writeGroup
    apply posId_map _ _ _ hPos
    intro n
    by_cases hn : n.nid ∈ group <;> simp [hn]
  · unfold writeGroup
    exact groupWrite_mergeInv st group _ (fun n => ⟨rfl, rfl, rfl, rfl⟩)
      hPos hM hex hcomp hsup
  · unfold writeGroup
    have hlen : (st.map (fun n => if n.nid ∈ group then
        { n with toMerge := true, mergeSiblings := group } else n)).length
        = st.length := List.length_map st _
    rw [hlen]
    apply setsBelow_map_group st _ group st.length _ hgb hSB
    intro n
    by_cases hn : n.nid ∈ group <;> simp [hn]
  · unfold writeGroup
    apply listsInv_map st _ _ hLI
    intro n
    left
    by_cases hn : n.nid ∈ group <;> simp [hn]
  · unfold writeGroup
    exact List.length_map st _
  · intro k m hm
    unfold writeGroup
    rw [map_lookup, hm]
    by_cases hn : m.nid ∈ group
    · exact ⟨_, rfl, by simp [hn], by simp [hn], by simp [hn],
        by simp [hn], by simp [hn], by simp [hn], by simp [hn],
        by simp [hn]⟩
    · exact ⟨m, by simp [hn], rfl, rfl, rfl, rfl, rfl, rfl, rfl,
        Or.inl rfl⟩
  · intro k n2 hn2
    unfold writeGroup at hn2
    rw [map_lookup] at hn2
    cases hp : st[k]? with
    | none =>
      rw [hp] at hn2
      cases hn2
    | some m =>
      rw [hp] at hn2
      have he : n2 = if m.nid ∈ group then
          { m with toMerge := true, mergeSiblings := group } else m := by
        simpa using hn2.symm
      by_cases hn : m.nid ∈ group
      · rw [if_pos hn] at he
        subst he
        exact Or.inr rfl
      · rw [if_neg hn] at he
        exact Or.inl ⟨m, rfl, by rw [he]⟩

/-- The delete-cohort merging pass preserves the invariants: the store
keeps its length, every node keeps everything but possibly its merge
flag and set, every merge set is pre-existing or drawn from the cohort,
and the checked output stays within cohort and accumulator. -/
theorem delMergeRound_inv (st : Store) (unchecked checked : List Nat)
    (fuel : Nat)
    (hPos : PosId st) (hM : MergeInv st) (hSB : SetsBelow st st.length)
    (hLI : ListsInv st)
    (hval : ∀ j ∈ unchecked, ∃ m, st[j]? = some m)
    (hF : ∀ j ∈ unchecked, ∀ (p : Nat) (n : ENode), st[p]? = some n →
      j ∉ n.mergeSiblings) :
    CoreInv (delMergeRound st unchecked checked fuel).1 ∧
    (delMergeRound st unchecked checked fuel).1.length = st.length ∧
    (∀ (k : Nat) (m : ENode), st[k]? = some m →
      ∃ m2, (delMergeRound st unchecked checked fuel).1[k]? = some m2 ∧
        m2.nid = m.nid ∧ m2.seq = m.seq ∧ m2.action = m.action ∧
        m2.nodeType = m.nodeType ∧ m2.children = m.children ∧
        m2.childrenNondel = m.childrenNondel ∧
        m2.childDeledit = m.childDeledit) ∧
    (∀ (k : Nat) (n2 : ENode),
      (delMergeRound st unchecked checked fuel).1[k]? = some n2 →
      (∃ m, st[k]? = some m ∧ n2.mergeSiblings = m.mergeSiblings) ∨
      (∀ j ∈ n2.mergeSiblings, j ∈ unchecked)) ∧
    (∀ j ∈ (delMergeRound st unchecked checked fuel).2,
      j ∈ unchecked ∨ j ∈ checked) := by
  induction fuel generalizing st unchecked checked with
  | zero =>
    refine ⟨⟨hPos, hM, hSB, hLI⟩, rfl, ?_, ?_, ?_⟩
    · intro k m hm
      exact ⟨m, hm, rfl, rfl, rfl, rfl, rfl, rfl, rfl⟩
    · intro k n2 hn2
      exact Or.inl ⟨n2, hn2, rfl⟩
    · intro j hj
      exact Or.inr hj
  | succ fuel ih =>
    show CoreInv (delMergeRound st unchecked checked (fuel + 1)).1 ∧ _
    rw [delMergeRound]
    cases hlast : unchecked.getLast? with
    | none =>
      refine ⟨⟨hPos, hM, hSB, hLI⟩, rfl, ?_, ?_, ?_⟩
      · intro k m hm
        exact ⟨m, hm, rfl, rfl, rfl, rfl, rfl, rfl, rfl⟩
      · intro k n2 hn2
        exact Or.inl ⟨n2, hn2, rfl⟩
      · intro j hj
        exact Or.inr hj
    | some test =>
      have htest : test ∈ unchecked := List.mem_of_mem_getLast? hlast
      have hrest : ∀ j ∈ unchecked.dropLast, j ∈ unchecked :=
        fun j hj => List.mem_of_mem_dropLast hj
      simp only []
      by_cases hfound : ((unchecked.dropLast.filter (fun i =>
          seqOf st i = seqOf st test ∧
            mergeOk (actionOf st i) (actionOf st test))).reverse).isEmpty
      · rw [if_pos hfound]
        obtain ⟨c1, c2, c3, c4, c5⟩ := ih st unchecked.dropLast
          (checked ++ [test]) hPos hM hSB hLI
          (fun j hj => hval j (hrest j hj))
          (fun j hj => hF j (hrest j hj))
        refine ⟨c1, c2, c3, ?_, ?_⟩
        · intro k n2 hn2
          rcases c4 k n2 hn2 with hold | hsub
          · exact Or.inl hold
          · exact Or.inr (fun j hj => hrest j (hsub j hj))
        · intro j hj
          rcases c5 j hj with hju | hjc
          · exact Or.inl (hrest j hju)
          · rcases List.mem_append.mp hjc with hjc2 | hjt
            · exact Or.inr hjc2
            · rw [List.mem_singleton] at hjt
              exact Or.inl (hjt ▸ htest)
      · rw [if_neg hfound]
        have hfmem : ∀ j, j ∈ (unchecked.dropLast.filter (fun i => seqOf st i = seqOf st test ∧ mergeOk (actionOf st i) (actionOf st test))).reverse ↔
            (j ∈ unchecked.dropLast ∧ (seqOf st j = seqOf st test ∧
              mergeOk (actionOf st j) (actionOf st test) = true)) := by
          intro j
          simp only [List.mem_reverse, List.mem_filter,
            decide_eq_true_eq]
        have hfne : (unchecked.dropLast.filter (fun i => seqOf st i = seqOf st test ∧ mergeOk (actionOf st i) (actionOf st test))).reverse ≠ [] := by
          intro h
          apply hfound
          rw [h]
          rfl
        obtain ⟨w, hw⟩ := List.exists_mem_of_ne_nil _ hfne
        have hmm_test : mergeOk (actionOf st test) (actionOf st test) =
            true := mergeOk_refl_right _ _ ((hfmem w).mp hw).2.2
        have hgmem : ∀ j, j ∈ (unchecked.dropLast.filter (fun i => seqOf st i = seqOf st test ∧ mergeOk (actionOf st i) (actionOf st test))).reverse ++ [test] ↔ j ∈ (unchecked.dropLast.filter (fun i => seqOf st i = seqOf st test ∧ mergeOk (actionOf st i) (actionOf st test))).reverse ∨ j = test := by
          intro j
          simp [List.mem_append, List.mem_singleton]
        have hgu : ∀ j ∈ (unchecked.dropLast.filter (fun i => seqOf st i = seqOf st test ∧ mergeOk (actionOf st i) (actionOf st test))).reverse ++ [test], j ∈ unchecked := by
          intro j hj
          rcases (hgmem j).mp hj with hjf | rfl
          · exact hrest j ((hfmem j).mp hjf).1
          · exact htest
        have hex : ∀ j ∈ (unchecked.dropLast.filter (fun i => seqOf st i = seqOf st test ∧ mergeOk (actionOf st i) (actionOf st test))).reverse ++ [test], ∃ m, st[j]? = some m :=
          fun j hj => hval j (hgu j hj)
        have hcomp : ∀ a ∈ (unchecked.dropLast.filter (fun i => seqOf st i = seqOf st test ∧ mergeOk (actionOf st i) (actionOf st test))).reverse ++ [test], ∀ b ∈ (unchecked.dropLast.filter (fun i => seqOf st i = seqOf st test ∧ mergeOk (actionOf st i) (actionOf st test))).reverse ++ [test],
            seqOf st a = seqOf st b ∧
            mergeOk (actionOf st a) (actionOf st b) = true := by
          intro a ha b hb
          rcases (hgmem a).mp ha with haf | rfl <;>
            rcases (hgmem b).mp hb with hbf | rfl
          · obtain ⟨_, hsa, hma⟩ := (hfmem a).mp haf
            obtain ⟨_, hsb, hmb⟩ := (hfmem b).mp hbf
            exact ⟨hsa.trans hsb.symm, mergeOk_trans2 _ _ _ hma hmb⟩
          · obtain ⟨_, hsa, hma⟩ := (hfmem a).mp haf
            exact ⟨hsa, hma⟩
          · obtain ⟨_, hsb, hmb⟩ := (hfmem b).mp hbf
            exact ⟨hsb.symm, mergeOk_symm _ _ hmb⟩
          · exact ⟨rfl, hmm_test⟩
        have hsup : ∀ (q : Nat) (n : ENode), st[q]? = some n →
            ∀ j ∈ n.mergeSiblings, j ∈ (unchecked.dropLast.filter (fun i => seqOf st i = seqOf st test ∧ mergeOk (actionOf st i) (actionOf st test))).reverse ++ [test] →
              ∀ l ∈ n.mergeSiblings, l ∈ (unchecked.dropLast.filter (fun i => seqOf st i = seqOf st test ∧ mergeOk (actionOf st i) (actionOf st test))).reverse ++ [test] := by
          intro q n hq j hj hjg l hl
          exact absurd hj (hF j (hgu j hjg) q n hq)
        obtain ⟨⟨wPos, wM, wSB, wLI⟩, wlen, wlook, wsets⟩ :=
          writeGroup_inv st ((unchecked.dropLast.filter (fun i => seqOf st i = seqOf st test ∧ mergeOk (actionOf st i) (actionOf st test))).reverse ++ [test]) hPos hM hSB hLI hex hcomp hsup
        have hremu : ∀ j ∈ (unchecked.dropLast.filter (fun i => i ∉ (unchecked.dropLast.filter (fun i => seqOf st i = seqOf st test ∧ mergeOk (actionOf st i) (actionOf st test))).reverse)), j ∈ unchecked := by
          intro j hj
          exact hrest j (List.mem_of_mem_filter hj)
        have hremnf : ∀ j ∈ (unchecked.dropLast.filter (fun i => i ∉ (unchecked.dropLast.filter (fun i => seqOf st i = seqOf st test ∧ mergeOk (actionOf st i) (actionOf st test))).reverse)), j ∉ (unchecked.dropLast.filter (fun i => seqOf st i = seqOf st test ∧ mergeOk (actionOf st i) (actionOf st test))).reverse := by
          intro j hj
          exact of_decide_eq_true (List.mem_filter.mp hj).2
        have hremng : ∀ j ∈ (unchecked.dropLast.filter (fun i => i ∉ (unchecked.dropLast.filter (fun i => seqOf st i = seqOf st test ∧ mergeOk (actionOf st i) (actionOf st test))).reverse)), j ∉ (unchecked.dropLast.filter (fun i => seqOf st i = seqOf st test ∧ mergeOk (actionOf st i) (actionOf st test))).reverse ++ [test] := by
          intro j hj hjg
          rcases (hgmem j).mp hjg with hjf | rfl
          · exact hremnf j hj hjf
          · apply hremnf j hj
            exact (hfmem j).mpr ⟨List.mem_of_mem_filter hj,
              rfl, hmm_test⟩
        have hval2 : ∀ j ∈ (unchecked.dropLast.filter (fun i => i ∉ (unchecked.dropLast.filter (fun i => seqOf st i = seqOf st test ∧ mergeOk (actionOf st i) (actionOf st test))).reverse)), ∃ m,
            (writeGroup st ((unchecked.dropLast.filter (fun i => seqOf st i = seqOf st test ∧ mergeOk (actionOf st i) (actionOf st test))).reverse ++ [test]))[j]? = some m := by
          intro j hj
          obtain ⟨m, hm⟩ := hval j (hremu j hj)
          obtain ⟨m2, hm2, _⟩ := wlook j m hm
          exact ⟨m2, hm2⟩
        have hF2 : ∀ j ∈ (unchecked.dropLast.filter (fun i => i ∉ (unchecked.dropLast.filter (fun i => seqOf st i = seqOf st test ∧ mergeOk (actionOf st i) (actionOf st test))).reverse)), ∀ (q : Nat) (n : ENode),
            (writeGroup st ((unchecked.dropLast.filter (fun i => seqOf st i = seqOf st test ∧ mergeOk (actionOf st i) (actionOf st test))).reverse ++ [test]))[q]? = some n →
              j ∉ n.mergeSiblings := by
          intro j hj q n hq hjn
          rcases wsets q n hq with ⟨m, hm, he⟩ | he
          · rw [he] at hjn
            exact hF j (hremu j hj) q m hm hjn
          · rw [he] at hjn
            exact hremng j hj hjn
        obtain ⟨c1, c2, c3, c4, c5⟩ := ih (writeGroup st ((unchecked.dropLast.filter (fun i => seqOf st i = seqOf st test ∧ mergeOk (actionOf st i) (actionOf st test))).reverse ++ [test]))
          (unchecked.dropLast.filter (fun i => i ∉ (unchecked.dropLast.filter (fun i => seqOf st i = seqOf st test ∧ mergeOk (actionOf st i) (actionOf st test))).reverse)) (checked ++ ((unchecked.dropLast.filter (fun i => seqOf st i = seqOf st test ∧ mergeOk (actionOf st i) (actionOf st test))).reverse ++ [test])) wPos wM wSB wLI hval2 hF2
        refine ⟨c1, c2.trans wlen, ?_, ?_, ?_⟩
        · intro k m hm
          obtain ⟨m2, hm2, e1, e2, e3, e4, e5, e6, e7, _⟩ :=
            wlook k m hm
          obtain ⟨m3, hm3, f1, f2, f3, f4, f5, f6, f7⟩ := c3 k m2 hm2
          exact ⟨m3, hm3, f1.trans e1, f2.trans e2, f3.trans e3,
            f4.trans e4, f5.trans e5, f6.trans e6, f7.trans e7⟩
        · intro k n2 hn2
          rcases c4 k n2 hn2 with ⟨m2, hm2, he⟩ | hsub
          · rcases wsets k m2 hm2 with ⟨m, hm, he2⟩ | he2
            · exact Or.inl ⟨m, hm, he.trans he2⟩
            · refine Or.inr ?_
              rw [he, he2]
              exact hgu
          · exact Or.inr (fun j hj => hremu j (hsub j hj))
        · intro j hj
          rcases c5 j hj with hjr | hjc
          · exact Or.inl (hremu j hjr)
          · rcases List.mem_append.mp hjc with hjc2 | hjg
            · exact Or.inr hjc2
            · exact Or.inl (hgu j hjg)

theorem getLast_not_mem_dropLast (l : List Nat) (a : Nat)
    (h1 : l.Nodup) (h2 : l.getLast? = some a) : a ∉ l.dropLast := by
  have hne : l ≠ [] := by
    intro h
    rw [h] at h2
    cases h2
  have hdec := List.dropLast_append_getLast hne
  have hA : a = l.getLast hne := by
    have h4 := List.getLast?_eq_getLast l hne
    rw [h4] at h2
    exact (Option.some.inj h2).symm
  rw [← hdec, List.nodup_append] at h1
  intro hmem
  exact h1.2.2 hmem (by rw [hA]; exact List.mem_singleton_self _)

/-- The checked list built by the delete-cohort merging pass has no
duplicates when cohort and accumulator start disjoint and duplicate
free. -/
theorem delMergeRound_nodup (st : Store) (unchecked checked : List Nat)
    (fuel : Nat) (h1 : unchecked.Nodup) (h2 : checked.Nodup)
    (h3 : ∀ j ∈ checked, j ∉ unchecked) :
    (delMergeRound st unchecked checked fuel).2.Nodup := by
  induction fuel generalizing st unchecked checked with
  | zero => exact h2
  | succ fuel ih =>
    rw [delMergeRound]
    cases hlast : unchecked.getLast? with
    | none => exact h2
    | some test =>
      have htest : test ∈ unchecked := List.mem_of_mem_getLast? hlast
      have htnd : test ∉ unchecked.dropLast :=
        getLast_not_mem_dropLast unchecked test h1 hlast
      have hrestnd : unchecked.dropLast.Nodup :=
        (List.dropLast_sublist unchecked).nodup h1
      have hrest : ∀ j ∈ unchecked.dropLast, j ∈ unchecked :=
        fun j hj => List.mem_of_mem_dropLast hj
      simp only []
      by_cases hfound : ((unchecked.dropLast.filter (fun i =>
          seqOf st i = seqOf st test ∧
            mergeOk (actionOf st i) (actionOf st test))).reverse).isEmpty
      · rw [if_pos hfound]
        apply ih st unchecked.dropLast (checked ++ [test]) hrestnd
        · rw [List.nodup_append]
          refine ⟨h2, List.nodup_singleton test, ?_⟩
          intro a ha hat
          rw [List.mem_singleton] at hat
          subst hat
          exact h3 a ha htest
        · intro j hj
          rcases List.mem_append.mp hj with hjc | hjt
          · intro hjd
            exact h3 j hjc (hrest j hjd)
          · rw [List.mem_singleton] at hjt
            subst hjt
            exact htnd
      · rw [if_neg hfound]
        have hfnd : ((unchecked.dropLast.filter (fun i =>
            seqOf st i = seqOf st test ∧
              mergeOk (actionOf st i) (actionOf st test))).reverse).Nodup :=
          List.nodup_reverse.mpr (hrestnd.filter _)
        have hfd : ∀ j ∈ (unchecked.dropLast.filter (fun i =>
            seqOf st i = seqOf st test ∧
              mergeOk (actionOf st i) (actionOf st test))).reverse,
            j ∈ unchecked.dropLast := by
          intro j hj
          rw [List.mem_reverse] at hj
          exact List.mem_of_mem_filter hj
        apply ih
        · exact (hrestnd.filter _)
        · rw [List.nodup_append]
          refine ⟨h2, ?_, ?_⟩
          · rw [List.nodup_append]
            refine ⟨hfnd, List.nodup_singleton test, ?_⟩
            intro a ha hat
            rw [List.mem_singleton] at hat
            subst hat
            exact htnd (hfd a ha)
          · intro a ha hag
            rcases List.mem_append.mp hag with haf | hat
            · exact h3 a ha (hrest a (hfd a haf))
            · rw [List.mem_singleton] at hat
              subst hat
              exact h3 a ha htest
        · intro j hj hjr
          have hjd := List.mem_of_mem_filter hjr
          have hjnf := of_decide_eq_true (List.mem_filter.mp hjr).2
          rcases List.mem_append.mp hj with hjc | hjg
          · exact h3 j hjc (hrest j hjd)
          · rcases List.mem_append.mp hjg with hjf | hjt
            · exact hjnf hjf
            · rw [List.mem_singleton] at hjt
              subst hjt
              exact htnd hjd

/-- The expansion of the checked delete cohort preserves the invariants,
touches no position at or above the bound, and emits fresh, distinct
children (the deledit ones among them). -/
theorem expandChecked_inv (ctx : ETree) (checked : List Nat) :
    ∀ (st : Store) (B : Nat),
    CoreInv st → B ≤ st.length → SetsBelow st B →
    checked.Nodup →
    (∀ j ∈ checked, j < B) →
    (∀ j ∈ checked, typeOf st j = NodeType.ACTIVE →
      ∃ m, st[j]? = some m ∧ m.children = []) →
    CoreInv (expandChecked ctx st checked).1 ∧
    Safe st (expandChecked ctx st checked).1 ∧
    st.length ≤ (expandChecked ctx st checked).1.length ∧
    SetsBelow (expandChecked ctx st checked).1 B ∧
    (∀ (k : Nat) (m : ENode), B ≤ k → st[k]? = some m →
      (expandChecked ctx st checked).1[k]? = some m) ∧
    (∀ j ∈ (expandChecked ctx st checked).2.1,
      j ∈ (expandChecked ctx st checked).2.2) ∧
    (∀ j ∈ (expandChecked ctx st checked).2.2, st.length ≤ j ∧
      FreshAt (expandChecked ctx st checked).1 j) ∧
    (expandChecked ctx st checked).2.2.Nodup ∧
    (expandChecked ctx st checked).2.1.Nodup := by
  induction checked with
  | nil =>
    intro st B hCore hB hSB hnd hch hFr
    rw [expandChecked]
    refine ⟨hCore, safe_refl st, le_refl _, ?_, ?_, ?_, ?_, ?_, ?_⟩
    · exact hSB
    · intro k m _ hm
      exact hm
    · intro j hj
      cases hj
    · intro j hj
      cases hj
    · exact List.nodup_nil
    · exact List.nodup_nil
  | cons i rest ih =>
    intro st B hCore hB hSB hnd hch hFr
    have hir : i ∉ rest := (List.nodup_cons.mp hnd).1
    have hndr : rest.Nodup := (List.nodup_cons.mp hnd).2
    have hchr : ∀ j ∈ rest, j < B :=
      fun j hj => hch j (List.mem_cons_of_mem i hj)
    rw [expandChecked]
    by_cases hAct : typeOf st i = NodeType.ACTIVE
    · rw [if_pos hAct]
      obtain ⟨p, hp, hpch⟩ := hFr i (List.mem_cons_self i rest) hAct
      obtain ⟨hPos, hM, hSB0, hLI⟩ := hCore
      obtain ⟨gCore, gSafe, glen, gstab, p2, hlookP2, e1, e2, e3, e4,
        e5, e6, echld, hfreshC, hndC⟩ :=
        genPair_inv ctx st i p ⟨hPos, hM, hSB0, hLI⟩ hp hpch
      have hiB : i < B := hch i (List.mem_cons_self i rest)
      have hsibB : ∀ j ∈ p2.mergeSiblings, j < B := by
        rw [e4]
        exact hSB i p hp
      have hchB : ∀ j ∈ p2.children, B ≤ j ∧
          j < (genNondelChildren ctx (genDeleditChild ctx st i)
            i).length := by
        intro j hj
        obtain ⟨hb, m, hm, _⟩ := hfreshC j hj
        exact ⟨le_trans hB hb, lookup_lt_length hm⟩
      simp only [hlookP2]
      by_cases htm : p2.toMerge = true
      · rw [if_pos htm]
        -- facts about the sharing map
        have hFields : ∀ n : ENode,
            ((fun n => if n.nid ∈ p2.mergeSiblings then
              { n with nodeType := NodeType.MERGED,
                       children := p2.children,
                       childDeledit := p2.childDeledit,
                       childrenNondel := p2.childrenNondel }
              else n) n).nid = n.nid ∧
            ((fun n => if n.nid ∈ p2.mergeSiblings then
              { n with nodeType := NodeType.MERGED,
                       children := p2.children,
                       childDeledit := p2.childDeledit,
                       childrenNondel := p2.childrenNondel }
              else n) n).seq = n.seq ∧
            ((fun n => if n.nid ∈ p2.mergeSiblings then
              { n with nodeType := NodeType.MERGED,
                       children := p2.children,
                       childDeledit := p2.childDeledit,
                       childrenNondel := p2.childrenNondel }
              else n) n).action = n.action ∧
            ((fun n => if n.nid ∈ p2.mergeSiblings then
              { n with nodeType := NodeType.MERGED,
                       children := p2.children,
                       childDeledit := p2.childDeledit,
                       childrenNondel := p2.childrenNondel }
              else n) n).mergeSiblings = n.mergeSiblings := by
          intro n
          by_cases hn : n.nid ∈ p2.mergeSiblings <;> simp [hn]
        have hSafeC := safe_map (genNondelChildren ctx
          (genDeleditChild ctx st i) i) _ hFields
        have hlenC : ((genNondelChildren ctx (genDeleditChild ctx st i)
            i).map (fun n => if n.nid ∈ p2.mergeSiblings then
              { n with nodeType := NodeType.MERGED,
                       children := p2.children,
                       childDeledit := p2.childDeledit,
                       childrenNondel := p2.childrenNondel }
              else n)).length =
            (genNondelChildren ctx (genDeleditChild ctx st i)
              i).length := List.length_map _ _
        have hCoreC : CoreInv ((genNondelChildren ctx
            (genDeleditChild ctx st i) i).map
            (fun n => if n.nid ∈ p2.mergeSiblings then
              { n with nodeType := NodeType.MERGED,
                       children := p2.children,
                       childDeledit := p2.childDeledit,
                       childrenNondel := p2.childrenNondel }
              else n)) := by
          refine ⟨posId_map _ _ (fun n => (hFields n).1) gCore.1,
            mergeInv_safe gCore.2.1 hSafeC, ?_, ?_⟩
          · rw [hlenC]
            exact setsBelow_safe gCore.2.2.1 hSafeC
          · apply listsInv_map _ _ _ gCore.2.2.2
            intro n
            by_cases hn : n.nid ∈ p2.mergeSiblings
            · right
              right
              exact ⟨i, p2, hlookP2, by simp [hn], by simp [hn],
                by simp [hn]⟩
            · left
              simp [hn]
        -- lookups above B are untouched by the sharing map
        have hstabC : ∀ (k : Nat) (m : ENode), B ≤ k →
            (genNondelChildren ctx (genDeleditChild ctx st i)
              i)[k]? = some m →
            ((genNondelChildren ctx (genDeleditChild ctx st i) i).map
              (fun n => if n.nid ∈ p2.mergeSiblings then
                { n with nodeType := NodeType.MERGED,
                         children := p2.children,
                         childDeledit := p2.childDeledit,
                         childrenNondel := p2.childrenNondel }
                else n))[k]? = some m := by
          intro k m hk hm
          rw [map_lookup, hm]
          have hknid := gCore.1 k m hm
          have : m.nid ∉ p2.mergeSiblings := by
            rw [hknid]
            intro hmem
            exact absurd (hsibB k hmem) (by omega)
          simp [this]
        have hFr2 : ∀ j ∈ rest, typeOf ((genNondelChildren ctx
            (genDeleditChild ctx st i) i).map
            (fun n => if n.nid ∈ p2.mergeSiblings then
              { n with nodeType := NodeType.MERGED,
                       children := p2.children,
                       childDeledit := p2.childDeledit,
                       childrenNondel := p2.childrenNondel }
              else n)) j = NodeType.ACTIVE →
            ∃ m, ((genNondelChildren ctx (genDeleditChild ctx st i)
              i).map (fun n => if n.nid ∈ p2.mergeSiblings then
              { n with nodeType := NodeType.MERGED,
                       children := p2.children,
                       childDeledit := p2.childDeledit,
                       childrenNondel := p2.childrenNondel }
              else n))[j]? = some m ∧ m.children = [] := by
          intro j hjr hActj
          have hji : j ≠ i := fun he => hir (he ▸ hjr)
          have hjlt : j < st.length := lt_of_lt_of_le (hchr j hjr) hB
          have hmex : ∃ m, st[j]? = some m := by
            cases hsk : st[j]? with
            | none =>
              rw [List.getElem?_eq_none_iff] at hsk
              omega
            | some m => exact ⟨m, rfl⟩
          obtain ⟨m, hm⟩ := hmex
          have hmB := gstab j m hji hm
          have hmnid := gCore.1 j m hmB
          by_cases hms : m.nid ∈ p2.mergeSiblings
          · exfalso
            unfold typeOf at hActj
            rw [map_lookup, hmB] at hActj
            simp [hms] at hActj
          · unfold typeOf at hActj
            rw [map_lookup, hmB] at hActj
            simp only [Option.map_some', Option.getD_some] at hActj
            rw [if_neg hms] at hActj
            have hActst : typeOf st j = NodeType.ACTIVE := by
              unfold typeOf
              rw [hm]
              simpa using hActj
            obtain ⟨m2, hm2, hm2ch⟩ :=
              hFr j (List.mem_cons_of_mem i hjr) hActst
            have hme : m2 = m := by
              have := hm2.symm.trans hm
              exact Option.some.inj this
            refine ⟨m, ?_, ?_⟩
            · rw [map_lookup, hmB]
              simp only [Option.map_some']
              rw [if_neg hms]
            · rw [← hme]
              exact hm2ch
        obtain ⟨rCore, rSafe, rlen, rSB, rstab, rdc, rfresh, rndc,
          rndd⟩ := ih ((genNondelChildren ctx (genDeleditChild ctx st i)
            i).map (fun n => if n.nid ∈ p2.mergeSiblings then
              { n with nodeType := NodeType.MERGED,
                       children := p2.children,
                       childDeledit := p2.childDeledit,
                       childrenNondel := p2.childrenNondel }
              else n)) B hCoreC
          (by rw [hlenC]; omega)
          (setsBelow_safe hSB (safe_trans gSafe hSafeC))
          hndr hchr hFr2
        have hkni : ∀ k : Nat, B ≤ k → k ≠ i :=
          fun k hk he => absurd hiB (by omega)
        have hcddsub : ∀ j ∈ p2.childDeledit, j ∈ p2.children := by
          intro j hj
          rw [echld]
          exact List.mem_append_right _ hj
        have hfreshCC : ∀ j ∈ p2.children, st.length ≤ j ∧
            FreshAt (expandChecked ctx ((genNondelChildren ctx
              (genDeleditChild ctx st i) i).map
              (fun n => if n.nid ∈ p2.mergeSiblings then
                { n with nodeType := NodeType.MERGED,
                         children := p2.children,
                         childDeledit := p2.childDeledit,
                         childrenNondel := p2.childrenNondel }
                else n)) rest).1 j := by
          intro j hj
          obtain ⟨hb, m, hm, f1, f2, f3, f4⟩ := hfreshC j hj
          refine ⟨hb, m, ?_, f1, f2, f3, f4⟩
          exact rstab j m (hchB j hj).1 (hstabC j m (hchB j hj).1 hm)
        refine ⟨rCore, safe_trans (safe_trans gSafe hSafeC) rSafe, ?_,
          rSB, ?_, ?_, ?_, ?_, ?_⟩
        · have h1 := glen
          have h2 := hlenC
          have h3 := rlen
          omega
        · intro k m hk hm
          exact rstab k m hk (hstabC k m hk
            (gstab k m (hkni k hk) hm))
        · intro j hj
          rcases List.mem_append.mp hj with hjd | hjr
          · exact List.mem_append_left _ (hcddsub j hjd)
          · exact List.mem_append_right _ (rdc j hjr)
        · intro j hj
          rcases List.mem_append.mp hj with hjc | hjr
          · exact hfreshCC j hjc
          · obtain ⟨hb, hf⟩ := rfresh j hjr
            rw [hlenC] at hb
            exact ⟨by have := glen; omega, hf⟩
        · rw [List.nodup_append]
          refine ⟨hndC, rndc, ?_⟩
          intro a ha har
          have h1 := (hchB a ha).2
          have h2 := (rfresh a har).1
          rw [hlenC] at h2
          omega
        · rw [List.nodup_append]
          have hcddnd : p2.childDeledit.Nodup := by
            have := hndC
            rw [echld, List.nodup_append] at this
            exact this.2.1
          refine ⟨hcddnd, rndd, ?_⟩
          intro a ha har
          have h1 := (hchB a (hcddsub a ha)).2
          have h2 := (rfresh a (rdc a har)).1
          rw [hlenC] at h2
          omega
      · rw [if_neg htm]
        have hFr2 : ∀ j ∈ rest, typeOf (genNondelChildren ctx
            (genDeleditChild ctx st i) i) j = NodeType.ACTIVE →
            ∃ m, (genNondelChildren ctx (genDeleditChild ctx st i)
              i)[j]? = some m ∧ m.children = [] := by
          intro j hjr hActj
          have hji : j ≠ i := fun he => hir (he ▸ hjr)
          have hjlt : j < st.length := lt_of_lt_of_le (hchr j hjr) hB
          have hmex : ∃ m, st[j]? = some m := by
            cases hsk : st[j]? with
            | none =>
              rw [List.getElem?_eq_none_iff] at hsk
              omega
            | some m => exact ⟨m, rfl⟩
          obtain ⟨m, hm⟩ := hmex
          have hmB := gstab j m hji hm
          have hActst : typeOf st j = NodeType.ACTIVE := by
            unfold typeOf at hActj ⊢
            rw [hmB] at hActj
            rw [hm]
            exact hActj
          obtain ⟨m2, hm2, hm2ch⟩ :=
            hFr j (List.mem_cons_of_mem i hjr) hActst
          have hme : m2 = m := by
            have := hm2.symm.trans hm
            exact Option.some.inj this
          exact ⟨m, hmB, hme ▸ hm2ch⟩
        obtain ⟨rCore, rSafe, rlen, rSB, rstab, rdc, rfresh, rndc,
          rndd⟩ := ih (genNondelChildren ctx (genDeleditChild ctx st i)
            i) B gCore (by have := glen; omega)
          (setsBelow_safe hSB gSafe) hndr hchr hFr2
        have hkni : ∀ k : Nat, B ≤ k → k ≠ i :=
          fun k hk he => absurd hiB (by omega)
        have hcddsub : ∀ j ∈ p2.childDeledit, j ∈ p2.children := by
          intro j hj
          rw [echld]
          exact List.mem_append_right _ hj
        have hfreshCC : ∀ j ∈ p2.children, st.length ≤ j ∧
            FreshAt (expandChecked ctx (genNondelChildren ctx
              (genDeleditChild ctx st i) i) rest).1 j := by
          intro j hj
          obtain ⟨hb, m, hm, f1, f2, f3, f4⟩ := hfreshC j hj
          exact ⟨hb, m, rstab j m (hchB j hj).1 hm, f1, f2, f3, f4⟩
        refine ⟨rCore, safe_trans gSafe rSafe, ?_, rSB, ?_, ?_, ?_, ?_,
          ?_⟩
        · have h1 := glen
          have h3 := rlen
          omega
        · intro k m hk hm
          exact rstab k m hk (gstab k m (hkni k hk) hm)
        · intro j hj
          rcases List.mem_append.mp hj with hjd | hjr
          · exact List.mem_append_left _ (hcddsub j hjd)
          · exact List.mem_append_right _ (rdc j hjr)
        · intro j hj
          rcases List.mem_append.mp hj with hjc | hjr
          · exact hfreshCC j hjc
          · obtain ⟨hb, hf⟩ := rfresh j hjr
            exact ⟨by have := glen; omega, hf⟩
        · rw [List.nodup_append]
          refine ⟨hndC, rndc, ?_⟩
          intro a ha har
          have h1 := (hchB a ha).2
          have h2 := (rfresh a har).1
          omega
        · rw [List.nodup_append]
          have hcddnd : p2.childDeledit.Nodup := by
            have := hndC
            rw [echld, List.nodup_append] at this
            exact this.2.1
          refine ⟨hcddnd, rndd, ?_⟩
          intro a ha har
          have h1 := (hchB a (hcddsub a ha)).2
          have h2 := (rfresh a (rdc a har)).1
          omega
    · rw [if_neg hAct]
      obtain ⟨c1, c2, c3, c4, c5, c6, c7, c8, c9⟩ := ih st B hCore hB
        hSB hndr hchr
        (fun j hj => hFr j (List.mem_cons_of_mem i hj))
      exact ⟨c1, c2, c3, c4, c5, c6, c7, c8, c9⟩

theorem delRounds_acc (ctx : ETree) : ∀ (fuel : Nat) (st : Store)
    (delNodes acc : List Nat),
    (delRounds ctx fuel st delNodes acc).1 =
      (delRounds ctx fuel st delNodes []).1 ∧
    (delRounds ctx fuel st delNodes acc).2 =
      acc ++ (delRounds ctx fuel st delNodes []).2 := by
  intro fuel
  induction fuel with
  | zero =>
    intro st delNodes acc
    exact ⟨rfl, by simp [delRounds]⟩
  | succ fuel ih =>
    intro st delNodes acc
    rw [delRounds, delRounds]
    by_cases hD : delNodes.isEmpty
    · rw [if_pos hD, if_pos hD]
      exact ⟨rfl, by simp⟩
    · rw [if_neg hD, if_neg hD]
      simp only [List.nil_append]
      obtain ⟨ha1, ha2⟩ := ih
        (expandChecked ctx (delMergeRound st delNodes []
          (delNodes.length + 1)).1 (delMergeRound st delNodes []
          (delNodes.length + 1)).2).1
        (expandChecked ctx (delMergeRound st delNodes []
          (delNodes.length + 1)).1 (delMergeRound st delNodes []
          (delNodes.length + 1)).2).2.1
        (acc ++ (expandChecked ctx (delMergeRound st delNodes []
          (delNodes.length + 1)).1 (delMergeRound st delNodes []
          (delNodes.length + 1)).2).2.2)
      obtain ⟨hb1, hb2⟩ := ih
        (expandChecked ctx (delMergeRound st delNodes []
          (delNodes.length + 1)).1 (delMergeRound st delNodes []
          (delNodes.length + 1)).2).1
        (expandChecked ctx (delMergeRound st delNodes []
          (delNodes.length + 1)).1 (delMergeRound st delNodes []
          (delNodes.length + 1)).2).2.1
        ((expandChecked ctx (delMergeRound st delNodes []
          (delNodes.length + 1)).1 (delMergeRound st delNodes []
          (delNodes.length + 1)).2).2.2)
      refine ⟨ha1.trans hb1.symm, ?_⟩
      rw [ha2, hb2, List.append_assoc]

/-- The delete-cohort loop of grow_tree preserves the invariants; the
stores only grow, every merge set is pre-existing or drawn from cohort
and emissions, and all emissions are fresh positions. -/
theorem delRounds_inv (ctx : ETree) : ∀ (fuel : Nat) (st : Store)
    (delNodes acc : List Nat),
    CoreInv st →
    delNodes.Nodup →
    (∀ j ∈ delNodes, ∃ m, st[j]? = some m ∧ m.children = [] ∧
      m.childrenNondel = [] ∧ m.childDeledit = []) →
    (∀ j ∈ delNodes, ∀ (q : Nat) (n : ENode), st[q]? = some n →
      j ∉ n.mergeSiblings) →
    CoreInv (delRounds ctx fuel st delNodes acc).1 ∧
    st.length ≤ (delRounds ctx fuel st delNodes acc).1.length ∧
    (∀ (k : Nat) (m : ENode), st[k]? = some m →
      ∃ m2, (delRounds ctx fuel st delNodes acc).1[k]? = some m2 ∧
        m2.nid = m.nid ∧ m2.seq = m.seq ∧ m2.action = m.action) ∧
    (∀ (k : Nat) (n2 : ENode),
      (delRounds ctx fuel st delNodes acc).1[k]? = some n2 →
      (∃ m, st[k]? = some m ∧ n2.mergeSiblings = m.mergeSiblings) ∨
      (∀ j ∈ n2.mergeSiblings, j ∈ delNodes ∨
        j ∈ (delRounds ctx fuel st delNodes acc).2)) ∧
    (∀ j ∈ (delRounds ctx fuel st delNodes acc).2, j ∈ acc ∨
      (st.length ≤ j ∧
        ∃ m, (delRounds ctx fuel st delNodes acc).1[j]? = some m)) := by
  intro fuel
  induction fuel with
  | zero =>
    intro st delNodes acc hCore hnd hfresh hF
    refine ⟨hCore, le_refl _, ?_, ?_, ?_⟩
    · intro k m hm
      exact ⟨m, hm, rfl, rfl, rfl⟩
    · intro k n2 hn2
      exact Or.inl ⟨n2, hn2, rfl⟩
    · intro j hj
      exact Or.inl hj
  | succ fuel ih =>
    intro st delNodes acc hCore hnd hfresh hF
    rw [delRounds]
    by_cases hD : delNodes.isEmpty
    · rw [if_pos hD]
      refine ⟨hCore, le_refl _, ?_, ?_, ?_⟩
      · intro k m hm
        exact ⟨m, hm, rfl, rfl, rfl⟩
      · intro k n2 hn2
        exact Or.inl ⟨n2, hn2, rfl⟩
      · intro j hj
        exact Or.inl hj
    · rw [if_neg hD]
      simp only []
      obtain ⟨hPos, hM, hSB, hLI⟩ := hCore
      have hval : ∀ j ∈ delNodes, ∃ m, st[j]? = some m := by
        intro j hj
        obtain ⟨m, hm, _⟩ := hfresh j hj
        exact ⟨m, hm⟩
      obtain ⟨c1, c2, c3, c4, c5⟩ := delMergeRound_inv st delNodes []
        (delNodes.length + 1) hPos hM hSB hLI hval hF
      have cnd : (delMergeRound st delNodes []
          (delNodes.length + 1)).2.Nodup :=
        delMergeRound_nodup st delNodes [] _ hnd List.nodup_nil
          (fun j hj => absurd hj (List.not_mem_nil j))
      have c5n : ∀ j ∈ (delMergeRound st delNodes []
          (delNodes.length + 1)).2, j ∈ delNodes := by
        intro j hj
        rcases c5 j hj with h | h
        · exact h
        · cases h
      have hdb : ∀ j ∈ delNodes, j < st.length := by
        intro j hj
        obtain ⟨m, hm⟩ := hval j hj
        exact lookup_lt_length hm
      have hchk : ∀ j ∈ (delMergeRound st delNodes []
          (delNodes.length + 1)).2, j < (delMergeRound st delNodes []
          (delNodes.length + 1)).1.length := by
        intro j hj
        rw [c2]
        exact hdb j (c5n j hj)
      have hFr : ∀ j ∈ (delMergeRound st delNodes []
          (delNodes.length + 1)).2,
          typeOf (delMergeRound st delNodes []
            (delNodes.length + 1)).1 j = NodeType.ACTIVE →
          ∃ m, (delMergeRound st delNodes []
            (delNodes.length + 1)).1[j]? = some m ∧
            m.children = [] := by
        intro j hj _
        obtain ⟨m, hm, hch, _, _⟩ := hfresh j (c5n j hj)
        obtain ⟨m2, hm2, _, _, _, _, g5, _, _⟩ := c3 j m hm
        exact ⟨m2, hm2, by rw [g5, hch]⟩
      obtain ⟨e1, e2, e3, e4, e5, e6, e7, e8, e9⟩ :=
        expandChecked_inv ctx (delMergeRound st delNodes []
          (delNodes.length + 1)).2 (delMergeRound st delNodes []
          (delNodes.length + 1)).1
          (delMergeRound st delNodes [] (delNodes.length + 1)).1.length
          c1 (le_refl _) c1.2.2.1 cnd hchk hFr
      have hfresh2 : ∀ j ∈ (expandChecked ctx (delMergeRound st
          delNodes [] (delNodes.length + 1)).1 (delMergeRound st
          delNodes [] (delNodes.length + 1)).2).2.1,
          ∃ m, (expandChecked ctx (delMergeRound st delNodes []
            (delNodes.length + 1)).1 (delMergeRound st delNodes []
            (delNodes.length + 1)).2).1[j]? = some m ∧
            m.children = [] ∧ m.childrenNondel = [] ∧
            m.childDeledit = [] := by
        intro j hj
        obtain ⟨_, m, hm, _, f2, f3, f4⟩ := e7 j (e6 j hj)
        exact ⟨m, hm, f2, f3, f4⟩
      have hemitlow : ∀ j ∈ (expandChecked ctx (delMergeRound st
          delNodes [] (delNodes.length + 1)).1 (delMergeRound st
          delNodes [] (delNodes.length + 1)).2).2.2, st.length ≤ j := by
        intro j hj
        have := (e7 j hj).1
        omega
      have hF2 : ∀ j ∈ (expandChecked ctx (delMergeRound st
          delNodes [] (delNodes.length + 1)).1 (delMergeRound st
          delNodes [] (delNodes.length + 1)).2).2.1,
          ∀ (q : Nat) (n : ENode),
          (expandChecked ctx (delMergeRound st delNodes []
            (delNodes.length + 1)).1 (delMergeRound st delNodes []
            (delNodes.length + 1)).2).1[q]? = some n →
          j ∉ n.mergeSiblings := by
        intro j hj q n hq hjn
        have hjlow : st.length ≤ j := hemitlow j (e6 j hj)
        rcases e2.2.2 q n hq with ⟨hempty, _⟩ | ⟨m1, hm1, _, _, _, hsets⟩
        · rw [hempty] at hjn
          cases hjn
        · rw [hsets] at hjn
          rcases c4 q m1 hm1 with ⟨m0, hm0, he0⟩ | hsub
          · rw [he0] at hjn
            have := hSB q m0 hm0 j hjn
            omega
          · have := hdb j (hsub j hjn)
            omega
      obtain ⟨rc1, rc2, rc3, rc4, rc5⟩ := ih
        (expandChecked ctx (delMergeRound st delNodes []
          (delNodes.length + 1)).1 (delMergeRound st delNodes []
          (delNodes.length + 1)).2).1
        (expandChecked ctx (delMergeRound st delNodes []
          (delNodes.length + 1)).1 (delMergeRound st delNodes []
          (delNodes.length + 1)).2).2.1
        (acc ++ (expandChecked ctx (delMergeRound st delNodes []
          (delNodes.length + 1)).1 (delMergeRound st delNodes []
          (delNodes.length + 1)).2).2.2)
        e1 e9 hfresh2 hF2
      refine ⟨rc1, ?_, ?_, ?_, ?_⟩
      · rw [← c2]
        calc (delMergeRound st delNodes [] (delNodes.length + 1)).1.length
            ≤ _ := e3
          _ ≤ _ := rc2
      · intro k m hm
        obtain ⟨m1, hm1, g1, g2, g3, _, _, _, _⟩ := c3 k m hm
        obtain ⟨m2, hm2, f1, f2, f3, _⟩ := e2.2.1 k m1 hm1
        obtain ⟨m3, hm3, r1, r2, r3⟩ := rc3 k m2 hm2
        exact ⟨m3, hm3, (r1.trans f1).trans g1, (r2.trans f2).trans g2,
          (r3.trans f3).trans g3⟩
      · intro k n2 hn2
        have haccsub : ∀ l ∈ acc ++ (expandChecked ctx (delMergeRound
            st delNodes [] (delNodes.length + 1)).1 (delMergeRound st
            delNodes [] (delNodes.length + 1)).2).2.2,
            l ∈ (delRounds ctx fuel
              (expandChecked ctx (delMergeRound st delNodes []
                (delNodes.length + 1)).1 (delMergeRound st delNodes []
                (delNodes.length + 1)).2).1
              (expandChecked ctx (delMergeRound st delNodes []
                (delNodes.length + 1)).1 (delMergeRound st delNodes []
                (delNodes.length + 1)).2).2.1
              (acc ++ (expandChecked ctx (delMergeRound st delNodes []
                (delNodes.length + 1)).1 (delMergeRound st delNodes []
                (delNodes.length + 1)).2).2.2)).2 := by
          intro l hl
          obtain ⟨_, ha2⟩ := delRounds_acc ctx fuel
            (expandChecked ctx (delMergeRound st delNodes []
              (delNodes.length + 1)).1 (delMergeRound st delNodes []
              (delNodes.length + 1)).2).1
            (expandChecked ctx (delMergeRound st delNodes []
              (delNodes.length + 1)).1 (delMergeRound st delNodes []
              (delNodes.length + 1)).2).2.1
            (acc ++ (expandChecked ctx (delMergeRound st delNodes []
              (delNodes.length + 1)).1 (delMergeRound st delNodes []
              (delNodes.length + 1)).2).2.2)
          rw [ha2]
          exact List.mem_append_left _ hl
        rcases rc4 k n2 hn2 with ⟨m2, hm2, he2⟩ | hsub
        · rcases e2.2.2 k m2 hm2 with ⟨hempty, _⟩ |
            ⟨m1, hm1, _, _, _, hsets⟩
          · refine Or.inr ?_
            rw [he2, hempty]
            intro j hj
            cases hj
          · rcases c4 k m1 hm1 with ⟨m0, hm0, he0⟩ | hsub1
            · exact Or.inl ⟨m0, hm0, (he2.trans hsets).trans he0⟩
            · refine Or.inr ?_
              intro j hj
              rw [he2, hsets] at hj
              exact Or.inl (hsub1 j hj)
        · refine Or.inr ?_
          intro j hj
          rcases hsub j hj with hj1 | hj2
          · refine Or.inr ?_
            apply haccsub
            exact List.mem_append_right _ (e6 j hj1)
          · exact Or.inr hj2
      · intro j hj
        rcases rc5 j hj with hjacc | ⟨hjlen, m, hm⟩
        · rcases List.mem_append.mp hjacc with hja | hje
          · exact Or.inl hja
          · refine Or.inr ⟨hemitlow j hje, ?_⟩
            obtain ⟨_, m, hm, _⟩ := e7 j hje
            obtain ⟨m3, hm3, _⟩ := rc3 j m hm
            exact ⟨m3, hm3⟩
        · refine Or.inr ⟨?_, m, hm⟩
          have h1 := c2
          have h2 := e3
          omega

theorem mergeOk_trans (a b c : Char) (h1 : mergeOk a b = true)
    (h2 : mergeOk b c = true) : mergeOk a c = true := by
  rcases mergeOk_class a b h1 with ⟨ha, hb⟩ | ⟨ha, hb⟩ <;>
    rcases mergeOk_class b c h2 with ⟨hb2, hc⟩ | ⟨hb2, hc⟩
  · exact mergeOk_of_class a c (Or.inl ⟨ha, hc⟩)
  · rw [hb] at hb2
    rcases hb2 with h | h <;> cases h
  · rw [hb2] at hb
    rcases hb with h | h <;> cases h
  · exact mergeOk_of_class a c (Or.inr ⟨ha, hc⟩)

/-- The child-merging pass of grow_tree preserves the invariants
provided every merge set is contained in, or disjoint from, the
current-index cohort (which grow_tree guarantees: all sets built during
the step lie inside it, and older sets lie wholly below it). -/
theorem cMergeTests_inv (currentIds : List Nat) (tests : List Nat) :
    ∀ (st : Store),
    CoreInv st →
    (∀ j ∈ currentIds, ∃ m, st[j]? = some m) →
    (∀ (q : Nat) (n : ENode), st[q]? = some n →
      (∀ j ∈ n.mergeSiblings, j ∈ currentIds) ∨
      (∀ j ∈ n.mergeSiblings, j ∉ currentIds)) →
    CoreInv (cMergeTests currentIds st tests) ∧
    (cMergeTests currentIds st tests).length = st.length := by
  induction tests with
  | nil =>
    intro st hCore _ _
    exact ⟨hCore, rfl⟩
  | cons t restTests ih =>
    intro st hCore hval hSplit
    obtain ⟨hPos, hM, hSB, hLI⟩ := hCore
    rw [cMergeTests]
    have hmemMD : ∀ j, j ∈ ((currentIds.filter (fun i => seqOf st i = seqOf st t ∧ mergeOk (actionOf st i) (actionOf st t))).reverse) ↔ (j ∈ currentIds ∧
        seqOf st j = seqOf st t ∧
        mergeOk (actionOf st j) (actionOf st t) = true) := by
      intro j
      simp only [List.mem_reverse, List.mem_filter, decide_eq_true_eq]
    have hgrp : ∀ j, j ∈ (((((currentIds.filter (fun i => seqOf st i = seqOf st t ∧ mergeOk (actionOf st i) (actionOf st t))).reverse).filter (fun i => toMergeOf st i = false)) ++ (((currentIds.filter (fun i => seqOf st i = seqOf st t ∧ mergeOk (actionOf st i) (actionOf st t))).reverse).filter (fun i => toMergeOf st i = true)))) ↔ j ∈ ((currentIds.filter (fun i => seqOf st i = seqOf st t ∧ mergeOk (actionOf st i) (actionOf st t))).reverse) := by
      intro j
      rw [List.mem_append, List.mem_filter, List.mem_filter]
      constructor
      · intro h
        rcases h with ⟨h1, _⟩ | ⟨h1, _⟩ <;> exact h1
      · intro h
        rcases Bool.eq_false_or_eq_true (toMergeOf st j) with hb | hb
        · right
          exact ⟨h, by simp [hb]⟩
        · left
          exact ⟨h, by simp [hb]⟩
    have hgcur : ∀ j ∈ (((((currentIds.filter (fun i => seqOf st i = seqOf st t ∧ mergeOk (actionOf st i) (actionOf st t))).reverse).filter (fun i => toMergeOf st i = false)) ++ (((currentIds.filter (fun i => seqOf st i = seqOf st t ∧ mergeOk (actionOf st i) (actionOf st t))).reverse).filter (fun i => toMergeOf st i = true)))), j ∈ currentIds :=
      fun j hj => ((hmemMD j).mp ((hgrp j).mp hj)).1
    -- the flag map
    have hPos1 : PosId (st.map (fun n => if n.nid ∈ (((currentIds.filter (fun i => seqOf st i = seqOf st t ∧ mergeOk (actionOf st i) (actionOf st t))).reverse).filter (fun i => toMergeOf st i = false)) then { n with toMerge := true } else n)) := by
      apply posId_map _ _ _ hPos
      intro n
      by_cases hn : n.nid ∈ (((currentIds.filter (fun i => seqOf st i = seqOf st t ∧ mergeOk (actionOf st i) (actionOf st t))).reverse).filter (fun i => toMergeOf st i = false)) <;> (first | rw [if_pos hn] | rw [if_neg hn]) <;> (first | rfl | exact ⟨rfl, rfl, rfl, rfl⟩ | exact ⟨rfl, rfl, rfl⟩ | (left; rfl) | (right; rfl))
    have hSafe1 : Safe st (st.map (fun n => if n.nid ∈ (((currentIds.filter (fun i => seqOf st i = seqOf st t ∧ mergeOk (actionOf st i) (actionOf st t))).reverse).filter (fun i => toMergeOf st i = false)) then { n with toMerge := true } else n)) := by
      apply safe_map
      intro n
      by_cases hn : n.nid ∈ (((currentIds.filter (fun i => seqOf st i = seqOf st t ∧ mergeOk (actionOf st i) (actionOf st t))).reverse).filter (fun i => toMergeOf st i = false)) <;> (first | rw [if_pos hn] | rw [if_neg hn]) <;> (first | rfl | exact ⟨rfl, rfl, rfl, rfl⟩ | exact ⟨rfl, rfl, rfl⟩ | (left; rfl) | (right; rfl))
    have hlen1 : (st.map (fun n => if n.nid ∈ (((currentIds.filter (fun i => seqOf st i = seqOf st t ∧ mergeOk (actionOf st i) (actionOf st t))).reverse).filter (fun i => toMergeOf st i = false)) then { n with toMerge := true } else n)).length = st.length := List.length_map st _
    have hCore1 : CoreInv (st.map (fun n => if n.nid ∈ (((currentIds.filter (fun i => seqOf st i = seqOf st t ∧ mergeOk (actionOf st i) (actionOf st t))).reverse).filter (fun i => toMergeOf st i = false)) then { n with toMerge := true } else n)) := by
      refine ⟨hPos1, mergeInv_safe hM hSafe1, ?_, ?_⟩
      · rw [hlen1]
        exact setsBelow_safe hSB hSafe1
      · apply listsInv_map _ _ _ hLI
        intro n
        left
        by_cases hn : n.nid ∈ (((currentIds.filter (fun i => seqOf st i = seqOf st t ∧ mergeOk (actionOf st i) (actionOf st t))).reverse).filter (fun i => toMergeOf st i = false)) <;> (first | rw [if_pos hn] | rw [if_neg hn]) <;> (first | rfl | exact ⟨rfl, rfl, rfl, rfl⟩ | exact ⟨rfl, rfl, rfl⟩ | (left; rfl) | (right; rfl))
    have hlook1 : ∀ (k : Nat) (m : ENode), st[k]? = some m →
        (st.map (fun n => if n.nid ∈ (((currentIds.filter (fun i => seqOf st i = seqOf st t ∧ mergeOk (actionOf st i) (actionOf st t))).reverse).filter (fun i => toMergeOf st i = false)) then { n with toMerge := true } else n))[k]? = some (if m.nid ∈ (((currentIds.filter (fun i => seqOf st i = seqOf st t ∧ mergeOk (actionOf st i) (actionOf st t))).reverse).filter (fun i => toMergeOf st i = false)) then
          { m with toMerge := true } else m) := by
      intro k m hm
      rw [map_lookup, hm]
      rfl
    have hsets1 : ∀ (k : Nat) (n2 : ENode), (st.map (fun n => if n.nid ∈ (((currentIds.filter (fun i => seqOf st i = seqOf st t ∧ mergeOk (actionOf st i) (actionOf st t))).reverse).filter (fun i => toMergeOf st i = false)) then { n with toMerge := true } else n))[k]? = some n2 →
        ∃ m, st[k]? = some m ∧ n2.mergeSiblings = m.mergeSiblings ∧
          n2.seq = m.seq ∧ n2.action = m.action := by
      intro k n2 hn2
      rw [map_lookup] at hn2
      cases hp : st[k]? with
      | none =>
        rw [hp] at hn2
        cases hn2
      | some m =>
        rw [hp] at hn2
        have he : n2 = if m.nid ∈ (((currentIds.filter (fun i => seqOf st i = seqOf st t ∧ mergeOk (actionOf st i) (actionOf st t))).reverse).filter (fun i => toMergeOf st i = false)) then
            { m with toMerge := true } else m := by
          simpa using hn2.symm
        by_cases hn : m.nid ∈ (((currentIds.filter (fun i => seqOf st i = seqOf st t ∧ mergeOk (actionOf st i) (actionOf st t))).reverse).filter (fun i => toMergeOf st i = false))
        · rw [if_pos hn] at he
          exact ⟨m, rfl, by rw [he], by rw [he], by rw [he]⟩
        · rw [if_neg hn] at he
          exact ⟨m, rfl, by rw [he], by rw [he], by rw [he]⟩
    have hseq1 : ∀ j, seqOf (st.map (fun n => if n.nid ∈ (((currentIds.filter (fun i => seqOf st i = seqOf st t ∧ mergeOk (actionOf st i) (actionOf st t))).reverse).filter (fun i => toMergeOf st i = false)) then { n with toMerge := true } else n)) j = seqOf st j := by
      intro j
      cases hq : (st.map (fun n => if n.nid ∈ (((currentIds.filter (fun i => seqOf st i = seqOf st t ∧ mergeOk (actionOf st i) (actionOf st t))).reverse).filter (fun i => toMergeOf st i = false)) then { n with toMerge := true } else n))[j]? with
      | none =>
        have hpn : st[j]? = none := by
          cases hp : st[j]? with
          | none => rfl
          | some n =>
            rw [map_lookup, hp] at hq
            cases hq
        show (((st.map (fun n => if n.nid ∈ (((currentIds.filter (fun i => seqOf st i = seqOf st t ∧ mergeOk (actionOf st i) (actionOf st t))).reverse).filter (fun i => toMergeOf st i = false)) then { n with toMerge := true } else n))[j]?).map ENode.seq).getD [] =
          ((st[j]?).map ENode.seq).getD []
        rw [hq, hpn]
      | some n2 =>
        obtain ⟨m, hm, _, hseq, _⟩ := hsets1 j n2 hq
        show (((st.map (fun n => if n.nid ∈ (((currentIds.filter (fun i => seqOf st i = seqOf st t ∧ mergeOk (actionOf st i) (actionOf st t))).reverse).filter (fun i => toMergeOf st i = false)) then { n with toMerge := true } else n))[j]?).map ENode.seq).getD [] =
          ((st[j]?).map ENode.seq).getD []
        rw [hq, hm]
        simp only [Option.map_some', Option.getD_some]
        exact hseq
    have hact1 : ∀ j, actionOf (st.map (fun n => if n.nid ∈ (((currentIds.filter (fun i => seqOf st i = seqOf st t ∧ mergeOk (actionOf st i) (actionOf st t))).reverse).filter (fun i => toMergeOf st i = false)) then { n with toMerge := true } else n)) j = actionOf st j := by
      intro j
      cases hq : (st.map (fun n => if n.nid ∈ (((currentIds.filter (fun i => seqOf st i = seqOf st t ∧ mergeOk (actionOf st i) (actionOf st t))).reverse).filter (fun i => toMergeOf st i = false)) then { n with toMerge := true } else n))[j]? with
      | none =>
        have hpn : st[j]? = none := by
          cases hp : st[j]? with
          | none => rfl
          | some n =>
            rw [map_lookup, hp] at hq
            cases hq
        show (((st.map (fun n => if n.nid ∈ (((currentIds.filter (fun i => seqOf st i = seqOf st t ∧ mergeOk (actionOf st i) (actionOf st t))).reverse).filter (fun i => toMergeOf st i = false)) then { n with toMerge := true } else n))[j]?).map ENode.action).getD 'x' =
          ((st[j]?).map ENode.action).getD 'x'
        rw [hq, hpn]
      | some n2 =>
        obtain ⟨m, hm, _, _, hact⟩ := hsets1 j n2 hq
        show (((st.map (fun n => if n.nid ∈ (((currentIds.filter (fun i => seqOf st i = seqOf st t ∧ mergeOk (actionOf st i) (actionOf st t))).reverse).filter (fun i => toMergeOf st i = false)) then { n with toMerge := true } else n))[j]?).map ENode.action).getD 'x' =
          ((st[j]?).map ENode.action).getD 'x'
        rw [hq, hm]
        simp only [Option.map_some', Option.getD_some]
        exact hact
    have hval1 : ∀ j ∈ currentIds, ∃ m, (st.map (fun n => if n.nid ∈ (((currentIds.filter (fun i => seqOf st i = seqOf st t ∧ mergeOk (actionOf st i) (actionOf st t))).reverse).filter (fun i => toMergeOf st i = false)) then { n with toMerge := true } else n))[j]? = some m := by
      intro j hj
      obtain ⟨m, hm⟩ := hval j hj
      exact ⟨_, hlook1 j m hm⟩
    have hSplit1 : ∀ (q : Nat) (n : ENode), (st.map (fun n => if n.nid ∈ (((currentIds.filter (fun i => seqOf st i = seqOf st t ∧ mergeOk (actionOf st i) (actionOf st t))).reverse).filter (fun i => toMergeOf st i = false)) then { n with toMerge := true } else n))[q]? = some n →
        (∀ j ∈ n.mergeSiblings, j ∈ currentIds) ∨
        (∀ j ∈ n.mergeSiblings, j ∉ currentIds) := by
      intro q n hq
      obtain ⟨m, hm, he, _, _⟩ := hsets1 q n hq
      rw [he]
      exact hSplit q m hm
    by_cases h1g : 1 < (((((currentIds.filter (fun i => seqOf st i = seqOf st t ∧ mergeOk (actionOf st i) (actionOf st t))).reverse).filter (fun i => toMergeOf st i = false)) ++ (((currentIds.filter (fun i => seqOf st i = seqOf st t ∧ mergeOk (actionOf st i) (actionOf st t))).reverse).filter (fun i => toMergeOf st i = true)))).length
    · rw [if_pos h1g]
      -- the merge write
      have hexG : ∀ j ∈ (((((currentIds.filter (fun i => seqOf st i = seqOf st t ∧ mergeOk (actionOf st i) (actionOf st t))).reverse).filter (fun i => toMergeOf st i = false)) ++ (((currentIds.filter (fun i => seqOf st i = seqOf st t ∧ mergeOk (actionOf st i) (actionOf st t))).reverse).filter (fun i => toMergeOf st i = true)))), ∃ m, (st.map (fun n => if n.nid ∈ (((currentIds.filter (fun i => seqOf st i = seqOf st t ∧ mergeOk (actionOf st i) (actionOf st t))).reverse).filter (fun i => toMergeOf st i = false)) then { n with toMerge := true } else n))[j]? = some m :=
        fun j hj => hval1 j (hgcur j hj)
      have hcompG : ∀ a ∈ (((((currentIds.filter (fun i => seqOf st i = seqOf st t ∧ mergeOk (actionOf st i) (actionOf st t))).reverse).filter (fun i => toMergeOf st i = false)) ++ (((currentIds.filter (fun i => seqOf st i = seqOf st t ∧ mergeOk (actionOf st i) (actionOf st t))).reverse).filter (fun i => toMergeOf st i = true)))), ∀ b ∈ (((((currentIds.filter (fun i => seqOf st i = seqOf st t ∧ mergeOk (actionOf st i) (actionOf st t))).reverse).filter (fun i => toMergeOf st i = false)) ++ (((currentIds.filter (fun i => seqOf st i = seqOf st t ∧ mergeOk (actionOf st i) (actionOf st t))).reverse).filter (fun i => toMergeOf st i = true)))),
          seqOf (st.map (fun n => if n.nid ∈ (((currentIds.filter (fun i => seqOf st i = seqOf st t ∧ mergeOk (actionOf st i) (actionOf st t))).reverse).filter (fun i => toMergeOf st i = false)) then { n with toMerge := true } else n)) a = seqOf (st.map (fun n => if n.nid ∈ (((currentIds.filter (fun i => seqOf st i = seqOf st t ∧ mergeOk (actionOf st i) (actionOf st t))).reverse).filter (fun i => toMergeOf st i = false)) then { n with toMerge := true } else n)) b ∧
          mergeOk (actionOf (st.map (fun n => if n.nid ∈ (((currentIds.filter (fun i => seqOf st i = seqOf st t ∧ mergeOk (actionOf st i) (actionOf st t))).reverse).filter (fun i => toMergeOf st i = false)) then { n with toMerge := true } else n)) a) (actionOf (st.map (fun n => if n.nid ∈ (((currentIds.filter (fun i => seqOf st i = seqOf st t ∧ mergeOk (actionOf st i) (actionOf st t))).reverse).filter (fun i => toMergeOf st i = false)) then { n with toMerge := true } else n)) b) = true := by
        intro a ha b hb
        obtain ⟨_, hsa, hma⟩ := (hmemMD a).mp ((hgrp a).mp ha)
        obtain ⟨_, hsb, hmb⟩ := (hmemMD b).mp ((hgrp b).mp hb)
        rw [hseq1, hseq1, hact1, hact1]
        exact ⟨hsa.trans hsb.symm, mergeOk_trans2 _ _ _ hma hmb⟩
      have hsupG : ∀ (q : Nat) (n : ENode), (st.map (fun n => if n.nid ∈ (((currentIds.filter (fun i => seqOf st i = seqOf st t ∧ mergeOk (actionOf st i) (actionOf st t))).reverse).filter (fun i => toMergeOf st i = false)) then { n with toMerge := true } else n))[q]? = some n →
          ∀ j ∈ n.mergeSiblings, j ∈ (((((currentIds.filter (fun i => seqOf st i = seqOf st t ∧ mergeOk (actionOf st i) (actionOf st t))).reverse).filter (fun i => toMergeOf st i = false)) ++ (((currentIds.filter (fun i => seqOf st i = seqOf st t ∧ mergeOk (actionOf st i) (actionOf st t))).reverse).filter (fun i => toMergeOf st i = true)))) →
            ∀ l ∈ n.mergeSiblings, l ∈ (((((currentIds.filter (fun i => seqOf st i = seqOf st t ∧ mergeOk (actionOf st i) (actionOf st t))).reverse).filter (fun i => toMergeOf st i = false)) ++ (((currentIds.filter (fun i => seqOf st i = seqOf st t ∧ mergeOk (actionOf st i) (actionOf st t))).reverse).filter (fun i => toMergeOf st i = true)))) := by
        intro q n hq j hj hjg l hl
        obtain ⟨m, hm, he, _, _⟩ := hsets1 q n hq
        rw [he] at hj hl
        have hjc : j ∈ currentIds := hgcur j hjg
        rcases hSplit q m hm with hin | hout
        · -- the whole set lies in the current cohort
          have hlc : l ∈ currentIds := hin l hl
          have hne : m.mergeSiblings ≠ [] := by
            intro hemp
            rw [hemp] at hj
            cases hj
          obtain ⟨_, hall⟩ := hM q m hm hne
          obtain ⟨mj, hmj, _, sj, aj⟩ := hall j hj
          obtain ⟨ml, hml, _, sl, al⟩ := hall l hl
          obtain ⟨hjc2, hsj, hmj2⟩ := (hmemMD j).mp ((hgrp j).mp hjg)
          apply (hgrp l).mpr
          apply (hmemMD l).mpr
          refine ⟨hlc, ?_, ?_⟩
          · -- transcripts agree
            unfold seqOf at hsj ⊢
            rw [hml]
            rw [hmj] at hsj
            simp only [Option.map_some', Option.getD_some] at hsj ⊢
            rw [sl, ← sj]
            exact hsj
          · -- actions are compatible
            unfold actionOf at hmj2 ⊢
            rw [hml]
            rw [hmj] at hmj2
            simp only [Option.map_some', Option.getD_some] at hmj2 ⊢
            exact mergeOk_trans _ _ _
              (mergeOk_trans _ _ _ al (mergeOk_symm _ _ aj)) hmj2
        · exact absurd hjc (hout j hj)
      have hgb : ∀ j ∈ (((((currentIds.filter (fun i => seqOf st i = seqOf st t ∧ mergeOk (actionOf st i) (actionOf st t))).reverse).filter (fun i => toMergeOf st i = false)) ++ (((currentIds.filter (fun i => seqOf st i = seqOf st t ∧ mergeOk (actionOf st i) (actionOf st t))).reverse).filter (fun i => toMergeOf st i = true)))), j < (st.map (fun n => if n.nid ∈ (((currentIds.filter (fun i => seqOf st i = seqOf st t ∧ mergeOk (actionOf st i) (actionOf st t))).reverse).filter (fun i => toMergeOf st i = false)) then { n with toMerge := true } else n)).length := by
        intro j hj
        obtain ⟨m, hm⟩ := hexG j hj
        exact lookup_lt_length hm
      have hPos2 : PosId ((st.map (fun n => if n.nid ∈ (((currentIds.filter (fun i => seqOf st i = seqOf st t ∧ mergeOk (actionOf st i) (actionOf st t))).reverse).filter (fun i => toMergeOf st i = false)) then { n with toMerge := true } else n)).map (fun n => if n.nid ∈ (((((currentIds.filter (fun i => seqOf st i = seqOf st t ∧ mergeOk (actionOf st i) (actionOf st t))).reverse).filter (fun i => toMergeOf st i = false)) ++ (((currentIds.filter (fun i => seqOf st i = seqOf st t ∧ mergeOk (actionOf st i) (actionOf st t))).reverse).filter (fun i => toMergeOf st i = true)))) then { n with mergeSiblings := ((((currentIds.filter (fun i => seqOf st i = seqOf st t ∧ mergeOk (actionOf st i) (actionOf st t))).reverse).filter (fun i => toMergeOf st i = false)) ++ (((currentIds.filter (fun i => seqOf st i = seqOf st t ∧ mergeOk (actionOf st i) (actionOf st t))).reverse).filter (fun i => toMergeOf st i = true))), nodeType := NodeType.MERGED } else n)) := by
        apply posId_map _ _ _ hPos1
        intro n
        by_cases hn : n.nid ∈ (((((currentIds.filter (fun i => seqOf st i = seqOf st t ∧ mergeOk (actionOf st i) (actionOf st t))).reverse).filter (fun i => toMergeOf st i = false)) ++ (((currentIds.filter (fun i => seqOf st i = seqOf st t ∧ mergeOk (actionOf st i) (actionOf st t))).reverse).filter (fun i => toMergeOf st i = true)))) <;> (first | rw [if_pos hn] | rw [if_neg hn]) <;> (first | rfl | exact ⟨rfl, rfl, rfl, rfl⟩ | exact ⟨rfl, rfl, rfl⟩ | (left; rfl) | (right; rfl))
      have hM2 : MergeInv ((st.map (fun n => if n.nid ∈ (((currentIds.filter (fun i => seqOf st i = seqOf st t ∧ mergeOk (actionOf st i) (actionOf st t))).reverse).filter (fun i => toMergeOf st i = false)) then { n with toMerge := true } else n)).map (fun n => if n.nid ∈ (((((currentIds.filter (fun i => seqOf st i = seqOf st t ∧ mergeOk (actionOf st i) (actionOf st t))).reverse).filter (fun i => toMergeOf st i = false)) ++ (((currentIds.filter (fun i => seqOf st i = seqOf st t ∧ mergeOk (actionOf st i) (actionOf st t))).reverse).filter (fun i => toMergeOf st i = true)))) then { n with mergeSiblings := ((((currentIds.filter (fun i => seqOf st i = seqOf st t ∧ mergeOk (actionOf st i) (actionOf st t))).reverse).filter (fun i => toMergeOf st i = false)) ++ (((currentIds.filter (fun i => seqOf st i = seqOf st t ∧ mergeOk (actionOf st i) (actionOf st t))).reverse).filter (fun i => toMergeOf st i = true))), nodeType := NodeType.MERGED } else n)) :=
        groupWrite_mergeInv (st.map (fun n => if n.nid ∈ (((currentIds.filter (fun i => seqOf st i = seqOf st t ∧ mergeOk (actionOf st i) (actionOf st t))).reverse).filter (fun i => toMergeOf st i = false)) then { n with toMerge := true } else n)) (((((currentIds.filter (fun i => seqOf st i = seqOf st t ∧ mergeOk (actionOf st i) (actionOf st t))).reverse).filter (fun i => toMergeOf st i = false)) ++ (((currentIds.filter (fun i => seqOf st i = seqOf st t ∧ mergeOk (actionOf st i) (actionOf st t))).reverse).filter (fun i => toMergeOf st i = true)))) _
          (fun n => ⟨rfl, rfl, rfl, rfl⟩) hPos1 (mergeInv_safe hM hSafe1)
          hexG hcompG hsupG
      have hlen2 : ((st.map (fun n => if n.nid ∈ (((currentIds.filter (fun i => seqOf st i = seqOf st t ∧ mergeOk (actionOf st i) (actionOf st t))).reverse).filter (fun i => toMergeOf st i = false)) then { n with toMerge := true } else n)).map (fun n => if n.nid ∈ (((((currentIds.filter (fun i => seqOf st i = seqOf st t ∧ mergeOk (actionOf st i) (actionOf st t))).reverse).filter (fun i => toMergeOf st i = false)) ++ (((currentIds.filter (fun i => seqOf st i = seqOf st t ∧ mergeOk (actionOf st i) (actionOf st t))).reverse).filter (fun i => toMergeOf st i = true)))) then { n with mergeSiblings := ((((currentIds.filter (fun i => seqOf st i = seqOf st t ∧ mergeOk (actionOf st i) (actionOf st t))).reverse).filter (fun i => toMergeOf st i = false)) ++ (((currentIds.filter (fun i => seqOf st i = seqOf st t ∧ mergeOk (actionOf st i) (actionOf st t))).reverse).filter (fun i => toMergeOf st i = true))), nodeType := NodeType.MERGED } else n)).length = st.length := by
        rw [List.length_map, hlen1]
      have hCore2 : CoreInv ((st.map (fun n => if n.nid ∈ (((currentIds.filter (fun i => seqOf st i = seqOf st t ∧ mergeOk (actionOf st i) (actionOf st t))).reverse).filter (fun i => toMergeOf st i = false)) then { n with toMerge := true } else n)).map (fun n => if n.nid ∈ (((((currentIds.filter (fun i => seqOf st i = seqOf st t ∧ mergeOk (actionOf st i) (actionOf st t))).reverse).filter (fun i => toMergeOf st i = false)) ++ (((currentIds.filter (fun i => seqOf st i = seqOf st t ∧ mergeOk (actionOf st i) (actionOf st t))).reverse).filter (fun i => toMergeOf st i = true)))) then { n with mergeSiblings := ((((currentIds.filter (fun i => seqOf st i = seqOf st t ∧ mergeOk (actionOf st i) (actionOf st t))).reverse).filter (fun i => toMergeOf st i = false)) ++ (((currentIds.filter (fun i => seqOf st i = seqOf st t ∧ mergeOk (actionOf st i) (actionOf st t))).reverse).filter (fun i => toMergeOf st i = true))), nodeType := NodeType.MERGED } else n)) := by
        refine ⟨hPos2, hM2, ?_, ?_⟩
        · rw [hlen2, ← hlen1]
          apply setsBelow_map_group _ _ (((((currentIds.filter (fun i => seqOf st i = seqOf st t ∧ mergeOk (actionOf st i) (actionOf st t))).reverse).filter (fun i => toMergeOf st i = false)) ++ (((currentIds.filter (fun i => seqOf st i = seqOf st t ∧ mergeOk (actionOf st i) (actionOf st t))).reverse).filter (fun i => toMergeOf st i = true)))) _ _ hgb
          · rw [hlen1]
            exact setsBelow_safe hSB hSafe1
          · intro n
            by_cases hn : n.nid ∈ (((((currentIds.filter (fun i => seqOf st i = seqOf st t ∧ mergeOk (actionOf st i) (actionOf st t))).reverse).filter (fun i => toMergeOf st i = false)) ++ (((currentIds.filter (fun i => seqOf st i = seqOf st t ∧ mergeOk (actionOf st i) (actionOf st t))).reverse).filter (fun i => toMergeOf st i = true)))) <;> (first | rw [if_pos hn] | rw [if_neg hn]) <;> (first | rfl | exact ⟨rfl, rfl, rfl, rfl⟩ | exact ⟨rfl, rfl, rfl⟩ | (left; rfl) | (right; rfl))
        · apply listsInv_map
          · intro n
            left
            by_cases hn : n.nid ∈ (((((currentIds.filter (fun i => seqOf st i = seqOf st t ∧ mergeOk (actionOf st i) (actionOf st t))).reverse).filter (fun i => toMergeOf st i = false)) ++ (((currentIds.filter (fun i => seqOf st i = seqOf st t ∧ mergeOk (actionOf st i) (actionOf st t))).reverse).filter (fun i => toMergeOf st i = true)))) <;> (first | rw [if_pos hn] | rw [if_neg hn]) <;> (first | rfl | exact ⟨rfl, rfl, rfl, rfl⟩ | exact ⟨rfl, rfl, rfl⟩ | (left; rfl) | (right; rfl))
          · exact hCore1.2.2.2
      have hval2 : ∀ j ∈ currentIds, ∃ m, ((st.map (fun n => if n.nid ∈ (((currentIds.filter (fun i => seqOf st i = seqOf st t ∧ mergeOk (actionOf st i) (actionOf st t))).reverse).filter (fun i => toMergeOf st i = false)) then { n with toMerge := true } else n)).map (fun n => if n.nid ∈ (((((currentIds.filter (fun i => seqOf st i = seqOf st t ∧ mergeOk (actionOf st i) (actionOf st t))).reverse).filter (fun i => toMergeOf st i = false)) ++ (((currentIds.filter (fun i => seqOf st i = seqOf st t ∧ mergeOk (actionOf st i) (actionOf st t))).reverse).filter (fun i => toMergeOf st i = true)))) then { n with mergeSiblings := ((((currentIds.filter (fun i => seqOf st i = seqOf st t ∧ mergeOk (actionOf st i) (actionOf st t))).reverse).filter (fun i => toMergeOf st i = false)) ++ (((currentIds.filter (fun i => seqOf st i = seqOf st t ∧ mergeOk (actionOf st i) (actionOf st t))).reverse).filter (fun i => toMergeOf st i = true))), nodeType := NodeType.MERGED } else n))[j]? = some m := by
        intro j hj
        obtain ⟨m, hm⟩ := hval1 j hj
        rw [map_lookup]
        exact ⟨_, by rw [hm]; rfl⟩
      have hSplit2 : ∀ (q : Nat) (n : ENode), ((st.map (fun n => if n.nid ∈ (((currentIds.filter (fun i => seqOf st i = seqOf st t ∧ mergeOk (actionOf st i) (actionOf st t))).reverse).filter (fun i => toMergeOf st i = false)) then { n with toMerge := true } else n)).map (fun n => if n.nid ∈ (((((currentIds.filter (fun i => seqOf st i = seqOf st t ∧ mergeOk (actionOf st i) (actionOf st t))).reverse).filter (fun i => toMergeOf st i = false)) ++ (((currentIds.filter (fun i => seqOf st i = seqOf st t ∧ mergeOk (actionOf st i) (actionOf st t))).reverse).filter (fun i => toMergeOf st i = true)))) then { n with mergeSiblings := ((((currentIds.filter (fun i => seqOf st i = seqOf st t ∧ mergeOk (actionOf st i) (actionOf st t))).reverse).filter (fun i => toMergeOf st i = false)) ++ (((currentIds.filter (fun i => seqOf st i = seqOf st t ∧ mergeOk (actionOf st i) (actionOf st t))).reverse).filter (fun i => toMergeOf st i = true))), nodeType := NodeType.MERGED } else n))[q]? = some n →
          (∀ j ∈ n.mergeSiblings, j ∈ currentIds) ∨
          (∀ j ∈ n.mergeSiblings, j ∉ currentIds) := by
        intro q n hq
        rw [map_lookup] at hq
        cases hp : (st.map (fun n => if n.nid ∈ (((currentIds.filter (fun i => seqOf st i = seqOf st t ∧ mergeOk (actionOf st i) (actionOf st t))).reverse).filter (fun i => toMergeOf st i = false)) then { n with toMerge := true } else n))[q]? with
        | none =>
          rw [hp] at hq
          cases hq
        | some m =>
          rw [hp] at hq
          have he : n = if m.nid ∈ (((((currentIds.filter (fun i => seqOf st i = seqOf st t ∧ mergeOk (actionOf st i) (actionOf st t))).reverse).filter (fun i => toMergeOf st i = false)) ++ (((currentIds.filter (fun i => seqOf st i = seqOf st t ∧ mergeOk (actionOf st i) (actionOf st t))).reverse).filter (fun i => toMergeOf st i = true)))) then
              { m with mergeSiblings := (((((currentIds.filter (fun i => seqOf st i = seqOf st t ∧ mergeOk (actionOf st i) (actionOf st t))).reverse).filter (fun i => toMergeOf st i = false)) ++ (((currentIds.filter (fun i => seqOf st i = seqOf st t ∧ mergeOk (actionOf st i) (actionOf st t))).reverse).filter (fun i => toMergeOf st i = true)))),
                       nodeType := NodeType.MERGED } else m := by
            simpa using hq.symm
          by_cases hn : m.nid ∈ (((((currentIds.filter (fun i => seqOf st i = seqOf st t ∧ mergeOk (actionOf st i) (actionOf st t))).reverse).filter (fun i => toMergeOf st i = false)) ++ (((currentIds.filter (fun i => seqOf st i = seqOf st t ∧ mergeOk (actionOf st i) (actionOf st t))).reverse).filter (fun i => toMergeOf st i = true))))
          · rw [if_pos hn] at he
            left
            rw [he]
            exact hgcur
          · rw [if_neg hn] at he
            rw [he]
            exact hSplit1 q m hp
      obtain ⟨rc1, rc2⟩ := ih ((st.map (fun n => if n.nid ∈ (((currentIds.filter (fun i => seqOf st i = seqOf st t ∧ mergeOk (actionOf st i) (actionOf st t))).reverse).filter (fun i => toMergeOf st i = false)) then { n with toMerge := true } else n)).map (fun n => if n.nid ∈ (((((currentIds.filter (fun i => seqOf st i = seqOf st t ∧ mergeOk (actionOf st i) (actionOf st t))).reverse).filter (fun i => toMergeOf st i = false)) ++ (((currentIds.filter (fun i => seqOf st i = seqOf st t ∧ mergeOk (actionOf st i) (actionOf st t))).reverse).filter (fun i => toMergeOf st i = true)))) then { n with mergeSiblings := ((((currentIds.filter (fun i => seqOf st i = seqOf st t ∧ mergeOk (actionOf st i) (actionOf st t))).reverse).filter (fun i => toMergeOf st i = false)) ++ (((currentIds.filter (fun i => seqOf st i = seqOf st t ∧ mergeOk (actionOf st i) (actionOf st t))).reverse).filter (fun i => toMergeOf st i = true))), nodeType := NodeType.MERGED } else n)) hCore2 hval2 hSplit2
      exact ⟨rc1, rc2.trans hlen2⟩
    · rw [if_neg h1g]
      obtain ⟨rc1, rc2⟩ := ih (st.map (fun n => if n.nid ∈ (((currentIds.filter (fun i => seqOf st i = seqOf st t ∧ mergeOk (actionOf st i) (actionOf st t))).reverse).filter (fun i => toMergeOf st i = false)) then { n with toMerge := true } else n)) hCore1 hval1 hSplit1
      exact ⟨rc1, rc2.trans hlen1⟩

/-- The closing loop of grow_tree preserves the invariants, touches no
position at or above the bound, and emits fresh, distinct children as
the next frontier. -/
theorem ciLoop_inv (ctx : ETree) (ids : List Nat) :
    ∀ (st : Store) (B : Nat),
    CoreInv st → B ≤ st.length → SetsBelow st B →
    (∀ j ∈ ids, j < B) →
    CoreInv (ciLoop ctx st ids).1 ∧
    Safe st (ciLoop ctx st ids).1 ∧
    st.length ≤ (ciLoop ctx st ids).1.length ∧
    SetsBelow (ciLoop ctx st ids).1 B ∧
    (∀ (k : Nat) (m : ENode), B ≤ k → st[k]? = some m →
      (ciLoop ctx st ids).1[k]? = some m) ∧
    (∀ j ∈ (ciLoop ctx st ids).2, st.length ≤ j ∧
      FreshAt (ciLoop ctx st ids).1 j) ∧
    (ciLoop ctx st ids).2.Nodup := by
  induction ids with
  | nil =>
    intro st B hCore hB hSB hids
    rw [ciLoop]
    exact ⟨hCore, safe_refl st, le_refl _, hSB, fun k m _ hm => hm,
      fun j hj => absurd hj (List.not_mem_nil j), List.nodup_nil⟩
  | cons i rest ih =>
    intro st B hCore hB hSB hids
    have hiB : i < B := hids i (List.mem_cons_self i rest)
    have hidsr : ∀ j ∈ rest, j < B :=
      fun j hj => hids j (List.mem_cons_of_mem i hj)
    rw [ciLoop]
    cases hlook : st[i]? with
    | none => exact ih st B hCore hB hSB hidsr
    | some node =>
      simp only []
      have hsibB : ∀ j ∈ node.mergeSiblings, j < B := hSB i node hlook
      by_cases hM1 : node.nodeType = NodeType.MERGED
      · rw [if_pos hM1]
        by_cases hGL : node.gIndex + 1 = ctx.guide.length
        · rw [if_pos hGL]
          -- the COMPLETE marking
          obtain ⟨hPos, hM, hSBL, hLI⟩ := hCore
          have hPosU : PosId (updNode st i (fun n =>
              { n with nodeType := NodeType.COMPLETE })) :=
            posId_updNode st i _ (fun n => rfl) hPos
          have hSafeU : Safe st (updNode st i (fun n =>
              { n with nodeType := NodeType.COMPLETE })) :=
            safe_updNode st i _ (fun n => ⟨rfl, rfl, rfl, rfl⟩)
          have hlenU : (updNode st i (fun n =>
              { n with nodeType := NodeType.COMPLETE })).length =
              st.length := updNode_len st i _
          have hCoreU : CoreInv (updNode st i (fun n =>
              { n with nodeType := NodeType.COMPLETE })) := by
            refine ⟨hPosU, mergeInv_safe hM hSafeU, ?_, ?_⟩
            · rw [hlenU]
              exact setsBelow_safe hSBL hSafeU
            · unfold updNode
              apply listsInv_map _ _ _ hLI
              intro n
              left
              by_cases hn : n.nid = i <;> simp [hn]
          obtain ⟨rc1, rc2, rc3, rc4, rc5, rc6, rc7⟩ := ih _ B hCoreU
            (by omega) (setsBelow_safe hSB hSafeU) hidsr
          refine ⟨rc1, safe_trans hSafeU rc2, by omega, rc4, ?_, ?_,
            rc7⟩
          · intro k m hk hm
            apply rc5 k m hk
            rw [updNode_lookup st i _ hPos k, if_neg (by omega)]
            exact hm
          · intro j hj
            obtain ⟨hb, hf⟩ := rc6 j hj
            rw [hlenU] at hb
            exact ⟨hb, hf⟩
        · rw [if_neg hGL]
          by_cases hCE : node.children.isEmpty
          · rw [if_pos hCE]
            have hchE : node.children = [] := List.isEmpty_iff.mp hCE
            obtain ⟨gCore, gSafe, glen, gstab, p2, hlookP2, e1, e2, e3,
              e4, e5, e6, echld, hfreshC, hndC⟩ :=
              genPair_inv ctx st i node hCore hlook hchE
            simp only [hlookP2, Option.map_some', Option.getD_some]
            have hchB : ∀ j ∈ p2.children, B ≤ j ∧
                j < (genNondelChildren ctx (genDeleditChild ctx st i)
                  i).length := by
              intro j hj
              obtain ⟨hb, m, hm, _⟩ := hfreshC j hj
              exact ⟨le_trans hB hb, lookup_lt_length hm⟩
            have hsibB2 : ∀ j ∈ p2.mergeSiblings, j < B := by
              rw [e4]
              exact hsibB
            -- the sharing map
            have hFields : ∀ n : ENode,
                ((fun n => if n.nid ∈ p2.mergeSiblings ∧
                    n.children.isEmpty = true then
                  { n with children := p2.children,
                           childDeledit := p2.childDeledit,
                           childrenNondel := p2.childrenNondel }
                  else n) n).nid = n.nid ∧
                ((fun n => if n.nid ∈ p2.mergeSiblings ∧
                    n.children.isEmpty = true then
                  { n with children := p2.children,
                           childDeledit := p2.childDeledit,
                           childrenNondel := p2.childrenNondel }
                  else n) n).seq = n.seq ∧
                ((fun n => if n.nid ∈ p2.mergeSiblings ∧
                    n.children.isEmpty = true then
                  { n with children := p2.children,
                           childDeledit := p2.childDeledit,
                           childrenNondel := p2.childrenNondel }
                  else n) n).action = n.action ∧
                ((fun n => if n.nid ∈ p2.mergeSiblings ∧
                    n.children.isEmpty = true then
                  { n with children := p2.children,
                           childDeledit := p2.childDeledit,
                           childrenNondel := p2.childrenNondel }
                  else n) n).mergeSiblings = n.mergeSiblings := by
              intro n
              by_cases hn : n.nid ∈ p2.mergeSiblings ∧
                  n.children = [] <;> simp [hn]
            have hSafeC := safe_map (genNondelChildren ctx
              (genDeleditChild ctx st i) i) _ hFields
            have hlenC : ((genNondelChildren ctx (genDeleditChild ctx
                st i) i).map (fun n => if n.nid ∈ p2.mergeSiblings ∧
                    n.children.isEmpty = true then
                  { n with children := p2.children,
                           childDeledit := p2.childDeledit,
                           childrenNondel := p2.childrenNondel }
                  else n)).length = (genNondelChildren ctx
                (genDeleditChild ctx st i) i).length :=
              List.length_map _ _
            have hCoreC : CoreInv ((genNondelChildren ctx
                (genDeleditChild ctx st i) i).map
                (fun n => if n.nid ∈ p2.mergeSiblings ∧
                    n.children.isEmpty = true then
                  { n with children := p2.children,
                           childDeledit := p2.childDeledit,
                           childrenNondel := p2.childrenNondel }
                  else n)) := by
              refine ⟨posId_map _ _ (fun n => (hFields n).1) gCore.1,
                mergeInv_safe gCore.2.1 hSafeC, ?_, ?_⟩
              · rw [hlenC]
                exact setsBelow_safe gCore.2.2.1 hSafeC
              · apply listsInv_map _ _ _ gCore.2.2.2
                intro n
                by_cases hn : n.nid ∈ p2.mergeSiblings ∧
                    n.children = []
                · right
                  right
                  exact ⟨i, p2, hlookP2, by simp [hn], by simp [hn],
                    by simp [hn]⟩
                · left
                  simp [hn]
            have hstabC : ∀ (k : Nat) (m : ENode), B ≤ k →
                (genNondelChildren ctx (genDeleditChild ctx st i)
                  i)[k]? = some m →
                ((genNondelChildren ctx (genDeleditChild ctx st i)
                  i).map (fun n => if n.nid ∈ p2.mergeSiblings ∧
                    n.children.isEmpty = true then
                  { n with children := p2.children,
                           childDeledit := p2.childDeledit,
                           childrenNondel := p2.childrenNondel }
                  else n))[k]? = some m := by
              intro k m hk hm
              rw [map_lookup, hm]
              have hknid := gCore.1 k m hm
              have hnin : ¬(m.nid ∈ p2.mergeSiblings ∧
                  m.children = []) := by
                intro hcc
                rw [hknid] at hcc
                exact absurd (hsibB2 k hcc.1) (by omega)
              simp [hnin]
            obtain ⟨rc1, rc2, rc3, rc4, rc5, rc6, rc7⟩ := ih _ B hCoreC
              (by have := glen; omega)
              (setsBelow_safe hSB (safe_trans gSafe hSafeC)) hidsr
            refine ⟨rc1, safe_trans (safe_trans gSafe hSafeC) rc2,
              by have := glen; omega, rc4, ?_, ?_, ?_⟩
            · intro k m hk hm
              exact rc5 k m hk (hstabC k m hk
                (gstab k m (by omega) hm))
            · intro j hj
              rcases List.mem_append.mp hj with hjc | hjr
              · obtain ⟨hb, m, hm, f1, f2, f3, f4⟩ := hfreshC j hjc
                refine ⟨hb, m, ?_, f1, f2, f3, f4⟩
                exact rc5 j m (hchB j hjc).1 (hstabC j m (hchB j hjc).1
                  hm)
              · obtain ⟨hb, hf⟩ := rc6 j hjr
                rw [hlenC] at hb
                exact ⟨by have := glen; omega, hf⟩
            · rw [List.nodup_append]
              refine ⟨hndC, rc7, ?_⟩
              intro a ha har
              have h1 := (hchB a ha).2
              have h2 := (rc6 a har).1
              rw [hlenC] at h2
              omega
          · rw [if_neg hCE]
            simp only [hlook]
            -- no generation: only the sharing map
            obtain ⟨hPos, hM, hSBL, hLI⟩ := hCore
            have hFields : ∀ n : ENode,
                ((fun n => if n.nid ∈ node.mergeSiblings ∧
                    n.children.isEmpty = true then
                  { n with children := node.children,
                           childDeledit := node.childDeledit,
                           childrenNondel := node.childrenNondel }
                  else n) n).nid = n.nid ∧
                ((fun n => if n.nid ∈ node.mergeSiblings ∧
                    n.children.isEmpty = true then
                  { n with children := node.children,
                           childDeledit := node.childDeledit,
                           childrenNondel := node.childrenNondel }
                  else n) n).seq = n.seq ∧
                ((fun n => if n.nid ∈ node.mergeSiblings ∧
                    n.children.isEmpty = true then
                  { n with children := node.children,
                           childDeledit := node.childDeledit,
                           childrenNondel := node.childrenNondel }
                  else n) n).action = n.action ∧
                ((fun n => if n.nid ∈ node.mergeSiblings ∧
                    n.children.isEmpty = true then
                  { n with children := node.children,
                           childDeledit := node.childDeledit,
                           childrenNondel := node.childrenNondel }
                  else n) n).mergeSiblings = n.mergeSiblings := by
              intro n
              by_cases hn : n.nid ∈ node.mergeSiblings ∧
                  n.children = [] <;> simp [hn]
            have hSafeC := safe_map st _ hFields
            have hlenC : (st.map (fun n =>
                if n.nid ∈ node.mergeSiblings ∧
                    n.children.isEmpty = true then
                  { n with children := node.children,
                           childDeledit := node.childDeledit,
                           childrenNondel := node.childrenNondel }
                  else n)).length = st.length := List.length_map _ _
            have hCoreC : CoreInv (st.map (fun n =>
                if n.nid ∈ node.mergeSiblings ∧
                    n.children.isEmpty = true then
                  { n with children := node.children,
                           childDeledit := node.childDeledit,
                           childrenNondel := node.childrenNondel }
                  else n)) := by
              refine ⟨posId_map _ _ (fun n => (hFields n).1) hPos,
                mergeInv_safe hM hSafeC, ?_, ?_⟩
              · rw [hlenC]
                exact setsBelow_safe hSBL hSafeC
              · apply listsInv_map _ _ _ hLI
                intro n
                by_cases hn : n.nid ∈ node.mergeSiblings ∧
                    n.children = []
                · right
                  right
                  exact ⟨i, node, hlook, by simp [hn], by simp [hn],
                    by simp [hn]⟩
                · left
                  simp [hn]
            have hstabC : ∀ (k : Nat) (m : ENode), B ≤ k →
                st[k]? = some m →
                (st.map (fun n => if n.nid ∈ node.mergeSiblings ∧
                    n.children.isEmpty = true then
                  { n with children := node.children,
                           childDeledit := node.childDeledit,
                           childrenNondel := node.childrenNondel }
                  else n))[k]? = some m := by
              intro k m hk hm
              rw [map_lookup, hm]
              have hknid := hPos k m hm
              have hnin : ¬(m.nid ∈ node.mergeSiblings ∧
                  m.children = []) := by
                intro hcc
                rw [hknid] at hcc
                exact absurd (hsibB k hcc.1) (by omega)
              simp [hnin]
            obtain ⟨rc1, rc2, rc3, rc4, rc5, rc6, rc7⟩ := ih _ B hCoreC
              (by omega) (setsBelow_safe hSB hSafeC) hidsr
            refine ⟨rc1, safe_trans hSafeC rc2, by omega, rc4, ?_, ?_,
              ?_⟩
            · intro k m hk hm
              exact rc5 k m hk (hstabC k m hk hm)
            · intro j hj
              rcases List.mem_append.mp hj with hjc | hjr
              · cases hjc
              · obtain ⟨hb, hf⟩ := rc6 j hjr
                rw [hlenC] at hb
                exact ⟨hb, hf⟩
            · rw [List.nodup_append]
              exact ⟨List.nodup_nil, rc7, fun a ha => absurd ha
                (List.not_mem_nil a)⟩
      · rw [if_neg hM1]
        by_cases hA : node.nodeType = NodeType.ACTIVE
        · rw [if_pos hA]
          by_cases hCE : node.children.isEmpty
          · rw [if_pos hCE]
            have hchE : node.children = [] := List.isEmpty_iff.mp hCE
            obtain ⟨gCore, gSafe, glen, gstab, p2, hlookP2, e1, e2, e3,
              e4, e5, e6, echld, hfreshC, hndC⟩ :=
              genPair_inv ctx st i node hCore hlook hchE
            simp only [hlookP2, Option.map_some', Option.getD_some]
            have hchB : ∀ j ∈ p2.children, B ≤ j ∧
                j < (genNondelChildren ctx (genDeleditChild ctx st i)
                  i).length := by
              intro j hj
              obtain ⟨hb, m, hm, _⟩ := hfreshC j hj
              exact ⟨le_trans hB hb, lookup_lt_length hm⟩
            obtain ⟨rc1, rc2, rc3, rc4, rc5, rc6, rc7⟩ := ih _ B gCore
              (by have := glen; omega) (setsBelow_safe hSB gSafe) hidsr
            refine ⟨rc1, safe_trans gSafe rc2, by have := glen; omega,
              rc4, ?_, ?_, ?_⟩
            · intro k m hk hm
              exact rc5 k m hk (gstab k m (by omega) hm)
            · intro j hj
              rcases List.mem_append.mp hj with hjc | hjr
              · obtain ⟨hb, m, hm, f1, f2, f3, f4⟩ := hfreshC j hjc
                exact ⟨hb, m, rc5 j m (hchB j hjc).1 hm, f1, f2, f3,
                  f4⟩
              · obtain ⟨hb, hf⟩ := rc6 j hjr
                exact ⟨by have := glen; omega, hf⟩
            · rw [List.nodup_append]
              refine ⟨hndC, rc7, ?_⟩
              intro a ha har
              have h1 := (hchB a ha).2
              have h2 := (rc6 a har).1
              omega
          · rw [if_neg hCE]
            exact ih st B ⟨hCore.1, hCore.2.1, hCore.2.2.1,
              hCore.2.2.2⟩ hB hSB hidsr
        · rw [if_neg hA]
          exact ih st B hCore hB hSB hidsr

/-- The whole-step invariant of grow_tree: the store is coherent and
the frontier is a duplicate-free list of fresh nodes that no merge set
mentions. -/
def GrowInv (st : Store) (frontier : List Nat) : Prop :=
  CoreInv st ∧
  frontier.Nodup ∧
  (∀ j ∈ frontier, FreshAt st j) ∧
  (∀ j ∈ frontier, ∀ (q : Nat) (n : ENode), st[q]? = some n →
    j ∉ n.mergeSiblings)

theorem growStep_inv (ctx : ETree) (fuel : Nat) (st : Store)
    (frontier : List Nat) (hG : GrowInv st frontier) :
    GrowInv (growStep ctx fuel st frontier).1
      (growStep ctx fuel st frontier).2 := by
  obtain ⟨hCore, hnd, hfr, hF⟩ := hG
  have hdnd : (frontier.filter (fun i => actionOf st i = 'd')).Nodup :=
    hnd.filter _
  have hdsub : ∀ j ∈ frontier.filter (fun i => actionOf st i = 'd'),
      j ∈ frontier := fun j hj => List.mem_of_mem_filter hj
  have hdfresh : ∀ j ∈ frontier.filter (fun i => actionOf st i = 'd'),
      ∃ m, st[j]? = some m ∧ m.children = [] ∧
        m.childrenNondel = [] ∧ m.childDeledit = [] := by
    intro j hj
    obtain ⟨m, hm, _, f2, f3, f4⟩ := hfr j (hdsub j hj)
    exact ⟨m, hm, f2, f3, f4⟩
  have hdF : ∀ j ∈ frontier.filter (fun i => actionOf st i = 'd'),
      ∀ (q : Nat) (n : ENode), st[q]? = some n →
        j ∉ n.mergeSiblings :=
    fun j hj => hF j (hdsub j hj)
  obtain ⟨dc1, dc2, dc3, dc4, dc5⟩ := delRounds_inv ctx fuel st
    (frontier.filter (fun i => actionOf st i = 'd')) [] hCore hdnd
    hdfresh hdF
  have hfval : ∀ j ∈ frontier, ∃ m,
      (delRounds ctx fuel st (frontier.filter
        (fun i => actionOf st i = 'd')) []).1[j]? = some m := by
    intro j hj
    obtain ⟨m, hm, _⟩ := hfr j hj
    obtain ⟨m2, hm2, _⟩ := dc3 j m hm
    exact ⟨m2, hm2⟩
  have hc2val : ∀ j ∈ frontier ++ (delRounds ctx fuel st
      (frontier.filter (fun i => actionOf st i = 'd')) []).2,
      ∃ m, (delRounds ctx fuel st (frontier.filter
        (fun i => actionOf st i = 'd')) []).1[j]? = some m := by
    intro j hj
    rcases List.mem_append.mp hj with hjf | hjr
    · exact hfval j hjf
    · rcases dc5 j hjr with h | ⟨_, h⟩
      · cases h
      · exact h
  have hsplit : ∀ (q : Nat) (n : ENode),
      (delRounds ctx fuel st (frontier.filter
        (fun i => actionOf st i = 'd')) []).1[q]? = some n →
      (∀ j ∈ n.mergeSiblings, j ∈ frontier ++ (delRounds ctx fuel st
        (frontier.filter (fun i => actionOf st i = 'd')) []).2) ∨
      (∀ j ∈ n.mergeSiblings, j ∉ frontier ++ (delRounds ctx fuel st
        (frontier.filter (fun i => actionOf st i = 'd')) []).2) := by
    intro q n hq
    rcases dc4 q n hq with ⟨m, hm, he⟩ | hsub
    · right
      rw [he]
      intro j hj hjc
      rcases List.mem_append.mp hjc with hjf | hjr
      · exact hF j hjf q m hm hj
      · rcases dc5 j hjr with h | ⟨hge, _⟩
        · cases h
        · have := hCore.2.2.1 q m hm j hj
          omega
    · left
      intro j hj
      rcases hsub j hj with hjd | hjr
      · exact List.mem_append_left _ (hdsub j hjd)
      · exact List.mem_append_right _ hjr
  obtain ⟨mc1, mc2⟩ := cMergeTests_inv
    (frontier ++ (delRounds ctx fuel st (frontier.filter
      (fun i => actionOf st i = 'd')) []).2)
    (((delRounds ctx fuel st (frontier.filter
      (fun i => actionOf st i = 'd')) []).2.filter
      (fun i => typeOf (delRounds ctx fuel st (frontier.filter
        (fun i => actionOf st i = 'd')) []).1 i ≠
        NodeType.MERGED)).reverse)
    (delRounds ctx fuel st (frontier.filter
      (fun i => actionOf st i = 'd')) []).1 dc1 hc2val hsplit
  have hc2lt : ∀ j ∈ frontier ++ (delRounds ctx fuel st
      (frontier.filter (fun i => actionOf st i = 'd')) []).2,
      j < (cMergeTests (frontier ++ (delRounds ctx fuel st
        (frontier.filter (fun i => actionOf st i = 'd')) []).2)
        (delRounds ctx fuel st (frontier.filter
          (fun i => actionOf st i = 'd')) []).1
        (((delRounds ctx fuel st (frontier.filter
          (fun i => actionOf st i = 'd')) []).2.filter
          (fun i => typeOf (delRounds ctx fuel st (frontier.filter
            (fun i => actionOf st i = 'd')) []).1 i ≠
            NodeType.MERGED)).reverse)).length := by
    intro j hj
    obtain ⟨m, hm⟩ := hc2val j hj
    have := lookup_lt_length hm
    omega
  obtain ⟨cc1, cc2, cc3, cc4, cc5, cc6, cc7⟩ := ciLoop_inv ctx
    (frontier ++ (delRounds ctx fuel st (frontier.filter
      (fun i => actionOf st i = 'd')) []).2) _ _ mc1 (le_refl _)
    mc1.2.2.1 hc2lt
  refine ⟨cc1, cc7, ?_, ?_⟩
  · intro j hj
    exact (cc6 j hj).2
  · intro j hj q n hq hjn
    have hjge := (cc6 j hj).1
    rcases cc2.2.2 q n hq with ⟨he, _⟩ | ⟨m, hm, _, _, _, he⟩
    · rw [he] at hjn
      cases hjn
    · rw [he] at hjn
      have := mc1.2.2.1 q m hm j hjn
      omega

theorem growLoop_inv (ctx : ETree) : ∀ (fuel : Nat) (st : Store)
    (frontier : List Nat), GrowInv st frontier →
    CoreInv (growLoop ctx fuel st frontier) := by
  intro fuel
  induction fuel with
  | zero =>
    intro st frontier hG
    exact hG.1
  | succ fuel ih =>
    intro st frontier hG
    rw [growLoop]
    have hstep := growStep_inv ctx (fuel + 1) st frontier hG
    by_cases hE : (growStep ctx (fuel + 1) st frontier).2.isEmpty
    · rw [if_pos hE]
      exact hstep.1
    · rw [if_neg hE]
      exact ih _ _ hstep

theorem buildTree_inv (ctx : ETree) (fuel : Nat) :
    CoreInv (buildTree ctx fuel) := by
  have hroot : ([mkRoot ctx] : Store)[0]? = some (mkRoot ctx) := rfl
  have hsingle : ∀ (i : Nat) (n : ENode),
      ([mkRoot ctx] : Store)[i]? = some n → i = 0 ∧ n = mkRoot ctx := by
    intro i n h
    have := lookup_lt_length h
    have hi : i = 0 := by
      simp at this
      omega
    subst hi
    rw [hroot] at h
    exact ⟨rfl, (Option.some.inj h).symm⟩
  have hCore0 : CoreInv ([mkRoot ctx] : Store) := by
    refine ⟨?_, ?_, ?_, ?_⟩
    · intro i n h
      obtain ⟨hi, hn⟩ := hsingle i n h
      rw [hi, hn]
      rfl
    · intro i n h hne
      obtain ⟨_, hn⟩ := hsingle i n h
      rw [hn] at hne
      exact absurd rfl hne
    · intro i n h j hj
      obtain ⟨_, hn⟩ := hsingle i n h
      rw [hn] at hj
      cases hj
    · intro i n h _
      obtain ⟨_, hn⟩ := hsingle i n h
      rw [hn]
      exact ⟨rfl, rfl⟩
  obtain ⟨gCore, gSafe, glen, gstab, p2, hlookP2, e1, e2, e3, e4, e5,
    e6, echld, hfreshC, hndC⟩ :=
    genPair_inv ctx [mkRoot ctx] 0 (mkRoot ctx) hCore0 hroot rfl
  unfold buildTree
  simp only [hlookP2, Option.map_some', Option.getD_some]
  apply growLoop_inv
  refine ⟨gCore, hndC, ?_, ?_⟩
  · intro j hj
    exact (hfreshC j hj).2
  · intro j hj q n hq hjn
    rcases gSafe.2.2 q n hq with ⟨he, _⟩ | ⟨m, hm, _, _, _, he⟩
    · rw [he] at hjn
      cases hjn
    · obtain ⟨_, hmr⟩ := hsingle q m hm
      rw [he, hmr] at hjn
      cases hjn

/-- Claim C2 (amended): in every edit tree, every nonempty merge set
contains its owner, and all of its members exist, carry the very same
merge_siblings list (the shared set), an identical resulting transcript,
and pairwise compatible actions (each pair lies in dd, ip, pi, ii, pp);
the children lists of the members may however differ, as the
counterexample shows. -/
theorem claim_C2 (ctx : ETree) (fuel : Nat) :
    ∀ (i : Nat) (n : ENode), (buildTree ctx fuel)[i]? = some n →
      n.mergeSiblings ≠ [] →
      i ∈ n.mergeSiblings ∧
      ∀ j ∈ n.mergeSiblings, ∃ m, (buildTree ctx fuel)[j]? = some m ∧
        m.mergeSiblings = n.mergeSiblings ∧ m.seq = n.seq ∧
        mergeOk m.action n.action = true := by
  intro i n hn hne
  exact (buildTree_inv ctx fuel).2.1 i n hn hne

/-- Node 10 of the tree grown from messenger uuuca and guide aaa: a
MERGED delete node sharing one merge set with node 17. -/
def c2node : ENode :=
  { nid := 10, parent := some 4, action := 'd',
    seq := ['u', 'c', 'a'], mIndex := 1, gIndex := 1, editLevel := 3,
    prevGMismatch := 0, mismatches := 1,
    nodeType := NodeType.MERGED, toMerge := true,
    mergeSiblings := [17, 10], children := [16], childDeledit := [],
    childrenNondel := [16] }

set_option maxHeartbeats 2000000 in
theorem claim_C2_witness :
    (buildTree cexCtx 4)[10]? = some c2node ∧
    c2node.mergeSiblings ≠ [] ∧
    (10 ∈ c2node.mergeSiblings ∧
     ∀ j ∈ c2node.mergeSiblings, ∃ m,
       (buildTree cexCtx 4)[j]? = some m ∧
       m.mergeSiblings = c2node.mergeSiblings ∧ m.seq = c2node.seq ∧
       mergeOk m.action c2node.action = true) := by
  have h1 : (buildTree cexCtx 4)[10]? = some c2node := by decide
  have h2 : c2node.mergeSiblings ≠ [] := by decide
  exact ⟨h1, h2, claim_C2 cexCtx 4 10 c2node h1 h2⟩

end Minicircle
